import Mathlib

/-!
# Word frequency count (wfc.c / wfc.cpp): chunk resolver, partitioner, aggregator

A shallow embedding of the two programs of the repository.

* A file is a `List Nat` of byte values (0..255).
* `char` comparisons in `isskip` only separate ASCII letters, `-` and the
  apostrophe from everything else, so the signedness of `char` plays no role.
* `size_t` / `long int` / `int` values are modelled by `Nat` / `Int`; the
  theorems are about ranges with `file_offset ≤ end` (the only ones `main`
  produces), file sizes below `2^53` (so that the `double` ceiling division of
  wfc.c is exact) and fewer than `2^31` tokens (so that the `int` counters do
  not overflow).
* `malloc`, `fopen`, `shmget` and `fork` are assumed to succeed.
-/

namespace Wfc

/-! ## Constants -/

/-- The constant `MAX_WORD_LENGTH` of both programs. -/
def MAX_WORD_LENGTH : Nat := 64

/-! ## Tokenizer: `isskip`, `seek_next` -/

/-- The function `isskip`: true iff the byte does not belong to a word, i.e. it is
neither a lower-case letter (97..122), nor an upper-case letter (65..90), nor
`-` (45), nor the apostrophe (39). -/
def isskip (c : Nat) : Bool :=
  !(decide (97 ≤ c) && decide (c ≤ 122)) && !(decide (65 ≤ c) && decide (c ≤ 90))
    && (c != 45) && (c != 39)

/-- The `for` loop of `seek_next`, started at index `i` with
`fuel = buffer_length - i` iterations left: `fuel = 0` is the exit test
`i < buffer_length` failing, the `if` is the `break`. -/
def seek_next_from (buffer : Nat → Nat) (skip : Bool) : Nat → Nat → Nat
  | 0, i => i
  | fuel + 1, i =>
    let skip_char := isskip (buffer i)
    if (skip && skip_char) || (!skip && !skip_char) then i
    else seek_next_from buffer skip fuel (i + 1)

/-- The function `seek_next`: index of the next skippable (if `skip`) or word
character (if not `skip`) at or after `offset`; the loop variable `i` is returned
as it stands when the loop is left. -/
def seek_next (buffer : Nat → Nat) (offset buffer_length : Nat) (skip : Bool) : Nat :=
  seek_next_from buffer skip (buffer_length - offset) offset

/-- The function `seek_next_nonskip`. -/
def seek_next_nonskip (buffer : Nat → Nat) (offset buffer_length : Nat) : Nat :=
  seek_next buffer offset buffer_length false

/-- The function `seek_next_skip`. -/
def seek_next_skip (buffer : Nat → Nat) (offset buffer_length : Nat) : Nat :=
  seek_next buffer offset buffer_length true

/-! ## Chunk resolver: `child_parse` -/

/-- What a child leaves behind: the tokens it copied (in the order of the loop
iterations), the bytes it wrote through `shm_offset` starting at `word_buffer`,
and the value stored in `*number_words`. -/
structure child_output where
  words : List (List Nat)
  shm : List Nat
  number_words : Nat
deriving DecidableEq, Repr

/-- The `while` loop of `child_parse` ("start parsing words"). One unit of fuel
is one evaluation of the loop condition; `none` means the fuel ran out before
the condition became false. Each iteration copies
`buffer[parse_position .. next_parse_position)` (the `memcpy`), writes the
terminating null byte and increments `word_counter`. -/
def parse_loop (buffer : Nat → Nat) (buffer_end parse_bound : Nat) :
    Nat → Nat → Option child_output
  | 0, _ => none
  | fuel + 1, parse_position =>
    if parse_position < buffer_end ∧ parse_position < parse_bound then
      let next_parse_position := seek_next_skip buffer parse_position buffer_end
      let word_length := next_parse_position - parse_position
      let word := (List.range word_length).map (fun k => buffer (parse_position + k))
      (parse_loop buffer buffer_end parse_bound fuel
          (seek_next_nonskip buffer next_parse_position buffer_end)).map
        (fun rest =>
          { words := word :: rest.words
            shm := word ++ 0 :: rest.shm
            number_words := rest.number_words + 1 })
    else some { words := [], shm := [], number_words := 0 }

/-- The "prepare parsing of words in buffer" step of `child_parse`: the initial
`parse_position`. -/
def initial_parse_position (buffer : Nat → Nat) (buffer_end file_offset end_ : Nat) : Nat :=
  if file_offset > 0 then
    if isskip (buffer 0) then
      seek_next_nonskip buffer 1 buffer_end
    else
      if end_ - file_offset > 1 then
        if isskip (buffer 1) then
          seek_next_nonskip buffer 2 buffer_end
        else
          seek_next_nonskip buffer (seek_next_skip buffer 2 buffer_end) buffer_end
      else
        1
  else
    0

/-- The bytes `fread` puts into the buffer of `child_parse`: at most
`buffer_size` bytes of the file from the position of the `fseek`. -/
def read_buffer (file : List Nat) (file_offset end_ : Nat) : List Nat :=
  (file.drop (if file_offset > 0 then file_offset - 1 else 0)).take
    (end_ - file_offset + MAX_WORD_LENGTH + 1)

/-- The function `child_parse` on the content `file` of the input file.
`junk i` is the value the freshly allocated buffer holds at an index `i` that
`fread` did not fill. The loop gets `buffer_end + 1` units of fuel. -/
def child_parse (file : List Nat) (junk : Nat → Nat) (file_offset end_ : Nat) :
    Option child_output :=
  let data := read_buffer file file_offset end_
  let buffer_end := data.length
  let buffer := fun i => data.getD i (junk i)
  let parse_position := initial_parse_position buffer buffer_end file_offset end_
  let parse_bound := if file_offset > 0 then end_ - file_offset + 1 else end_ - file_offset
  parse_loop buffer buffer_end parse_bound (buffer_end + 1) parse_position

/-! ## Partitioner: the ranges of `main` -/

/-- The number of children `main` settles on for a file of `inputfs > 0` bytes. -/
def no_childs (inputfs parallelism : Nat) : Nat :=
  if inputfs < parallelism then inputfs else parallelism

/-- The value `chars_per_child` of wfc.c: `ceil(inputfs / no_childs)`. -/
def chars_per_child_c (inputfs n : Nat) : Nat :=
  (inputfs + n - 1) / n

/-- The value `chars_per_child` of wfc.cpp: `inputfs / no_childs + 1`. -/
def chars_per_child_cpp (inputfs n : Nat) : Nat :=
  inputfs / n + 1

/-- The children `main` forks: child `i` runs `child_parse` on
`[i * chars_per_child, (i + 1) * chars_per_child)`; `junk i` is the
uninitialised content of the buffer of child `i`. The result lists the outputs
of the children by child index. -/
def run_children (file : List Nat) (junk : Nat → Nat → Nat) (chars_per_child n : Nat) :
    Option (List child_output) :=
  (List.range n).mapM
    (fun i => child_parse file (junk i) (i * chars_per_child) ((i + 1) * chars_per_child))

/-- All children of wfc.c for a requested parallelism. -/
def run_children_c (file : List Nat) (junk : Nat → Nat → Nat) (parallelism : Nat) :
    Option (List child_output) :=
  let n := no_childs file.length parallelism
  run_children file junk (chars_per_child_c file.length n) n

/-- All children of wfc.cpp for a requested parallelism. -/
def run_children_cpp (file : List Nat) (junk : Nat → Nat → Nat) (parallelism : Nat) :
    Option (List child_output) :=
  let n := no_childs file.length parallelism
  run_children file junk (chars_per_child_cpp file.length n) n

/-- The tokens of all children, in the order of the child index. -/
def all_words (outs : List child_output) : List (List Nat) :=
  outs.flatMap (fun o => o.words)


/-! ## Reference notions: the words of a file -/

/-- The maximal run of word characters of `file` that begins at offset `i`
(empty when `i` is past the end or holds a skippable byte). -/
def word_at (file : List Nat) (i : Nat) : List Nat :=
  (file.drop i).takeWhile (fun c => !isskip c)

/-- Offset `i` holds the first byte of a word of `file`: a word character that
is the first byte of the file or follows a skippable byte. -/
def is_word_start (file : List Nat) (i : Nat) : Bool :=
  decide (i < file.length) && !isskip (file.getD i 0)
    && (decide (i = 0) || isskip (file.getD (i - 1) 0))

/-- The offsets in `[a, b)` at which a word of `file` begins, ascending. -/
def word_starts_in (file : List Nat) (a b : Nat) : List Nat :=
  (List.range' a (b - a)).filter (is_word_start file)

/-- The words of `file` whose first byte is at an offset in `[a, b)`, in file
order. -/
def words_in (file : List Nat) (a b : Nat) : List (List Nat) :=
  (word_starts_in file a b).map (word_at file)

/-- Every word of `file` is at most `MAX_WORD_LENGTH` bytes long. -/
def words_bounded (file : List Nat) : Prop :=
  ∀ i, i < file.length → (word_at file i).length ≤ MAX_WORD_LENGTH

instance (file : List Nat) : Decidable (words_bounded file) :=
  inferInstanceAs (Decidable (∀ i, i < file.length → _))

/-- The output of a child that emits exactly the tokens `ws`: each token is
followed by one null byte, and the count is the number of tokens. -/
def output_of (ws : List (List Nat)) : child_output :=
  { words := ws
    shm := ws.flatMap (fun w => w ++ [0])
    number_words := ws.length }

/-- The first offset at or after `i` that does not hold a word character: the
end of the tail of a word that runs through offset `i`. -/
def tail_end (file : List Nat) (i : Nat) : Nat :=
  i + (word_at file i).length


/-- The empty token the parse loop emits when the range begins at offset 0 and
the file begins with a skippable byte (`parse_position = 0` is then not the
first byte of a word). -/
def leading_token (file : List Nat) (end_ : Nat) : List (List Nat) :=
  if 0 < end_ ∧ 0 < file.length ∧ isskip (file.getD 0 0) = true then [[]] else []

/-! ## Aggregator of wfc.c: `aggregate_results` -/

/-- The struct `word_count`; `word` is the string the pointer refers to, given by
its bytes before the terminating null byte. -/
structure word_count where
  count : Int
  word : List Nat
deriving DecidableEq, Repr

instance : Inhabited word_count := ⟨{ count := 0, word := [] }⟩

/-- The library function `strcmp` on two strings: the difference of the first
pair of bytes that differ, the end of a list standing for the terminating null
byte; a null byte inside a list ends the string. Only the sign of the result is
used by the programs. -/
def strcmp : List Nat → List Nat → Int
  | [], [] => 0
  | [], b :: _ => 0 - (b : Int)
  | a :: _, [] => (a : Int)
  | a :: as, b :: bs =>
    if a = b then (if a = 0 then 0 else strcmp as bs) else (a : Int) - (b : Int)

/-- The comparison function `cmp_alpha_asc`. -/
def cmp_alpha_asc (wc1 wc2 : word_count) : Int :=
  strcmp wc1.word wc2.word

/-- The comparison function `cmp_int_desc`. -/
def cmp_int_desc (wc1 wc2 : word_count) : Int :=
  wc2.count - wc1.count

/-- What the C standard asks of a comparison function handed to `qsort`: it
orders the elements consistently (totality and transitivity of "not after"). -/
def cmp_consistent (cmp : word_count → word_count → Int) : Prop :=
  (∀ a b, cmp a b ≤ 0 ∨ cmp b a ≤ 0) ∧
    (∀ a b c, cmp a b ≤ 0 → cmp b c ≤ 0 → cmp a c ≤ 0)

/-- What the C standard promises of the library function `qsort`: for a
consistent comparison function the array afterwards holds the same elements, in
ascending order of the comparison function. The order of elements that compare
equal is not specified. -/
def is_qsort (qsort : (word_count → word_count → Int) → List word_count → List word_count) :
    Prop :=
  ∀ cmp, cmp_consistent cmp → ∀ l,
    (qsort cmp l).Perm l ∧ (qsort cmp l).Pairwise (fun a b => cmp a b ≤ 0)

/-- One admissible `qsort`: insertion sort (it keeps the order of elements that
compare equal). -/
def insertion_qsort (cmp : word_count → word_count → Int) (l : List word_count) :
    List word_count :=
  List.insertionSort (fun a b => cmp a b ≤ 0) l

/-- The reading of `number_words` strings from a slot, as done by the "fill
word array" loop: a string ends before the first null byte (`strlen`), the
next one begins one byte behind it. -/
def read_words : Nat → List Nat → List (List Nat)
  | 0, _ => []
  | j + 1, word_offset =>
    let w := word_offset.takeWhile (fun c => c != 0)
    w :: read_words j (word_offset.drop (w.length + 1))

/-- The "fill word array" loops of `aggregate_results`: one entry with count 1
per string of each child; a child is given by the content of its slot and its
`number_words`. -/
def fill_word_array (children : List (List Nat × Nat)) : List word_count :=
  children.flatMap (fun ch => (read_words ch.2 ch.1).map (fun w => { count := 1, word := w }))

/-- The "count common words" loops of `aggregate_results`. The inner `do` loop
and the outer `while` loop have the same condition `next_index < number_words`
and every pass through the body increments `next_index`, so the two loops
together run the body `number_words - next_index` times: that number is the
fuel. The result is the array and `current_index`. -/
def count_loop : Nat → List word_count → Nat → Nat → List word_count × Nat
  | 0, words, current_index, _ => (words, current_index)
  | fuel + 1, words, current_index, next_index =>
    if strcmp (words.getD current_index default).word (words.getD next_index default).word = 0
    then
      count_loop fuel
        (words.set current_index
          { (words.getD current_index default) with
            count := (words.getD current_index default).count + 1 })
        current_index (next_index + 1)
    else
      count_loop fuel (words.set (current_index + 1) (words.getD next_index default))
        (current_index + 1) (next_index + 1)

/-- The function `aggregate_results` of wfc.c, up to the lines it writes: the
entries `words[0 .. different_words)` after the second `qsort`, each of which is
printed as word, tab, count. -/
def aggregate_results
    (qsort : (word_count → word_count → Int) → List word_count → List word_count)
    (children : List (List Nat × Nat)) : List word_count :=
  let words := fill_word_array children
  let number_words := words.length
  let sorted := qsort cmp_alpha_asc words
  let counted := count_loop (number_words - 1) sorted 0 1
  let different_words := if number_words > 0 then counted.2 + 1 else 0
  qsort cmp_int_desc (counted.1.take different_words)

/-- The slot and word count a child hands to the parent. -/
def slot_of (out : child_output) : List Nat × Nat :=
  (out.shm, out.number_words)

/-! ## Aggregator of wfc.cpp: `fill_table`, `aggregate_results` -/

/-- The comparator `cmp_str` of the word table. -/
def cmp_str (lhs rhs : List Nat) : Bool :=
  decide (strcmp lhs rhs < 0)

/-- The method `find` of the `std::map` ordered by `cmp_str`, the map given by
its entries in key order: the entry whose key is equivalent to `w` (neither is
before the other). -/
def table_find (word_table : List (List Nat × Int)) (w : List Nat) : Option (List Nat × Int) :=
  word_table.find? (fun e => !cmp_str e.1 w && !cmp_str w e.1)

/-- The effect of `it->second++` on the entry `find` returned. -/
def table_increment (word_table : List (List Nat × Int)) (w : List Nat) :
    List (List Nat × Int) :=
  word_table.map (fun e => if !cmp_str e.1 w && !cmp_str w e.1 then (e.1, e.2 + 1) else e)

/-- The method `insert` of the `std::map` for a key that is not present: the
new entry goes before the first entry whose key is not before `w`. -/
def table_insert (word_table : List (List Nat × Int)) (w : List Nat) (v : Int) :
    List (List Nat × Int) :=
  word_table.takeWhile (fun e => cmp_str e.1 w) ++
    (w, v) :: word_table.dropWhile (fun e => cmp_str e.1 w)

/-- The body of the loop of `fill_table` for the string `w` at `word_offset`:
increment the entry that `find` returned, or insert a new entry with count 1. -/
def fill_step (word_table : List (List Nat × Int)) (w : List Nat) : List (List Nat × Int) :=
  match table_find word_table w with
  | some _ => table_increment word_table w
  | none => table_insert word_table w 1

/-- The function `fill_table` on the strings read from one slot. -/
def fill_table (word_table : List (List Nat × Int)) (child_word_buffer_offset : List Nat)
    (child_number_words : Nat) : List (List Nat × Int) :=
  (read_words child_number_words child_word_buffer_offset).foldl fill_step word_table

/-- The strings the parent reads from all slots, in the order of the list of
children. -/
def slot_words (children : List (List Nat × Nat)) : List (List Nat) :=
  children.flatMap (fun ch => read_words ch.2 ch.1)

/-- The function `aggregate_results` of wfc.cpp, up to the lines it writes. -/
def aggregate_results_cpp
    (qsort : (word_count → word_count → Int) → List word_count → List word_count)
    (word_table : List (List Nat × Int)) : List word_count :=
  qsort cmp_int_desc (word_table.map (fun e => { count := e.2, word := e.1 }))

/-- The parent of wfc.cpp after all children have succeeded: `fill_table` for
each child in the order in which `wait` returned them, then
`aggregate_results`. -/
def aggregate_cpp
    (qsort : (word_count → word_count → Int) → List word_count → List word_count)
    (children : List (List Nat × Nat)) : List word_count :=
  aggregate_results_cpp qsort
    (children.foldl (fun table ch => fill_table table ch.1 ch.2) [])

/-- Reference for the "count common words" loops: run-length counting of a list
whose first element is `cur`, with the finished entries `acc` before it. -/
def count_runs : List word_count → word_count → List word_count → List word_count
  | acc, cur, [] => acc ++ [cur]
  | acc, cur, x :: xs =>
    if strcmp cur.word x.word = 0 then
      count_runs acc { cur with count := cur.count + 1 } xs
    else
      count_runs (acc ++ [cur]) x xs

/-- The number of tokens of `tokens` whose byte content is `w`. -/
def occurrences (w : List Nat) (tokens : List (List Nat)) : Nat :=
  (tokens.filter (fun t => decide (t = w))).length

/-- The entries `out` count the tokens `tokens` exactly: one entry per distinct
byte content, every entry carries the number of tokens with its content, and
the counts add up to the number of tokens. -/
def counts_exact (out : List word_count) (tokens : List (List Nat)) : Prop :=
  (out.map (fun e => e.word)).Nodup ∧
  (∀ w, w ∈ out.map (fun e => e.word) ↔ w ∈ tokens) ∧
  (∀ e, e ∈ out → e.count = (occurrences e.word tokens : Nat)) ∧
  (out.map (fun e => e.count)).sum = (tokens.length : Nat)

/-- The slots the parent finds when the workers emitted the token sequences
`ws`: for each worker its tokens, each followed by a null byte, and their number. -/
def slots_of (ws : List (List (List Nat))) : List (List Nat × Nat) :=
  ws.map (fun ts => slot_of (output_of ts))

/-! ## The parent process: `main` -/

instance : Inhabited child_output := ⟨{ words := [], shm := [], number_words := 0 }⟩

/-- The range `main` hands to child `i`: the arguments
`i * chars_per_child` and `(i + 1) * chars_per_child` of `child_parse`. -/
def child_range (chars_per_child i : Nat) : Nat × Nat :=
  (i * chars_per_child, (i + 1) * chars_per_child)

/-- The constant `EXIT_SUCCESS`. -/
def EXIT_SUCCESS : Nat := 0

/-- The constant `EXIT_FAILURE`. -/
def EXIT_FAILURE : Nat := 1

/-- What `wait` stores into `status`, as seen through the macros `WIFEXITED`
and `WEXITSTATUS`. -/
structure wait_status where
  exited : Bool
  exit_status : Nat
deriving DecidableEq, Repr

instance : Inhabited wait_status := ⟨{ exited := false, exit_status := 0 }⟩

/-- The test of the wait loops:
`!WIFEXITED(status) || (WEXITSTATUS(status) != EXIT_SUCCESS)`. -/
def child_error (status : wait_status) : Bool :=
  !status.exited || (status.exit_status != EXIT_SUCCESS)

/-- The steps of the parent that the claims speak of: the `fork` of child `i`,
a `wait` that returned child `i`, and an inspection of the results of child `i`
(its word count or its slot). -/
inductive parent_event where
  | fork (child : Nat)
  | wait (child : Nat)
  | read (child : Nat)
deriving DecidableEq, Repr

/-- The output loop of `aggregate_results` from entry number `i` on, where
`write_ok i` tells whether the `fprintf` of entry `i` succeeds: the status
returned and the lines written. -/
def write_lines (write_ok : Nat → Bool) : Nat → List word_count → Nat × List word_count
  | _, [] => (EXIT_SUCCESS, [])
  | i, e :: rest =>
    if write_ok i then
      ((write_lines write_ok (i + 1) rest).1, e :: (write_lines write_ok (i + 1) rest).2)
    else (EXIT_FAILURE, [])

/-- What a run of `main` amounts to: its exit status, the steps of the parent
in order, whether `aggregate_results` was called, and the lines of the output
file (`none` when the output file was never opened). -/
structure main_result where
  status : Nat
  steps : List parent_event
  aggregate_called : Bool
  output : Option (List word_count)
deriving DecidableEq, Repr

/-- The wait loop of wfc.c on the results of the successive calls of `wait`
(the child returned and its status): the value of `error` after the loop. -/
def wait_loop_c (results : List (Nat × wait_status)) : Bool :=
  results.foldl (fun error r => if child_error r.2 then true else error) false

/-- The function `main` of wfc.c from the file size check on, for a parallelism
that passed the argument check. `waits k` is what the call number `k` of `wait`
returns, `write_ok` tells which `fprintf` calls succeed. The result is `none`
when a child does not return. The slots are taken to be disjoint, which is so
as long as no child overruns its slot; a child with a successful status has
left the result of `child_parse` in its slot. -/
def main_c (qsort : (word_count → word_count → Int) → List word_count → List word_count)
    (file : List Nat) (junk : Nat → Nat → Nat) (parallelism : Nat)
    (waits : Nat → Nat × wait_status) (write_ok : Nat → Bool) : Option main_result :=
  let inputfs := file.length
  if inputfs = 0 then
    some { status := EXIT_SUCCESS, steps := [], aggregate_called := false, output := none }
  else
    let n := no_childs inputfs parallelism
    let chars_per_child := chars_per_child_c inputfs n
    let forks := (List.range n).map parent_event.fork
    let results := (List.range n).map waits
    let waited := results.map (fun r => parent_event.wait r.1)
    if wait_loop_c results then
      some { status := EXIT_FAILURE, steps := forks ++ waited, aggregate_called := false,
             output := none }
    else
      (run_children file junk chars_per_child n).map (fun outs =>
        let written := write_lines write_ok 0 (aggregate_results qsort (outs.map slot_of))
        { status := written.1
          steps := forks ++ waited ++ (List.range n).map parent_event.read
            ++ (List.range n).map parent_event.read
          aggregate_called := true
          output := some written.2 })

/-- The wait loop of wfc.cpp on the results of the successive calls of `wait`,
from the current values of `error` and `word_table`: the values of `error` and
`word_table` after the loop and the steps taken. `outs` holds what each child
left behind. -/
def wait_loop_cpp (outs : List child_output) :
    List (Nat × wait_status) → Bool → List (List Nat × Int) →
      Bool × List (List Nat × Int) × List parent_event
  | [], error, word_table => (error, word_table, [])
  | r :: rest, error, word_table =>
    if child_error r.2 then
      let s := wait_loop_cpp outs rest true word_table
      (s.1, s.2.1, parent_event.wait r.1 :: s.2.2)
    else if !error then
      let s := wait_loop_cpp outs rest error
        (fill_table word_table (slot_of (outs.getD r.1 default)).1
          (slot_of (outs.getD r.1 default)).2)
      (s.1, s.2.1, parent_event.wait r.1 :: parent_event.read r.1 :: s.2.2)
    else
      let s := wait_loop_cpp outs rest error word_table
      (s.1, s.2.1, parent_event.wait r.1 :: s.2.2)

/-- The function `main` of wfc.cpp from the file size check on; the parameters
are those of `main_c`. -/
def main_cpp (qsort : (word_count → word_count → Int) → List word_count → List word_count)
    (file : List Nat) (junk : Nat → Nat → Nat) (parallelism : Nat)
    (waits : Nat → Nat × wait_status) (write_ok : Nat → Bool) : Option main_result :=
  let inputfs := file.length
  if inputfs = 0 then
    some { status := EXIT_SUCCESS, steps := [], aggregate_called := false, output := none }
  else
    let n := no_childs inputfs parallelism
    let chars_per_child := chars_per_child_cpp inputfs n
    let forks := (List.range n).map parent_event.fork
    let results := (List.range n).map waits
    (run_children file junk chars_per_child n).map (fun outs =>
      let s := wait_loop_cpp outs results false []
      if s.1 then
        { status := EXIT_FAILURE, steps := forks ++ s.2.2, aggregate_called := false,
          output := none }
      else
        let written := write_lines write_ok 0 (aggregate_results_cpp qsort s.2.1)
        { status := written.1, steps := forks ++ s.2.2, aggregate_called := true,
          output := some written.2 })

/-- The children forked in a run, in order. -/
def forked (steps : List parent_event) : List Nat :=
  steps.filterMap (fun e => match e with
    | parent_event.fork i => some i
    | _ => none)

/-- A run respects the strict barrier for `n` children: whenever the parent
inspects a result, every child has been returned by an earlier `wait`. -/
def strict_barrier (n : Nat) (steps : List parent_event) : Prop :=
  ∀ k i, steps[k]? = some (parent_event.read i) →
    ∀ j, j < n → parent_event.wait j ∈ steps.take k

/-- A run respects the barrier of each child: whenever the parent inspects the
result of child `i`, the step before was the `wait` that returned child `i`. -/
def own_barrier (steps : List parent_event) : Prop :=
  ∀ k i, steps[k]? = some (parent_event.read i) →
    0 < k ∧ steps[k - 1]? = some (parent_event.wait i)

/-- A `wait` environment in which every child exits with `EXIT_SUCCESS`, child
`k` being returned by call number `k`. -/
def waits_in_order (k : Nat) : Nat × wait_status :=
  (k, { exited := true, exit_status := EXIT_SUCCESS })

/-! ## Stability of `qsort` -/

theorem seek_next_from_spec (buffer : Nat → Nat) (skip : Bool) :
    ∀ fuel i, i ≤ seek_next_from buffer skip fuel i ∧
      seek_next_from buffer skip fuel i ≤ i + fuel ∧
      (∀ k, i ≤ k → k < seek_next_from buffer skip fuel i → isskip (buffer k) = !skip) ∧
      (seek_next_from buffer skip fuel i < i + fuel →
        isskip (buffer (seek_next_from buffer skip fuel i)) = skip) := by
  intro fuel
  induction fuel with
  | zero =>
    intro i
    simp only [seek_next_from]
    refine ⟨le_refl _, le_refl _, ?_, ?_⟩
    · intro k h1 h2; omega
    · intro h; omega
  | succ fuel ih =>
    intro i
    simp only [seek_next_from]
    by_cases hc : isskip (buffer i) = skip
    · have hcond : ((skip && isskip (buffer i)) || (!skip && !isskip (buffer i))) = true := by
        rw [hc]; cases skip <;> rfl
      rw [if_pos hcond]
      refine ⟨le_refl _, by omega, ?_, ?_⟩
      · intro k h1 h2; omega
      · intro _; exact hc
    · have hcond : ¬ ((skip && isskip (buffer i)) || (!skip && !isskip (buffer i))) = true := by
        revert hc
        cases skip <;> cases isskip (buffer i) <;> simp
      rw [if_neg hcond]
      obtain ⟨h1, h2, h3, h4⟩ := ih (i + 1)
      refine ⟨by omega, by omega, ?_, ?_⟩
      · intro k hk1 hk2
        by_cases hki : k = i
        · subst hki
          revert hc
          cases skip <;> cases isskip (buffer k) <;> simp
        · exact h3 k (by omega) hk2
      · intro h; exact h4 (by omega)

theorem seek_next_ge (buffer : Nat → Nat) (offset len : Nat) (skip : Bool) :
    offset ≤ seek_next buffer offset len skip :=
  (seek_next_from_spec buffer skip (len - offset) offset).1

theorem seek_next_le (buffer : Nat → Nat) (offset len : Nat) (skip : Bool)
    (h : offset ≤ len) : seek_next buffer offset len skip ≤ len := by
  have := (seek_next_from_spec buffer skip (len - offset) offset).2.1
  unfold seek_next; omega

theorem seek_next_past (buffer : Nat → Nat) (offset len : Nat) (skip : Bool)
    (h : len ≤ offset) : seek_next buffer offset len skip = offset := by
  have h0 : len - offset = 0 := by omega
  unfold seek_next; rw [h0]; rfl

theorem seek_next_between (buffer : Nat → Nat) (offset len : Nat) (skip : Bool) (k : Nat)
    (h1 : offset ≤ k) (h2 : k < seek_next buffer offset len skip) :
    isskip (buffer k) = !skip :=
  (seek_next_from_spec buffer skip (len - offset) offset).2.2.1 k h1 h2

theorem seek_next_at (buffer : Nat → Nat) (offset len : Nat) (skip : Bool)
    (h : seek_next buffer offset len skip < len) :
    isskip (buffer (seek_next buffer offset len skip)) = skip := by
  have h4 := (seek_next_from_spec buffer skip (len - offset) offset).2.2.2
  have hge := seek_next_ge buffer offset len skip
  apply h4
  show seek_next buffer offset len skip < offset + (len - offset)
  omega

/-! ## Facts about the words of a file -/

theorem is_word_start_iff (file : List Nat) (i : Nat) :
    is_word_start file i = true ↔
      i < file.length ∧ isskip (file.getD i 0) = false ∧
        (i = 0 ∨ isskip (file.getD (i - 1) 0) = true) := by
  simp [is_word_start, and_assoc]

theorem word_at_cons (file : List Nat) (i : Nat) (h : i < file.length)
    (hw : isskip (file.getD i 0) = false) :
    word_at file i = file.getD i 0 :: word_at file (i + 1) := by
  unfold word_at
  rw [List.drop_eq_getElem_cons h]
  rw [List.getD_eq_getElem _ _ h] at hw
  rw [List.getD_eq_getElem _ _ h, List.takeWhile_cons]
  simp only [hw, Bool.not_false, if_true]

theorem word_at_skip (file : List Nat) (i : Nat)
    (h : file.length ≤ i ∨ isskip (file.getD i 0) = true) : word_at file i = [] := by
  unfold word_at
  by_cases hi : i < file.length
  · rcases h with h | h
    · omega
    · rw [List.drop_eq_getElem_cons hi]
      rw [List.getD_eq_getElem _ _ hi] at h
      rw [List.takeWhile_cons]
      simp only [h, Bool.not_true, Bool.false_eq_true, if_false]
  · rw [List.drop_eq_nil_of_le (by omega)]
    rfl

theorem word_at_eq (file : List Nat) :
    ∀ n i, (∀ k, i ≤ k → k < i + n → isskip (file.getD k 0) = false) →
      i + n ≤ file.length →
      (i + n = file.length ∨ isskip (file.getD (i + n) 0) = true) →
      word_at file i = (List.range n).map (fun k => file.getD (i + k) 0) := by
  intro n
  induction n with
  | zero =>
    intro i _ _ hend
    rw [word_at_skip file i (by rcases hend with h | h; · left; omega
                                · right; simpa using h)]
    rfl
  | succ n ih =>
    intro i hall hlen hend
    rw [word_at_cons file i (by omega) (hall i (le_refl _) (by omega))]
    rw [ih (i + 1) (fun k h1 h2 => hall k (by omega) (by omega)) (by omega)
      (by rcases hend with h | h
          · left; omega
          · right; rw [show i + 1 + n = i + (n + 1) by omega]; exact h)]
    rw [List.range_succ_eq_map, List.map_cons, List.map_map]
    congr 1
    apply List.map_congr_left
    intro k _
    simp only [Function.comp, Nat.succ_eq_add_one]
    congr 1
    omega

theorem word_at_length_ge (file : List Nat) :
    ∀ n i, (∀ k, i ≤ k → k < i + n → isskip (file.getD k 0) = false) →
      i + n ≤ file.length → n ≤ (word_at file i).length := by
  intro n
  induction n with
  | zero => intro i _ _; exact Nat.zero_le _
  | succ n ih =>
    intro i hall hlen
    rw [word_at_cons file i (by omega) (hall i (le_refl _) (by omega))]
    have := ih (i + 1) (fun k h1 h2 => hall k (by omega) (by omega)) (by omega)
    simp only [List.length_cons]
    omega

theorem word_starts_in_skip (file : List Nat) (a b e : Nat) (hab : a ≤ b)
    (h : ∀ k, a ≤ k → k < b → is_word_start file k = false) :
    word_starts_in file a e = word_starts_in file b e := by
  unfold word_starts_in
  by_cases hbe : b ≤ e
  · have hsplit : List.range' a (e - a) = List.range' a (b - a) ++ List.range' b (e - b) := by
      have := List.range'_append a (b - a) (e - b) 1
      rw [show a + 1 * (b - a) = b by omega, show e - b + (b - a) = e - a by omega] at this
      exact this.symm
    rw [hsplit, List.filter_append]
    have hnil : (List.range' a (b - a)).filter (is_word_start file) = [] := by
      rw [List.filter_eq_nil_iff]
      intro k hk
      rw [List.mem_range'_1] at hk
      rw [h k hk.1 (by omega)]
      simp
    rw [hnil, List.nil_append]
  · have h0 : e - b = 0 := by omega
    rw [h0]
    have hnil : (List.range' a (e - a)).filter (is_word_start file) = [] := by
      rw [List.filter_eq_nil_iff]
      intro k hk
      rw [List.mem_range'_1] at hk
      rw [h k hk.1 (by omega)]
      simp
    rw [hnil]
    rfl

theorem words_in_skip (file : List Nat) (a b e : Nat) (hab : a ≤ b)
    (h : ∀ k, a ≤ k → k < b → is_word_start file k = false) :
    words_in file a e = words_in file b e := by
  unfold words_in
  rw [word_starts_in_skip file a b e hab h]

theorem words_in_empty (file : List Nat) (a e : Nat) (h : e ≤ a) : words_in file a e = [] := by
  unfold words_in word_starts_in
  rw [show e - a = 0 by omega]
  rfl

theorem words_in_cons (file : List Nat) (a e : Nat) (hae : a < e)
    (h : is_word_start file a = true) :
    words_in file a e = word_at file a :: words_in file (a + 1) e := by
  unfold words_in word_starts_in
  rw [show e - a = (e - (a + 1)) + 1 by omega, List.range'_succ, List.filter_cons_of_pos h]
  rfl

theorem words_in_append (file : List Nat) (a b c : Nat) (hab : a ≤ b) (hbc : b ≤ c) :
    words_in file a b ++ words_in file b c = words_in file a c := by
  unfold words_in word_starts_in
  rw [← List.map_append, ← List.filter_append]
  have := List.range'_append a (b - a) (c - b) 1
  rw [show a + 1 * (b - a) = b by omega, show c - b + (b - a) = c - a by omega] at this
  rw [this]

theorem not_word_start_of_ge (file : List Nat) (k : Nat) (h : file.length ≤ k) :
    is_word_start file k = false := by
  cases hs : is_word_start file k with
  | false => rfl
  | true => rw [is_word_start_iff] at hs; omega

theorem words_in_past (file : List Nat) (a e : Nat) (h : file.length ≤ a) :
    words_in file a e = [] := by
  rw [words_in_skip file a (max a e) e (le_max_left _ _)
    (fun k h1 _ => not_word_start_of_ge file k (by omega))]
  exact words_in_empty file _ _ (le_max_right _ _)

theorem words_in_clip (file : List Nat) (a e : Nat) (h : file.length ≤ e) :
    words_in file a e = words_in file a file.length := by
  by_cases ha : a ≤ file.length
  · rw [← words_in_append file a file.length e ha h, words_in_past file _ _ (le_refl _),
      List.append_nil]
  · rw [words_in_past file a e (by omega), words_in_past file a _ (by omega)]

/-! ## The buffer of `child_parse` as a window of the file -/

theorem read_buffer_length (file : List Nat) (file_offset end_ : Nat) :
    (read_buffer file file_offset end_).length =
      min (file.length - (file_offset - 1)) (end_ - file_offset + 65) := by
  unfold read_buffer MAX_WORD_LENGTH
  rw [List.length_take, List.length_drop]
  by_cases h : file_offset > 0
  · rw [if_pos h]; omega
  · rw [if_neg h]
    have : file_offset = 0 := by omega
    subst this
    simp only [Nat.zero_sub, Nat.sub_zero]
    omega

theorem read_buffer_getD (file : List Nat) (file_offset end_ : Nat) (d : Nat) (i : Nat)
    (hi : i < (read_buffer file file_offset end_).length) :
    (read_buffer file file_offset end_).getD i d = file.getD (file_offset - 1 + i) 0 := by
  have hlen := read_buffer_length file file_offset end_
  have hoff : (if file_offset > 0 then file_offset - 1 else 0) = file_offset - 1 := by
    by_cases h : file_offset > 0
    · rw [if_pos h]
    · rw [if_neg h]; omega
  rw [List.getD_eq_getElem?_getD, List.getD_eq_getElem?_getD]
  unfold read_buffer
  rw [hoff, List.getElem?_take, if_pos (by unfold MAX_WORD_LENGTH; omega), List.getElem?_drop]
  have hlt : file_offset - 1 + i < file.length := by omega
  rw [List.getElem?_eq_getElem hlt]
  rfl

/-- After a run of skippable bytes the scan for a word character stops at the
end of the buffer or at the first byte of a word, and passes no word start. -/
theorem seek_word_clean (file : List Nat) (off size : Nat) (buffer : Nat → Nat)
    (buffer_end : Nat) (hend : buffer_end = min (file.length - off) size)
    (hbuf : ∀ i, i < buffer_end → buffer i = file.getD (off + i) 0) (npp : Nat)
    (H : npp < buffer_end →
      isskip (buffer npp) = true ∨ (0 < npp ∧ isskip (buffer (npp - 1)) = true)) :
    npp ≤ seek_next_nonskip buffer npp buffer_end ∧
    (npp < buffer_end → isskip (buffer npp) = true →
      npp < seek_next_nonskip buffer npp buffer_end) ∧
    (buffer_end ≤ seek_next_nonskip buffer npp buffer_end ∨
      is_word_start file (off + seek_next_nonskip buffer npp buffer_end) = true) ∧
    (∀ k, off + npp ≤ k → k < off + seek_next_nonskip buffer npp buffer_end →
      is_word_start file k = false) := by
  unfold seek_next_nonskip
  have hge := seek_next_ge buffer npp buffer_end false
  have hbetween := seek_next_between buffer npp buffer_end false
  by_cases hpast : buffer_end ≤ npp
  · have hp := seek_next_past buffer npp buffer_end false hpast
    rw [hp]
    refine ⟨le_refl _, fun h => by omega, Or.inl hpast, fun k h1 h2 => by omega⟩
  · have hle := seek_next_le buffer npp buffer_end false (by omega)
    have hat := seek_next_at buffer npp buffer_end false
    generalize seek_next buffer npp buffer_end false = q at *
    have hne : npp < buffer_end → isskip (buffer npp) = true → npp < q := by
      intro h1 h2
      rcases Nat.lt_or_ge npp q with h | h
      · exact h
      · have hq : q = npp := by omega
        subst hq
        rw [hat h1] at h2
        exact absurd h2 (by decide)
    refine ⟨hge, hne, ?_, ?_⟩
    · by_cases hq : q < buffer_end
      · right
        rw [is_word_start_iff]
        have hq0 := hat hq
        refine ⟨by omega, by rw [← hbuf q hq]; exact hq0, ?_⟩
        right
        by_cases hqn : npp < q
        · have := hbetween (q - 1) (by omega) (by omega)
          rw [hbuf (q - 1) (by omega)] at this
          rw [show off + q - 1 = off + (q - 1) by omega]
          simpa using this
        · have hqe : q = npp := by omega
          subst hqe
          rcases H hq with h | ⟨h1, h2⟩
          · rw [hq0] at h; exact absurd h (by decide)
          · rw [hbuf (q - 1) (by omega)] at h2
            rw [show off + q - 1 = off + (q - 1) by omega]
            exact h2
      · left; omega
    · intro k h1 h2
      have hk := hbetween (k - off) (by omega) (by omega)
      rw [hbuf (k - off) (by omega), show off + (k - off) = k by omega] at hk
      cases hs : is_word_start file k with
      | false => rfl
      | true =>
        rw [is_word_start_iff] at hs
        rw [hs.2.1] at hk
        exact absurd hk (by decide)

/-! ## The parse loop -/

theorem parse_loop_exit (buffer : Nat → Nat) (buffer_end parse_bound fuel pp : Nat)
    (h : ¬ (pp < buffer_end ∧ pp < parse_bound)) :
    parse_loop buffer buffer_end parse_bound (fuel + 1) pp =
      some { words := [], shm := [], number_words := 0 } := by
  simp only [parse_loop]
  rw [if_neg h]

theorem parse_loop_iter (buffer : Nat → Nat) (buffer_end parse_bound fuel pp : Nat)
    (h : pp < buffer_end ∧ pp < parse_bound) :
    parse_loop buffer buffer_end parse_bound (fuel + 1) pp =
      (parse_loop buffer buffer_end parse_bound fuel
          (seek_next_nonskip buffer (seek_next_skip buffer pp buffer_end) buffer_end)).map
        (fun rest =>
          { words := (List.range (seek_next_skip buffer pp buffer_end - pp)).map
                (fun k => buffer (pp + k)) :: rest.words
            shm := (List.range (seek_next_skip buffer pp buffer_end - pp)).map
                (fun k => buffer (pp + k)) ++ 0 :: rest.shm
            number_words := rest.number_words + 1 }) := by
  simp only [parse_loop]
  rw [if_pos h]

theorem output_of_nil : output_of [] = { words := [], shm := [], number_words := 0 } := rfl

theorem output_of_cons (w : List Nat) (ws : List (List Nat)) :
    output_of (w :: ws) =
      { words := w :: (output_of ws).words
        shm := w ++ 0 :: (output_of ws).shm
        number_words := (output_of ws).number_words + 1 } := by
  simp [output_of]

/-- The token copied from a word start is the whole word. -/
theorem token_eq_word_at (file : List Nat) (off size : Nat) (buffer : Nat → Nat)
    (buffer_end bound : Nat) (hend : buffer_end = min (file.length - off) size)
    (hbuf : ∀ i, i < buffer_end → buffer i = file.getD (off + i) 0)
    (hb : words_bounded file) (hsize : bound + 64 ≤ size) (pp : Nat)
    (h1 : pp < buffer_end) (h2 : pp < bound) (hw : isskip (buffer pp) = false) :
    pp < seek_next_skip buffer pp buffer_end ∧
    seek_next_skip buffer pp buffer_end ≤ buffer_end ∧
    (List.range (seek_next_skip buffer pp buffer_end - pp)).map (fun k => buffer (pp + k)) =
      word_at file (off + pp) ∧
    (seek_next_skip buffer pp buffer_end < buffer_end →
      isskip (buffer (seek_next_skip buffer pp buffer_end)) = true) ∧
    (∀ k, off + pp < k → k < off + seek_next_skip buffer pp buffer_end →
      is_word_start file k = false) := by
  unfold seek_next_skip
  have hge := seek_next_ge buffer pp buffer_end true
  have hle := seek_next_le buffer pp buffer_end true (by omega)
  have hbetween := seek_next_between buffer pp buffer_end true
  have hat := seek_next_at buffer pp buffer_end true
  generalize seek_next buffer pp buffer_end true = q at *
  have hall : ∀ k, off + pp ≤ k → k < off + pp + (q - pp) → isskip (file.getD k 0) = false := by
    intro k hk1 hk2
    have := hbetween (k - off) (by omega) (by omega)
    rw [hbuf (k - off) (by omega), show off + (k - off) = k by omega] at this
    simpa using this
  have hlt : pp < q := by
    rcases Nat.lt_or_ge pp q with h | h
    · exact h
    · have hq : q = pp := by omega
      subst hq
      rw [hat h1] at hw
      exact absurd hw (by decide)
  refine ⟨hlt, hle, ?_, hat, ?_⟩
  · have hlen : off + pp + (q - pp) ≤ file.length := by omega
    have hfin : off + pp + (q - pp) = file.length ∨
        isskip (file.getD (off + pp + (q - pp)) 0) = true := by
      by_cases hq : q < buffer_end
      · right
        have := hat hq
        rw [hbuf q hq] at this
        rw [show off + pp + (q - pp) = off + q by omega]
        exact this
      · left
        by_cases hfull : buffer_end = file.length - off
        · omega
        · have hsz : buffer_end = size := by omega
          have hrun := word_at_length_ge file (q - pp) (off + pp) hall hlen
          have hbd := hb (off + pp) (by omega)
          unfold MAX_WORD_LENGTH at hbd
          omega
    rw [word_at_eq file (q - pp) (off + pp) hall hlen hfin]
    apply List.map_congr_left
    intro k hk
    rw [List.mem_range] at hk
    rw [hbuf (pp + k) (by omega)]
    congr 1
    omega
  · intro k hk1 hk2
    have hprev := hall (k - 1) (by omega) (by omega)
    cases hs : is_word_start file k with
    | false => rfl
    | true =>
      rw [is_word_start_iff] at hs
      rcases hs.2.2 with h0 | h0
      · omega
      · rw [hprev] at h0
        exact absurd h0 (by decide)

/-- Started at the end of the buffer or on the first byte of a word, the parse
loop returns, and it emits exactly the words that begin between its start and
the parse bound. -/
theorem parse_loop_clean (file : List Nat) (off size : Nat) (buffer : Nat → Nat)
    (buffer_end bound : Nat) (hend : buffer_end = min (file.length - off) size)
    (hbuf : ∀ i, i < buffer_end → buffer i = file.getD (off + i) 0)
    (hb : words_bounded file) (hsize : bound + 64 ≤ size) :
    ∀ fuel pp, 1 ≤ fuel → buffer_end + 1 ≤ fuel + pp →
      (buffer_end ≤ pp ∨ is_word_start file (off + pp) = true) →
      parse_loop buffer buffer_end bound fuel pp =
        some (output_of (words_in file (off + pp) (off + bound))) := by
  intro fuel
  induction fuel with
  | zero => intro pp h; omega
  | succ fuel ih =>
    intro pp _ hfuel hclean
    by_cases hc : pp < buffer_end ∧ pp < bound
    · rw [parse_loop_iter buffer buffer_end bound fuel pp hc]
      obtain ⟨hc1, hc2⟩ := hc
      have hstart : is_word_start file (off + pp) = true := by
        rcases hclean with h | h
        · omega
        · exact h
      have hw : isskip (buffer pp) = false := by
        rw [hbuf pp hc1]
        exact ((is_word_start_iff file (off + pp)).1 hstart).2.1
      obtain ⟨t1, t2, t3, t4, t5⟩ :=
        token_eq_word_at file off size buffer buffer_end bound hend hbuf hb hsize pp hc1 hc2 hw
      obtain ⟨s1, s2, s3, s4⟩ :=
        seek_word_clean file off size buffer buffer_end hend hbuf
          (seek_next_skip buffer pp buffer_end) (fun h => Or.inl (t4 h))
      rw [ih _ (by omega) (by omega) s3, Option.map_some', t3]
      rw [words_in_cons file (off + pp) (off + bound) (by omega) hstart]
      rw [words_in_skip file (off + pp + 1)
        (off + seek_next_nonskip buffer (seek_next_skip buffer pp buffer_end) buffer_end)
        (off + bound) (by omega)
        (fun k hk1 hk2 => by
          by_cases hk : k < off + seek_next_skip buffer pp buffer_end
          · exact t5 k (by omega) hk
          · exact s4 k (by omega) hk2)]
      rw [output_of_cons]
    · rw [parse_loop_exit buffer buffer_end bound fuel pp hc, ← output_of_nil]
      by_cases hpb : pp < bound
      · rw [words_in_past file _ _ (by omega)]
      · rw [words_in_empty file _ _ (by omega)]

/-- Started on a skippable byte inside the bound, the parse loop first emits an
empty token and then the words that begin between its start and the bound. -/
theorem parse_loop_on_skip (file : List Nat) (off size : Nat) (buffer : Nat → Nat)
    (buffer_end bound : Nat) (hend : buffer_end = min (file.length - off) size)
    (hbuf : ∀ i, i < buffer_end → buffer i = file.getD (off + i) 0)
    (hb : words_bounded file) (hsize : bound + 64 ≤ size) (fuel pp : Nat)
    (hfuel : buffer_end + 1 ≤ fuel + pp) (h1 : pp < buffer_end) (h2 : pp < bound)
    (hs : isskip (buffer pp) = true) :
    parse_loop buffer buffer_end bound fuel pp =
      some (output_of ([] :: words_in file (off + pp) (off + bound))) := by
  obtain ⟨fuel, rfl⟩ : ∃ f, fuel = f + 1 := ⟨fuel - 1, by omega⟩
  rw [parse_loop_iter buffer buffer_end bound fuel pp ⟨h1, h2⟩]
  have hnpp : seek_next_skip buffer pp buffer_end = pp := by
    have hge := seek_next_ge buffer pp buffer_end true
    rcases Nat.lt_or_ge pp (seek_next_skip buffer pp buffer_end) with h | h
    · have := seek_next_between buffer pp buffer_end true pp (le_refl _) h
      rw [hs] at this
      exact absurd this (by decide)
    · unfold seek_next_skip at *; omega
  rw [hnpp]
  obtain ⟨s1, s2, s3, s4⟩ :=
    seek_word_clean file off size buffer buffer_end hend hbuf pp (fun _ => Or.inl hs)
  have s2 := s2 h1 hs
  rw [parse_loop_clean file off size buffer buffer_end bound hend hbuf hb hsize fuel _
    (by omega) (by omega) s3, Option.map_some']
  rw [words_in_skip file (off + pp) (off + seek_next_nonskip buffer pp buffer_end)
    (off + bound) (by omega) s4]
  rw [output_of_cons]
  simp

/-! ## The chunk resolver on a range -/

theorem word_at_run (file : List Nat) :
    ∀ n i k, n = k - i → i ≤ k → k < i + (word_at file i).length →
      isskip (file.getD k 0) = false := by
  intro n
  induction n with
  | zero =>
    intro i k hn hik hk
    have hki : k = i := by omega
    subst hki
    by_cases hsk : file.length ≤ k ∨ isskip (file.getD k 0) = true
    · rw [word_at_skip file k hsk] at hk
      simp at hk
    · cases h : isskip (file.getD k 0) with
      | false => rfl
      | true => exact absurd (Or.inr h) hsk
  | succ n ih =>
    intro i k hn hik hk
    by_cases hsk : file.length ≤ i ∨ isskip (file.getD i 0) = true
    · rw [word_at_skip file i hsk] at hk
      simp at hk
      omega
    · have hi : i < file.length := by
        rcases Nat.lt_or_ge i file.length with h | h
        · exact h
        · exact absurd (Or.inl h) hsk
      have hw : isskip (file.getD i 0) = false := by
        cases h : isskip (file.getD i 0) with
        | false => rfl
        | true => exact absurd (Or.inr h) hsk
      rw [word_at_cons file i hi hw] at hk
      simp only [List.length_cons] at hk
      exact ih (i + 1) k (by omega) (by omega) (by omega)

theorem not_word_start_after_word (file : List Nat) (k : Nat) (hk : 0 < k)
    (h : isskip (file.getD (k - 1) 0) = false) : is_word_start file k = false := by
  cases hs : is_word_start file k with
  | false => rfl
  | true =>
    rw [is_word_start_iff] at hs
    rcases hs.2.2 with h0 | h0
    · omega
    · rw [h] at h0; exact absurd h0 (by decide)

theorem not_word_start_of_skip (file : List Nat) (k : Nat)
    (h : isskip (file.getD k 0) = true) : is_word_start file k = false := by
  cases hs : is_word_start file k with
  | false => rfl
  | true =>
    rw [is_word_start_iff] at hs
    rw [hs.2.1] at h; exact absurd h (by decide)

/-- The boundary-correction step, for a range that is not the one-byte range
behind a word character: the initial parse position is at least 1, it is the end
of the buffer or the first byte of a word, and no word begins between the start
of the range and it. -/
theorem initial_position_clean (file : List Nat) (buffer : Nat → Nat)
    (buffer_end file_offset end_ : Nat) (hpos : 0 < file_offset)
    (hend : buffer_end = min (file.length - (file_offset - 1)) (end_ - file_offset + 65))
    (hbuf : ∀ i, i < buffer_end → buffer i = file.getD (file_offset - 1 + i) 0)
    (hgood : 1 < end_ - file_offset ∨ file.length < file_offset ∨
      isskip (file.getD (file_offset - 1) 0) = true) :
    1 ≤ initial_parse_position buffer buffer_end file_offset end_ ∧
    (buffer_end ≤ initial_parse_position buffer buffer_end file_offset end_ ∨
      is_word_start file
        (file_offset - 1 + initial_parse_position buffer buffer_end file_offset end_) = true) ∧
    (∀ k, file_offset ≤ k →
      k < file_offset - 1 + initial_parse_position buffer buffer_end file_offset end_ →
      is_word_start file k = false) := by
  unfold initial_parse_position
  rw [if_pos hpos]
  by_cases hs0 : isskip (buffer 0) = true
  · rw [if_pos hs0]
    obtain ⟨s1, _, s3, s4⟩ :=
      seek_word_clean file (file_offset - 1) _ buffer buffer_end hend hbuf 1
        (fun _ => Or.inr ⟨by omega, hs0⟩)
    exact ⟨s1, s3, fun k h1 h2 => s4 k (by omega) h2⟩
  · rw [if_neg hs0]
    have hw0 : isskip (buffer 0) = false := by
      cases h : isskip (buffer 0) with
      | false => rfl
      | true => exact absurd h hs0
    by_cases hbe : buffer_end = 0
    · -- nothing was read: every position is past the end of the file
      have hfl : file.length ≤ file_offset - 1 := by omega
      have hall : ∀ k, file_offset ≤ k → is_word_start file k = false :=
        fun k hk => not_word_start_of_ge file k (by omega)
      have hp2 : ∀ o, seek_next_nonskip buffer o buffer_end = o := fun o =>
        seek_next_past buffer o buffer_end false (by omega)
      have hp3 : ∀ o, seek_next_skip buffer o buffer_end = o := fun o =>
        seek_next_past buffer o buffer_end true (by omega)
      split
      · split
        · rw [hp2]; exact ⟨by omega, Or.inl (by omega), fun k h1 _ => hall k h1⟩
        · rw [hp3, hp2]; exact ⟨by omega, Or.inl (by omega), fun k h1 _ => hall k h1⟩
      · exact ⟨le_refl _, Or.inl (by omega), fun k h1 _ => hall k h1⟩
    · have hb0 : buffer 0 = file.getD (file_offset - 1) 0 := by
        rw [hbuf 0 (by omega)]; rfl
      have hlong : 1 < end_ - file_offset := by
        rcases hgood with h | h | h
        · exact h
        · omega
        · rw [← hb0, hw0] at h; exact absurd h (by decide)
      rw [if_pos hlong]
      by_cases hs1 : isskip (buffer 1) = true
      · rw [if_pos hs1]
        obtain ⟨s1, _, s3, s4⟩ :=
          seek_word_clean file (file_offset - 1) _ buffer buffer_end hend hbuf 2
            (fun _ => Or.inr ⟨by omega, hs1⟩)
        refine ⟨by omega, s3, fun k h1 h2 => ?_⟩
        by_cases hk : k = file_offset
        · rw [hk]
          by_cases h1e : 1 < buffer_end
          · apply not_word_start_of_skip
            rw [hbuf 1 h1e, show file_offset - 1 + 1 = file_offset by omega] at hs1
            exact hs1
          · exact not_word_start_of_ge file _ (by omega)
        · exact s4 k (by omega) h2
      · rw [if_neg hs1]
        have hw1 : isskip (buffer 1) = false := by
          cases h : isskip (buffer 1) with
          | false => rfl
          | true => exact absurd h hs1
        have hge := seek_next_ge buffer 2 buffer_end true
        have hbetween := seek_next_between buffer 2 buffer_end true
        have hat := seek_next_at buffer 2 buffer_end true
        have hle : 2 ≤ buffer_end → seek_next_skip buffer 2 buffer_end ≤ buffer_end :=
          fun h => seek_next_le buffer 2 buffer_end true h
        obtain ⟨s1, _, s3, s4⟩ :=
          seek_word_clean file (file_offset - 1) _ buffer buffer_end hend hbuf
            (seek_next_skip buffer 2 buffer_end) (fun h => Or.inl (hat h))
        unfold seek_next_skip at *
        generalize seek_next buffer 2 buffer_end true = t at *
        refine ⟨by omega, s3, fun k h1 h2 => ?_⟩
        by_cases hkt : k < file_offset - 1 + t
        · by_cases hkl : k < file.length
          · apply not_word_start_after_word file k (by omega)
            have hj : k - 1 - (file_offset - 1) < buffer_end := by
              by_cases h2e : 2 ≤ buffer_end
              · have := hle h2e; omega
              · omega
            have hjb := hbuf (k - 1 - (file_offset - 1)) hj
            rw [show file_offset - 1 + (k - 1 - (file_offset - 1)) = k - 1 by omega] at hjb
            rw [← hjb]
            by_cases hj0 : k - 1 - (file_offset - 1) = 0
            · rw [hj0]; exact hw0
            · by_cases hj1 : k - 1 - (file_offset - 1) = 1
              · rw [hj1]; exact hw1
              · have := hbetween (k - 1 - (file_offset - 1)) (by omega) (by omega)
                simpa using this
          · exact not_word_start_of_ge file k (by omega)
        · exact s4 k (by omega) h2

/-- Range exactness away from the two defective cases: a range that begins
after offset 0 and is not the one-byte range behind a word character yields
exactly the words that begin in it. -/
theorem child_parse_pos (file : List Nat) (junk : Nat → Nat) (file_offset end_ : Nat)
    (hpos : 0 < file_offset) (hle : file_offset ≤ end_) (hb : words_bounded file)
    (hgood : 1 < end_ - file_offset ∨ file.length < file_offset ∨
      isskip (file.getD (file_offset - 1) 0) = true) :
    child_parse file junk file_offset end_ =
      some (output_of (words_in file file_offset end_)) := by
  have hlen := read_buffer_length file file_offset end_
  have hbuf : ∀ i, i < (read_buffer file file_offset end_).length →
      (fun i => (read_buffer file file_offset end_).getD i (junk i)) i =
        file.getD (file_offset - 1 + i) 0 :=
    fun i hi => read_buffer_getD file file_offset end_ (junk i) i hi
  obtain ⟨p1, p2, p3⟩ := initial_position_clean file
    (fun i => (read_buffer file file_offset end_).getD i (junk i))
    (read_buffer file file_offset end_).length file_offset end_ hpos hlen hbuf hgood
  unfold child_parse
  simp only []
  rw [if_pos hpos]
  rw [parse_loop_clean file (file_offset - 1) (end_ - file_offset + 65) _ _
    (end_ - file_offset + 1) hlen hbuf hb (by omega) _ _ (by omega) (by omega) p2]
  rw [show file_offset - 1 + (end_ - file_offset + 1) = end_ by omega]
  rw [← words_in_skip file file_offset _ end_ (by omega) p3]

/-- The range that begins at offset 0 yields the words that begin in it, after
an empty token when the file begins with a skippable byte. -/
theorem child_parse_zero (file : List Nat) (junk : Nat → Nat) (end_ : Nat)
    (hb : words_bounded file) :
    child_parse file junk 0 end_ =
      some (output_of (leading_token file end_ ++ words_in file 0 end_)) := by
  have hlen := read_buffer_length file 0 end_
  have hbuf : ∀ i, i < (read_buffer file 0 end_).length →
      (fun i => (read_buffer file 0 end_).getD i (junk i)) i = file.getD (0 + i) 0 := by
    intro i hi
    have := read_buffer_getD file 0 end_ (junk i) i hi
    simpa using this
  simp only [Nat.zero_sub, Nat.sub_zero] at hlen
  unfold child_parse initial_parse_position
  simp only [gt_iff_lt, lt_self_iff_false, if_false, Nat.sub_zero]
  by_cases hc : 0 < (read_buffer file 0 end_).length ∧ 0 < end_
  · by_cases hs : isskip (file.getD 0 0) = true
    · have hs0 : isskip ((fun i => (read_buffer file 0 end_).getD i (junk i)) 0) = true := by
        rw [hbuf 0 hc.1]; exact hs
      rw [parse_loop_on_skip file 0 (end_ + 65) _ _ end_ hlen hbuf hb (by omega) _ 0
        (by omega) hc.1 hc.2 hs0]
      have hlead : leading_token file end_ = [[]] := by
        unfold leading_token
        rw [if_pos ⟨hc.2, by omega, hs⟩]
      rw [hlead]
      simp
    · have hstart : is_word_start file (0 + 0) = true := by
        rw [is_word_start_iff]
        refine ⟨by omega, ?_, Or.inl rfl⟩
        cases h : isskip (file.getD (0 + 0) 0) with
        | false => rfl
        | true => exact absurd h hs
      rw [parse_loop_clean file 0 (end_ + 65) _ _ end_ hlen hbuf hb (by omega) _ 0
        (by omega) (by omega) (Or.inr hstart)]
      have hlead : leading_token file end_ = [] := by
        unfold leading_token
        rw [if_neg (fun h => hs h.2.2)]
      rw [hlead]
      simp
  · rw [parse_loop_exit _ _ _ _ _ hc, ← output_of_nil]
    have hlead : leading_token file end_ = [] := by
      unfold leading_token
      rw [if_neg (fun h => hc ⟨by omega, h.1⟩)]
    rw [hlead, List.nil_append]
    by_cases he : 0 < end_
    · rw [words_in_past file 0 end_ (by omega)]
    · rw [words_in_empty file 0 end_ (by omega)]

/-! ## All children of a run -/

theorem mapM_eq_some_map {α β : Type} (f : α → Option β) (g : α → β) (l : List α)
    (h : ∀ a, a ∈ l → f a = some (g a)) : l.mapM f = some (l.map g) := by
  induction l with
  | nil => rfl
  | cons a l ih =>
    rw [List.mapM_cons, h a (List.mem_cons_self a l),
      ih (fun b hb => h b (List.mem_cons_of_mem a hb))]
    rfl

/-- The tokens child `i` of a run with `chars_per_child ≥ 2` is due to emit. -/
theorem run_children_good (file : List Nat) (junk : Nat → Nat → Nat) (c n : Nat)
    (hc : 2 ≤ c) (hb : words_bounded file) :
    run_children file junk c n =
      some ((List.range n).map (fun i =>
        output_of (if i = 0 then leading_token file c ++ words_in file 0 c
          else words_in file (i * c) ((i + 1) * c)))) := by
  unfold run_children
  apply mapM_eq_some_map
  intro i _
  by_cases hi : i = 0
  · subst hi
    rw [if_pos rfl]
    simp only [Nat.zero_mul, Nat.zero_add, Nat.one_mul]
    exact child_parse_zero file (junk 0) c hb
  · rw [if_neg hi]
    have hpos : 0 < i * c := Nat.mul_pos (by omega) (by omega)
    have hlen : (i + 1) * c - i * c = c := by
      rw [Nat.add_mul, Nat.one_mul]; omega
    exact child_parse_pos file (junk i) (i * c) ((i + 1) * c) hpos
      (by rw [Nat.add_mul]; omega) hb (Or.inl (by omega))

theorem all_words_good (file : List Nat) (c : Nat) :
    ∀ n, all_words ((List.range (n + 1)).map (fun i =>
        output_of (if i = 0 then leading_token file c ++ words_in file 0 c
          else words_in file (i * c) ((i + 1) * c)))) =
      leading_token file c ++ words_in file 0 ((n + 1) * c) := by
  intro n
  induction n with
  | zero =>
    rw [show List.range (0 + 1) = [0] from rfl]
    simp [all_words, output_of]
  | succ n ih =>
    rw [List.range_succ, List.map_append]
    unfold all_words at *
    rw [List.flatMap_append, ih]
    simp only [List.map_cons, List.map_nil, List.flatMap_cons, List.flatMap_nil,
      List.append_nil, output_of]
    rw [if_neg (by omega), List.append_assoc,
      words_in_append file 0 ((n + 1) * c) ((n + 1 + 1) * c) (Nat.zero_le _)
        (Nat.mul_le_mul_right c (by omega))]

theorem no_childs_pos (fs p : Nat) (hfs : 0 < fs) (hp : 1 ≤ p) : 1 ≤ no_childs fs p := by
  unfold no_childs; split <;> omega

theorem no_childs_le (fs p : Nat) : no_childs fs p ≤ fs := by
  unfold no_childs; split <;> omega

theorem cpp_chunks_cover (fs n : Nat) (hn : 1 ≤ n) (hle : n ≤ fs) :
    2 ≤ chars_per_child_cpp fs n ∧ fs ≤ n * chars_per_child_cpp fs n := by
  unfold chars_per_child_cpp
  have h1 : 1 ≤ fs / n := (Nat.one_le_div_iff (by omega)).2 hle
  have h2 := Nat.div_add_mod fs n
  have h3 := Nat.mod_lt fs (show n > 0 by omega)
  refine ⟨by omega, ?_⟩
  rw [Nat.mul_add, Nat.mul_one]
  omega

/-- The tokens of a cpp run in child order: the tokens of the whole file. -/
theorem run_children_cpp_words (file : List Nat) (junk : Nat → Nat → Nat) (p : Nat)
    (hne : file ≠ []) (hb : words_bounded file) (hp : 1 ≤ p) :
    ∃ outs, run_children_cpp file junk p = some outs ∧
      outs.length = no_childs file.length p ∧
      all_words outs = leading_token file 1 ++ words_in file 0 file.length := by
  have hfs : 0 < file.length := List.length_pos.2 hne
  have hn := no_childs_pos file.length p hfs hp
  have hle := no_childs_le file.length p
  obtain ⟨hc, hcover⟩ := cpp_chunks_cover file.length (no_childs file.length p) hn hle
  unfold run_children_cpp
  simp only []
  generalize no_childs file.length p = n at *
  generalize chars_per_child_cpp file.length n = c at *
  refine ⟨_, run_children_good file junk c n hc hb, by simp, ?_⟩
  obtain ⟨m, rfl⟩ : ∃ m, n = m + 1 := ⟨n - 1, by omega⟩
  rw [all_words_good file c m, words_in_clip file 0 _ hcover]
  congr 1
  unfold leading_token
  by_cases h : 0 < file.length ∧ isskip (file.getD 0 0) = true
  · rw [if_pos ⟨by omega, h⟩, if_pos ⟨by omega, h⟩]
  · rw [if_neg (fun h2 => h h2.2), if_neg (fun h2 => h h2.2)]

theorem c_chunks_cover (fs n : Nat) (hn : 1 ≤ n) (hlt : n < fs) :
    2 ≤ chars_per_child_c fs n ∧ fs ≤ n * chars_per_child_c fs n := by
  unfold chars_per_child_c
  have h1 : 2 ≤ (fs + n - 1) / n := (Nat.le_div_iff_mul_le (by omega)).2 (by omega)
  have h2 := Nat.div_add_mod (fs + n - 1) n
  have h3 := Nat.mod_lt (fs + n - 1) (show n > 0 by omega)
  exact ⟨h1, by omega⟩

/-- The tokens of a wfc.c run with fewer children than bytes, in child order:
the tokens of the whole file. -/
theorem run_children_c_words (file : List Nat) (junk : Nat → Nat → Nat) (p : Nat)
    (hb : words_bounded file) (hp : 1 ≤ p) (hlt : p < file.length) :
    ∃ outs, run_children_c file junk p = some outs ∧
      all_words outs = leading_token file 1 ++ words_in file 0 file.length := by
  have hn : no_childs file.length p = p := by unfold no_childs; rw [if_neg (by omega)]
  obtain ⟨hc, hcover⟩ := c_chunks_cover file.length p hp hlt
  unfold run_children_c
  simp only []
  rw [hn]
  generalize chars_per_child_c file.length p = c at *
  refine ⟨_, run_children_good file junk c p hc hb, ?_⟩
  obtain ⟨m, rfl⟩ : ∃ m, p = m + 1 := ⟨p - 1, by omega⟩
  rw [all_words_good file c m, words_in_clip file 0 _ hcover]
  congr 1
  unfold leading_token
  by_cases h : 0 < file.length ∧ isskip (file.getD 0 0) = true
  · rw [if_pos ⟨by omega, h⟩, if_pos ⟨by omega, h⟩]
  · rw [if_neg (fun h2 => h h2.2), if_neg (fun h2 => h h2.2)]

/-! ## The bytes written into the slot -/

theorem parse_loop_output_of (buffer : Nat → Nat) (buffer_end bound : Nat) :
    ∀ fuel pp out, parse_loop buffer buffer_end bound fuel pp = some out →
      out = output_of out.words := by
  intro fuel
  induction fuel with
  | zero => intro pp out h; simp [parse_loop] at h
  | succ fuel ih =>
    intro pp out h
    by_cases hc : pp < buffer_end ∧ pp < bound
    · rw [parse_loop_iter buffer buffer_end bound fuel pp hc] at h
      cases hr : parse_loop buffer buffer_end bound fuel
          (seek_next_nonskip buffer (seek_next_skip buffer pp buffer_end) buffer_end) with
      | none => rw [hr] at h; simp at h
      | some rest =>
        rw [hr, Option.map_some'] at h
        have hrest := ih _ rest hr
        injection h with h
        subst h
        simp only [output_of_cons]
        rw [← hrest]
    · rw [parse_loop_exit buffer buffer_end bound fuel pp hc] at h
      injection h with h
      subst h
      rfl

/-- The parse loop returns, and what it writes fits: started at `pp` inside the
buffer and the bound it writes at most `bound - pp + 64` bytes, otherwise none. -/
theorem parse_loop_shm_le (file : List Nat) (off size : Nat) (buffer : Nat → Nat)
    (buffer_end bound : Nat) (hend : buffer_end = min (file.length - off) size)
    (hbuf : ∀ i, i < buffer_end → buffer i = file.getD (off + i) 0)
    (hb : words_bounded file) :
    ∀ fuel pp, 1 ≤ fuel → buffer_end + 1 ≤ fuel + pp →
      ∃ out, parse_loop buffer buffer_end bound fuel pp = some out ∧
        (pp < buffer_end ∧ pp < bound → out.shm.length + pp ≤ bound + 64) ∧
        (¬ (pp < buffer_end ∧ pp < bound) → out.shm = []) := by
  intro fuel
  induction fuel with
  | zero => intro pp h; omega
  | succ fuel ih =>
    intro pp _ hfuel
    by_cases hc : pp < buffer_end ∧ pp < bound
    · rw [parse_loop_iter buffer buffer_end bound fuel pp hc]
      obtain ⟨hc1, hc2⟩ := hc
      have hge := seek_next_ge buffer pp buffer_end true
      have hle := seek_next_le buffer pp buffer_end true (by omega)
      have hbetween := seek_next_between buffer pp buffer_end true
      have hat := seek_next_at buffer pp buffer_end true
      obtain ⟨s1, s2, _, _⟩ :=
        seek_word_clean file off size buffer buffer_end hend hbuf
          (seek_next_skip buffer pp buffer_end) (fun h => Or.inl (hat h))
      unfold seek_next_skip at *
      generalize seek_next buffer pp buffer_end true = q at *
      have hrun : q - pp ≤ 64 := by
        have hall : ∀ k, off + pp ≤ k → k < off + pp + (q - pp) →
            isskip (file.getD k 0) = false := by
          intro k hk1 hk2
          have := hbetween (k - off) (by omega) (by omega)
          rw [hbuf (k - off) (by omega), show off + (k - off) = k by omega] at this
          simpa using this
        have h1 := word_at_length_ge file (q - pp) (off + pp) hall (by omega)
        have h2 := hb (off + pp) (by omega)
        unfold MAX_WORD_LENGTH at h2
        omega
      have hadv : pp < seek_next_nonskip buffer q buffer_end := by
        by_cases hq : q = pp
        · have := s2 (by omega) (hat (by omega)); omega
        · omega
      obtain ⟨rest, hrest, r1, r2⟩ := ih (seek_next_nonskip buffer q buffer_end)
        (by omega) (by omega)
      rw [hrest, Option.map_some']
      refine ⟨_, rfl, fun _ => ?_, fun h => absurd ⟨hc1, hc2⟩ h⟩
      simp only [List.length_append, List.length_map, List.length_range, List.length_cons]
      by_cases hc' : seek_next_nonskip buffer q buffer_end < buffer_end ∧
          seek_next_nonskip buffer q buffer_end < bound
      · have := r1 hc'
        have := s2 (by omega) (hat (by omega))
        omega
      · rw [r2 hc']
        simp only [List.length_nil]
        omega
    · rw [parse_loop_exit buffer buffer_end bound fuel pp hc]
      exact ⟨_, rfl, fun h => absurd h hc, fun _ => rfl⟩

theorem initial_parse_position_pos (buffer : Nat → Nat) (buffer_end file_offset end_ : Nat)
    (hpos : 0 < file_offset) :
    1 ≤ initial_parse_position buffer buffer_end file_offset end_ := by
  unfold initial_parse_position
  rw [if_pos hpos]
  have h1 := seek_next_ge buffer 1 buffer_end false
  have h2 := seek_next_ge buffer 2 buffer_end false
  have h3 := seek_next_ge buffer 2 buffer_end true
  have h4 := seek_next_ge buffer (seek_next_skip buffer 2 buffer_end) buffer_end false
  unfold seek_next_nonskip seek_next_skip at *
  split
  · exact h1
  · split
    · split
      · omega
      · omega
    · exact le_refl _

/-- Every call of `child_parse` on a file with words of at most
`MAX_WORD_LENGTH` bytes returns, and the bytes it writes fit into
`end - file_offset + MAX_WORD_LENGTH` bytes. -/
theorem child_parse_shm_le (file : List Nat) (junk : Nat → Nat) (file_offset end_ : Nat)
    (hb : words_bounded file) :
    ∃ out, child_parse file junk file_offset end_ = some out ∧
      out = output_of out.words ∧
      out.shm.length ≤ end_ - file_offset + MAX_WORD_LENGTH := by
  have hlen := read_buffer_length file file_offset end_
  have hbuf : ∀ i, i < (read_buffer file file_offset end_).length →
      (fun i => (read_buffer file file_offset end_).getD i (junk i)) i =
        file.getD (file_offset - 1 + i) 0 :=
    fun i hi => read_buffer_getD file file_offset end_ (junk i) i hi
  unfold child_parse
  simp only []
  obtain ⟨out, hout, h1, h2⟩ := parse_loop_shm_le file (file_offset - 1)
    (end_ - file_offset + 65) _ _
    (if file_offset > 0 then end_ - file_offset + 1 else end_ - file_offset) hlen hbuf hb
    ((read_buffer file file_offset end_).length + 1)
    (initial_parse_position (fun i => (read_buffer file file_offset end_).getD i (junk i))
      (read_buffer file file_offset end_).length file_offset end_) (by omega) (by omega)
  refine ⟨out, hout, parse_loop_output_of _ _ _ _ _ _ hout, ?_⟩
  unfold MAX_WORD_LENGTH
  by_cases hc : initial_parse_position
        (fun i => (read_buffer file file_offset end_).getD i (junk i))
        (read_buffer file file_offset end_).length file_offset end_ <
        (read_buffer file file_offset end_).length ∧
      initial_parse_position
        (fun i => (read_buffer file file_offset end_).getD i (junk i))
        (read_buffer file file_offset end_).length file_offset end_ <
        (if file_offset > 0 then end_ - file_offset + 1 else end_ - file_offset)
  · have h := h1 hc
    by_cases hpos : 0 < file_offset
    · have hp := initial_parse_position_pos
        (fun i => (read_buffer file file_offset end_).getD i (junk i))
        (read_buffer file file_offset end_).length file_offset end_ hpos
      rw [if_pos hpos] at h
      omega
    · rw [if_neg hpos] at h
      omega
  · rw [h2 hc]
    simp

/-! ## The uninitialised part of the buffer plays no role -/

theorem seek_next_from_congr (b1 b2 : Nat → Nat) (skip : Bool) :
    ∀ fuel i, (∀ k, i ≤ k → k < i + fuel → b1 k = b2 k) →
      seek_next_from b1 skip fuel i = seek_next_from b2 skip fuel i := by
  intro fuel
  induction fuel with
  | zero => intro i _; rfl
  | succ fuel ih =>
    intro i h
    simp only [seek_next_from]
    rw [h i (le_refl _) (by omega), ih (i + 1) (fun k h1 h2 => h k (by omega) (by omega))]

theorem seek_next_congr (b1 b2 : Nat → Nat) (offset len : Nat) (skip : Bool)
    (h : ∀ k, k < len → b1 k = b2 k) :
    seek_next b1 offset len skip = seek_next b2 offset len skip := by
  unfold seek_next
  exact seek_next_from_congr b1 b2 skip _ _ (fun k h1 h2 => h k (by omega))

theorem parse_loop_congr (b1 b2 : Nat → Nat) (buffer_end bound : Nat)
    (h : ∀ k, k < buffer_end → b1 k = b2 k) :
    ∀ fuel pp, parse_loop b1 buffer_end bound fuel pp = parse_loop b2 buffer_end bound fuel pp := by
  intro fuel
  induction fuel with
  | zero => intro pp; rfl
  | succ fuel ih =>
    intro pp
    by_cases hc : pp < buffer_end ∧ pp < bound
    · rw [parse_loop_iter b1 buffer_end bound fuel pp hc,
        parse_loop_iter b2 buffer_end bound fuel pp hc]
      unfold seek_next_skip seek_next_nonskip
      rw [seek_next_congr b1 b2 pp buffer_end true h,
        seek_next_congr b1 b2 _ buffer_end false h, ih]
      have hle := seek_next_le b2 pp buffer_end true (by omega)
      have hmap : (List.range (seek_next b2 pp buffer_end true - pp)).map (fun k => b1 (pp + k)) =
          (List.range (seek_next b2 pp buffer_end true - pp)).map (fun k => b2 (pp + k)) := by
        apply List.map_congr_left
        intro k hk
        rw [List.mem_range] at hk
        exact h (pp + k) (by omega)
      rw [hmap]
    · rw [parse_loop_exit b1 buffer_end bound fuel pp hc,
        parse_loop_exit b2 buffer_end bound fuel pp hc]

theorem parse_loop_past (buffer : Nat → Nat) (buffer_end bound fuel pp : Nat)
    (h : buffer_end ≤ pp) :
    parse_loop buffer buffer_end bound (fuel + 1) pp =
      some { words := [], shm := [], number_words := 0 } :=
  parse_loop_exit buffer buffer_end bound fuel pp (fun hc => by omega)

/-- The result of `child_parse` does not depend on what the buffer holds at the
positions that `fread` did not fill. -/
theorem child_parse_junk (file : List Nat) (junk1 junk2 : Nat → Nat) (file_offset end_ : Nat) :
    child_parse file junk1 file_offset end_ = child_parse file junk2 file_offset end_ := by
  have hagree : ∀ k, k < (read_buffer file file_offset end_).length →
      (fun i => (read_buffer file file_offset end_).getD i (junk1 i)) k =
        (fun i => (read_buffer file file_offset end_).getD i (junk2 i)) k := by
    intro k hk
    simp only [List.getD_eq_getElem _ _ hk]
  unfold child_parse
  simp only []
  generalize hb1 : (fun i => (read_buffer file file_offset end_).getD i (junk1 i)) = b1 at *
  generalize hb2 : (fun i => (read_buffer file file_offset end_).getD i (junk2 i)) = b2 at *
  generalize (read_buffer file file_offset end_).length = buffer_end at *
  rw [parse_loop_congr b1 b2 buffer_end _ hagree]
  by_cases h2 : 2 ≤ buffer_end
  · -- both bytes that the preparation step inspects were read
    have hpp : initial_parse_position b1 buffer_end file_offset end_ =
        initial_parse_position b2 buffer_end file_offset end_ := by
      unfold initial_parse_position seek_next_nonskip seek_next_skip
      rw [hagree 0 (by omega), hagree 1 (by omega),
        seek_next_congr b1 b2 1 buffer_end false hagree,
        seek_next_congr b1 b2 2 buffer_end false hagree,
        seek_next_congr b1 b2 2 buffer_end true hagree,
        seek_next_congr b1 b2 _ buffer_end false hagree]
    rw [hpp]
  · by_cases hpos : 0 < file_offset
    · have hp := fun b => initial_parse_position_pos b buffer_end file_offset end_ hpos
      rw [parse_loop_past b2 buffer_end _ buffer_end _ (by have := hp b1; omega),
        parse_loop_past b2 buffer_end _ buffer_end _ (by have := hp b2; omega)]
    · simp only [initial_parse_position, if_neg hpos]

theorem run_children_junk (file : List Nat) (junk1 junk2 : Nat → Nat → Nat) (c n : Nat) :
    run_children file junk1 c n = run_children file junk2 c n := by
  have h : (fun i => child_parse file (junk1 i) (i * c) ((i + 1) * c)) =
      (fun i => child_parse file (junk2 i) (i * c) ((i + 1) * c)) :=
    funext (fun i => child_parse_junk file (junk1 i) (junk2 i) _ _)
  unfold run_children
  rw [h]

/-! ## Claims C1 to C8: the chunk resolver and the partitioner -/

/-- C1, on the input where wfc.c breaks it. For the three-byte file "abc" and a
requested parallelism of 10, wfc.c runs three children on the one-byte ranges
[0,1), [1,2), [2,3); they emit "abc", "bc" and "c", whereas the unpartitioned
pass emits the single token "abc": the two multisets of tokens differ. -/
theorem partition_c_one_byte_ranges :
    ∀ junk : Nat → Nat → Nat,
      run_children_c [97, 98, 99] junk 10 =
        some [output_of [[97, 98, 99]], output_of [[98, 99]], output_of [[99]]] ∧
      run_children_c [97, 98, 99] junk 1 = some [output_of [[97, 98, 99]]] ∧
      Multiset.ofList (all_words
          [output_of [[97, 98, 99]], output_of [[98, 99]], output_of [[99]]]) ≠
        Multiset.ofList (all_words [output_of [[97, 98, 99]]]) := by
  intro junk
  unfold run_children_c
  rw [run_children_junk _ junk (fun _ _ => 0), run_children_junk _ junk (fun _ _ => 0)]
  refine ⟨by decide, by decide, ?_⟩
  intro h
  have := congrArg Multiset.card h
  simp [all_words, output_of] at this

/-- C2. For every non-empty file whose words are at most `MAX_WORD_LENGTH`
bytes long and every parallelism `p ≥ 1`, all children of wfc.cpp return, the
unpartitioned pass (parallelism 1) returns, and the multiset of the tokens of
all children equals the multiset of the tokens of the unpartitioned pass. -/
theorem partition_invariance_cpp (file : List Nat) (junk junk1 : Nat → Nat → Nat) (p : Nat)
    (hne : file ≠ []) (hb : words_bounded file) (hp : 1 ≤ p) :
    ∃ outs single, run_children_cpp file junk p = some outs ∧
      run_children_cpp file junk1 1 = some [single] ∧
      Multiset.ofList (all_words outs) = Multiset.ofList single.words := by
  obtain ⟨outs, h1, _, h2⟩ := run_children_cpp_words file junk p hne hb hp
  obtain ⟨outs1, h3, h4, h5⟩ := run_children_cpp_words file junk1 1 hne hb (le_refl 1)
  have hn1 : no_childs file.length 1 = 1 := by
    have hfs : 0 < file.length := List.length_pos.2 hne
    unfold no_childs
    rw [if_neg (by omega)]
  rw [hn1] at h4
  obtain ⟨single, rfl⟩ := List.length_eq_one.1 h4
  refine ⟨outs, single, h1, h3, ?_⟩
  rw [h2]
  simp only [all_words, List.flatMap_cons, List.flatMap_nil, List.append_nil] at h5
  rw [h5]

/-- A run of wfc.cpp on "ab cde f" with parallelism 3. -/
theorem partition_invariance_cpp_witness :
    ∃ outs single,
      run_children_cpp [97, 98, 32, 99, 100, 101, 32, 102] (fun _ _ => 0) 3 = some outs ∧
      run_children_cpp [97, 98, 32, 99, 100, 101, 32, 102] (fun _ _ => 7) 1 = some [single] ∧
      Multiset.ofList (all_words outs) = Multiset.ofList single.words :=
  partition_invariance_cpp [97, 98, 32, 99, 100, 101, 32, 102] (fun _ _ => 0) (fun _ _ => 7) 3
    (by decide) (by decide) (by decide)

/-- C3, on two inputs where the code breaks it. On the file " a" the range
[0,2) yields an empty token before "a", although "a" is the only word that
begins in the range; on the file "abc" the one-byte range [1,2) yields "bc",
although no word begins in it. -/
theorem range_exactness_fails :
    ∀ junk : Nat → Nat,
      (child_parse [32, 97] junk 0 2 = some (output_of [[], [97]]) ∧
        words_in [32, 97] 0 2 = [[97]]) ∧
      (child_parse [97, 98, 99] junk 1 2 = some (output_of [[98, 99]]) ∧
        words_in [97, 98, 99] 1 2 = []) := by
  intro junk
  rw [child_parse_junk _ junk (fun _ => 0), child_parse_junk _ junk (fun _ => 0)]
  decide

/-- C4. For a file whose words are at most `MAX_WORD_LENGTH` bytes long and a
range `[start, end)` with `start > 0` and `end - start > 1` whose bytes at
`start - 1` and `start` are both word characters, `child_parse` returns and emits
exactly the words that begin at an offset in `[tail_end, end)`, in file order,
where `tail_end > start` is the first offset behind the tail of the straddling
word: no token begins inside the tail. -/
theorem straddling_word_not_reemitted (file : List Nat) (junk : Nat → Nat)
    (file_offset end_ : Nat) (hb : words_bounded file) (hpos : 0 < file_offset)
    (hlong : 1 < end_ - file_offset)
    (hprev : isskip (file.getD (file_offset - 1) 0) = false)
    (hcur : isskip (file.getD file_offset 0) = false) :
    file_offset < tail_end file file_offset ∧
    child_parse file junk file_offset end_ =
      some (output_of (words_in file (tail_end file file_offset) end_)) := by
  have hlt : file_offset < file.length := by
    rcases Nat.lt_or_ge file_offset file.length with h | h
    · exact h
    · rw [List.getD_eq_default _ _ h] at hcur
      exact absurd hcur (by decide)
  have htail : file_offset < tail_end file file_offset := by
    unfold tail_end
    rw [word_at_cons file file_offset hlt hcur]
    simp
  refine ⟨htail, ?_⟩
  rw [child_parse_pos file junk file_offset end_ hpos (by omega) hb (Or.inl hlong)]
  rw [words_in_skip file file_offset (tail_end file file_offset) end_ (by omega)]
  intro k hk1 hk2
  apply not_word_start_after_word file k (by omega)
  by_cases hk : k = file_offset
  · rw [hk]; exact hprev
  · exact word_at_run file _ file_offset (k - 1) rfl (by omega) (by unfold tail_end at hk2; omega)

/-- The file "abc def" with the ranges [0,5) and [5,8): the second range begins
inside "def" and emits nothing; "def" comes from the first range. -/
theorem straddling_word_not_reemitted_witness :
    (5 < tail_end [97, 98, 99, 32, 100, 101, 102] 5 ∧
      child_parse [97, 98, 99, 32, 100, 101, 102] (fun _ => 0) 5 8 =
        some (output_of (words_in [97, 98, 99, 32, 100, 101, 102]
          (tail_end [97, 98, 99, 32, 100, 101, 102] 5) 8))) ∧
    words_in [97, 98, 99, 32, 100, 101, 102] (tail_end [97, 98, 99, 32, 100, 101, 102] 5) 8
      = [] ∧
    child_parse [97, 98, 99, 32, 100, 101, 102] (fun _ => 0) 0 5 =
      some (output_of [[97, 98, 99], [100, 101, 102]]) :=
  ⟨straddling_word_not_reemitted [97, 98, 99, 32, 100, 101, 102] (fun _ => 0) 5 8
      (by decide) (by decide) (by decide) (by decide) (by decide),
    by decide, by decide⟩

/-- C5, on the input where the code breaks it. On the file "abc" the one-byte
range [1,2) lies behind the word character "a"; `child_parse` sets
`parse_position = 1`, which is below `parse_bound = 2`, so the loop runs once:
one token ("bc") is emitted and the recorded word count is 1, not 0. -/
theorem one_byte_range_emits :
    ∀ junk : Nat → Nat,
      child_parse [97, 98, 99] junk 1 2 =
        some { words := [[98, 99]], shm := [98, 99, 0], number_words := 1 } := by
  intro junk
  rw [child_parse_junk _ junk (fun _ => 0)]
  decide

/-- C6, on two inputs where the code breaks it. On the file " a" the range
[0,2) has the empty token as its first token; on the file "a b" the one-byte
range [1,2) emits just the empty token. -/
theorem empty_token_emitted :
    ∀ junk : Nat → Nat,
      child_parse [32, 97] junk 0 2 =
        some { words := [[], [97]], shm := [0, 97, 0], number_words := 2 } ∧
      child_parse [97, 32, 98] junk 1 2 =
        some { words := [[]], shm := [0], number_words := 1 } := by
  intro junk
  rw [child_parse_junk _ junk (fun _ => 0), child_parse_junk _ junk (fun _ => 0)]
  decide

/-- C7. For a file whose words are at most `MAX_WORD_LENGTH` bytes long and a
range `[start, end)`, `child_parse` returns, the bytes it writes are its tokens
each followed by one null byte, and their number is at most
`(end - start) + MAX_WORD_LENGTH`. -/
theorem slot_capacity_bound (file : List Nat) (junk : Nat → Nat) (file_offset end_ : Nat)
    (hle : file_offset ≤ end_) (hb : words_bounded file) :
    ∃ out, child_parse file junk file_offset end_ = some out ∧
      out.shm = out.words.flatMap (fun w => w ++ [0]) ∧
      out.number_words = out.words.length ∧
      out.shm.length ≤ (end_ - file_offset) + MAX_WORD_LENGTH := by
  have _ := hle
  obtain ⟨out, h1, h2, h3⟩ := child_parse_shm_le file junk file_offset end_ hb
  refine ⟨out, h1, ?_, ?_, h3⟩
  · exact congrArg child_output.shm h2
  · exact congrArg child_output.number_words h2

/-- The range [1,2) of "abc": 3 bytes are written, the bound is 65. -/
theorem slot_capacity_bound_witness :
    ∃ out, child_parse [97, 98, 99] (fun _ => 0) 1 2 = some out ∧
      out.shm = out.words.flatMap (fun w => w ++ [0]) ∧
      out.number_words = out.words.length ∧
      out.shm.length ≤ (2 - 1) + MAX_WORD_LENGTH :=
  slot_capacity_bound [97, 98, 99] (fun _ => 0) 1 2 (by decide) (by decide)

/-- C8 as stated fails: a file of 65 letters "a" and a requested parallelism of
65 make `main` run 65 children with `chars_per_child = 1`; child 0 has the range
[0,1) and its slot holds `1 + MAX_WORD_LENGTH = 65` bytes, but it copies the
whole run of 65 letters and a null byte: 66 bytes. -/
theorem slot_overflow_on_long_word :
    no_childs 65 65 = 65 ∧ chars_per_child_c 65 65 = 1 ∧
    ∃ out, child_parse (List.replicate 65 97) (fun _ => 0)
        (0 * chars_per_child_c 65 65) ((0 + 1) * chars_per_child_c 65 65) = some out ∧
      out.shm.length = 66 ∧
      chars_per_child_c 65 65 + MAX_WORD_LENGTH < out.shm.length := by
  exact ⟨by decide, by decide, output_of [List.replicate 65 97], by decide, by decide,
    by decide⟩

/-- C8, amended. For a non-empty file whose words are at most `MAX_WORD_LENGTH`
bytes long, every parallelism `p ≥ 1` and every child `i` that `main` of wfc.c
starts, `child_parse` returns on the range of child `i` and writes at most
`chars_per_child + MAX_WORD_LENGTH` bytes, the capacity of its slot. -/
theorem slot_never_overrun (file : List Nat) (junk : Nat → Nat) (p i : Nat)
    (hne : file ≠ []) (hp : 1 ≤ p) (hb : words_bounded file)
    (hi : i < no_childs file.length p) :
    ∃ out, child_parse file junk
        (i * chars_per_child_c file.length (no_childs file.length p))
        ((i + 1) * chars_per_child_c file.length (no_childs file.length p)) = some out ∧
      out.shm.length ≤
        chars_per_child_c file.length (no_childs file.length p) + MAX_WORD_LENGTH := by
  have _ := hne
  have _ := hp
  have _ := hi
  obtain ⟨out, h1, _, h3⟩ := child_parse_shm_le file junk
    (i * chars_per_child_c file.length (no_childs file.length p))
    ((i + 1) * chars_per_child_c file.length (no_childs file.length p)) hb
  refine ⟨out, h1, ?_⟩
  rw [Nat.add_mul, Nat.one_mul, Nat.add_sub_cancel_left] at h3
  exact h3

/-- Child 1 of the run of wfc.c on "abc def" with parallelism 2. -/
theorem slot_never_overrun_witness :
    ∃ out, child_parse [97, 98, 99, 32, 100, 101, 102] (fun _ => 0)
        (1 * chars_per_child_c [97, 98, 99, 32, 100, 101, 102].length
          (no_childs [97, 98, 99, 32, 100, 101, 102].length 2))
        ((1 + 1) * chars_per_child_c [97, 98, 99, 32, 100, 101, 102].length
          (no_childs [97, 98, 99, 32, 100, 101, 102].length 2)) = some out ∧
      out.shm.length ≤
        chars_per_child_c [97, 98, 99, 32, 100, 101, 102].length
          (no_childs [97, 98, 99, 32, 100, 101, 102].length 2) + MAX_WORD_LENGTH :=
  slot_never_overrun [97, 98, 99, 32, 100, 101, 102] (fun _ => 0) 2 1
    (by decide) (by decide) (by decide) (by decide)

/-! ## Facts about `strcmp` and the comparison functions -/

theorem strcmp_self (a : List Nat) : strcmp a a = 0 := by
  induction a with
  | nil => rfl
  | cons x xs ih =>
    simp only [strcmp, if_true]
    split
    · rfl
    · exact ih

theorem strcmp_antisymm : ∀ a b : List Nat, strcmp b a = - strcmp a b := by
  intro a
  induction a with
  | nil =>
    intro b
    cases b with
    | nil => simp [strcmp]
    | cons y ys => simp [strcmp]
  | cons x xs ih =>
    intro b
    cases b with
    | nil => simp [strcmp]
    | cons y ys =>
      simp only [strcmp]
      by_cases hxy : x = y
      · subst hxy
        simp only [if_true]
        by_cases h0 : x = 0
        · simp [h0]
        · simp only [if_neg h0]
          exact ih ys
      · rw [if_neg hxy, if_neg (fun h => hxy h.symm)]
        omega

theorem strcmp_trans : ∀ a b c : List Nat,
    strcmp a b ≤ 0 → strcmp b c ≤ 0 → strcmp a c ≤ 0 := by
  intro a
  induction a with
  | nil =>
    intro b c _ _
    cases c with
    | nil => simp [strcmp]
    | cons z zs => simp [strcmp]
  | cons x xs ih =>
    intro b c hab hbc
    cases b with
    | nil =>
      simp only [strcmp] at hab
      have hx : x = 0 := by omega
      subst hx
      cases c with
      | nil => simp [strcmp]
      | cons z zs =>
        simp only [strcmp]
        by_cases hz : 0 = z
        · simp [hz.symm]
        · rw [if_neg hz]; omega
    | cons y ys =>
      cases c with
      | nil =>
        simp only [strcmp] at hbc
        have hy : y = 0 := by omega
        subst hy
        simp only [strcmp] at hab ⊢
        by_cases hx : x = 0
        · omega
        · rw [if_neg hx] at hab; omega
      | cons z zs =>
        simp only [strcmp] at hab hbc ⊢
        by_cases hxy : x = y
        · subst hxy
          simp only [if_true] at hab
          by_cases hxz : x = z
          · subst hxz
            simp only [if_true] at hbc ⊢
            by_cases h0 : x = 0
            · simp [h0]
            · rw [if_neg h0] at hab hbc ⊢
              exact ih ys zs hab hbc
          · rw [if_neg hxz] at hbc ⊢
            exact hbc
        · rw [if_neg hxy] at hab
          by_cases hyz : y = z
          · subst hyz
            rw [if_neg hxy]
            exact hab
          · rw [if_neg hyz] at hbc
            rw [if_neg (by omega)]
            omega

theorem strcmp_eq_zero : ∀ a b : List Nat, (∀ x, x ∈ a → x ≠ 0) → (∀ x, x ∈ b → x ≠ 0) →
    strcmp a b = 0 → a = b := by
  intro a
  induction a with
  | nil =>
    intro b _ hb h
    cases b with
    | nil => rfl
    | cons y ys =>
      simp only [strcmp] at h
      have := hb y (List.mem_cons_self y ys)
      omega
  | cons x xs ih =>
    intro b ha hb h
    have hx := ha x (List.mem_cons_self x xs)
    cases b with
    | nil =>
      simp only [strcmp] at h
      omega
    | cons y ys =>
      simp only [strcmp] at h
      by_cases hxy : x = y
      · subst hxy
        rw [if_pos rfl, if_neg hx] at h
        rw [ih ys (fun z hz => ha z (List.mem_cons_of_mem x hz))
          (fun z hz => hb z (List.mem_cons_of_mem x hz)) h]
      · rw [if_neg hxy] at h
        omega

theorem cmp_alpha_asc_consistent : cmp_consistent cmp_alpha_asc := by
  refine ⟨fun a b => ?_, fun a b c => strcmp_trans a.word b.word c.word⟩
  unfold cmp_alpha_asc
  rw [strcmp_antisymm a.word b.word]
  omega

theorem cmp_int_desc_consistent : cmp_consistent cmp_int_desc := by
  refine ⟨fun a b => ?_, fun a b c => ?_⟩
  · unfold cmp_int_desc; omega
  · unfold cmp_int_desc; omega

theorem insertion_qsort_is_qsort : is_qsort insertion_qsort := by
  intro cmp hc l
  unfold insertion_qsort
  refine ⟨List.perm_insertionSort _ l, ?_⟩
  haveI : IsTotal word_count (fun a b => cmp a b ≤ 0) := ⟨hc.1⟩
  haveI : IsTrans word_count (fun a b => cmp a b ≤ 0) := ⟨hc.2⟩
  exact List.sorted_insertionSort (fun a b => cmp a b ≤ 0) l

/-! ## Reading the slots -/

theorem read_words_length : ∀ n mem, (read_words n mem).length = n := by
  intro n
  induction n with
  | zero => intro mem; rfl
  | succ n ih => intro mem; simp [read_words, ih]

theorem read_words_nul_free : ∀ n mem w, w ∈ read_words n mem → ∀ x, x ∈ w → x ≠ 0 := by
  intro n
  induction n with
  | zero => intro mem w hw; simp [read_words] at hw
  | succ n ih =>
    intro mem w hw x hx
    simp only [read_words, List.mem_cons] at hw
    rcases hw with hw | hw
    · subst hw
      have := List.mem_takeWhile_imp hx
      simpa using this
    · exact ih _ w hw x hx

theorem takeWhile_string (t more : List Nat) (ht : ∀ x, x ∈ t → x ≠ 0) :
    (t ++ 0 :: more).takeWhile (fun c => c != 0) = t := by
  induction t with
  | nil => simp [List.takeWhile_cons]
  | cons x xs ih =>
    have hx := ht x (List.mem_cons_self x xs)
    rw [List.cons_append, List.takeWhile_cons]
    simp only [bne_iff_ne, ne_eq, hx, not_false_eq_true, if_true]
    rw [ih (fun y hy => ht y (List.mem_cons_of_mem x hy))]

/-- Reading back what a child wrote gives the tokens of the child. -/
theorem read_words_encode : ∀ (ts : List (List Nat)) (rest : List Nat),
    (∀ t, t ∈ ts → ∀ x, x ∈ t → x ≠ 0) →
    read_words ts.length (ts.flatMap (fun w => w ++ [0]) ++ rest) = ts := by
  intro ts
  induction ts with
  | nil => intro rest _; rfl
  | cons t ts ih =>
    intro rest h
    have ht := h t (List.mem_cons_self t ts)
    have hmem : (t :: ts).flatMap (fun w => w ++ [0]) ++ rest =
        t ++ 0 :: (ts.flatMap (fun w => w ++ [0]) ++ rest) := by
      simp
    rw [hmem]
    simp only [List.length_cons, read_words]
    rw [takeWhile_string t _ ht]
    have hd : List.drop (t.length + 1) (t ++ 0 :: (ts.flatMap (fun w => w ++ [0]) ++ rest)) =
        ts.flatMap (fun w => w ++ [0]) ++ rest := by
      rw [show t ++ 0 :: (ts.flatMap (fun w => w ++ [0]) ++ rest) =
        (t ++ [0]) ++ (ts.flatMap (fun w => w ++ [0]) ++ rest) by simp]
      rw [List.drop_append_of_le_length (by simp)]
      simp
    rw [hd, ih rest (fun u hu => h u (List.mem_cons_of_mem t hu))]

theorem fill_word_array_encode (ws : List (List (List Nat)))
    (h : ∀ ts, ts ∈ ws → ∀ t, t ∈ ts → ∀ x, x ∈ t → x ≠ 0) :
    fill_word_array (ws.map (fun ts => slot_of (output_of ts))) =
      ws.flatten.map (fun w => { count := 1, word := w }) := by
  induction ws with
  | nil => rfl
  | cons ts ws ih =>
    unfold fill_word_array at *
    rw [List.map_cons, List.flatMap_cons, ih (fun u hu => h u (List.mem_cons_of_mem ts hu))]
    simp only [slot_of, output_of, List.flatten_cons, List.map_append]
    have := read_words_encode ts [] (h ts (List.mem_cons_self ts ws))
    rw [List.append_nil] at this
    rw [this]

/-! ## The counting loops -/

theorem count_loop_eq_count_runs : ∀ (fuel : Nat) (words : List word_count) (cur next : Nat),
    cur < next → next + fuel = words.length →
    (count_loop fuel words cur next).1.take ((count_loop fuel words cur next).2 + 1) =
      count_runs (words.take cur) (words.getD cur default) (words.drop next) := by
  intro fuel
  induction fuel with
  | zero =>
    intro words cur next hlt hlen
    simp only [count_loop]
    rw [List.drop_eq_nil_of_le (by omega)]
    simp only [count_runs]
    rw [List.take_succ, List.getD_eq_getElem _ _ (by omega : cur < words.length),
      List.getElem?_eq_getElem (by omega : cur < words.length)]
    rfl
  | succ fuel ih =>
    intro words cur next hlt hlen
    have hnext : next < words.length := by omega
    rw [List.drop_eq_getElem_cons hnext]
    simp only [count_loop, count_runs]
    rw [List.getD_eq_getElem _ _ hnext]
    by_cases hc : strcmp (words.getD cur default).word words[next].word = 0
    · rw [if_pos hc, if_pos hc]
      rw [ih _ cur (next + 1) (by omega) (by rw [List.length_set]; omega)]
      rw [List.set_take, List.set_eq_of_length_le (by rw [List.length_take]; omega)]
      rw [List.drop_set_of_lt _ _ (by omega)]
      congr 1
      rw [List.getD_eq_getElem _ _ (by rw [List.length_set]; omega)]
      simp
    · rw [if_neg hc, if_neg hc]
      rw [ih _ (cur + 1) (next + 1) (by omega) (by rw [List.length_set]; omega)]
      rw [List.set_take, List.set_eq_of_length_le (by rw [List.length_take]; omega)]
      rw [List.drop_set_of_lt _ _ (by omega)]
      rw [List.take_succ, List.getElem?_eq_getElem (by omega : cur < words.length)]
      rw [List.getD_eq_getElem _ _ (by rw [List.length_set]; omega)]
      rw [List.getD_eq_getElem _ _ (by omega : cur < words.length)]
      simp

theorem count_runs_sum : ∀ (xs acc : List word_count) (cur : word_count),
    (∀ y, y ∈ xs → y.count = 1) →
    ((count_runs acc cur xs).map (fun e => e.count)).sum =
      (acc.map (fun e => e.count)).sum + cur.count + xs.length := by
  intro xs
  induction xs with
  | nil => intro acc cur _; simp [count_runs]
  | cons x xs ih =>
    intro acc cur hg
    have hx := hg x (List.mem_cons_self x xs)
    have hg2 : ∀ y, y ∈ xs → y.count = 1 := fun y hy => hg y (List.mem_cons_of_mem x hy)
    simp only [count_runs]
    split
    · rw [ih _ _ hg2]; simp only [List.length_cons]; push_cast; omega
    · rw [ih _ _ hg2, hx]
      simp only [List.map_append, List.sum_append, List.map_cons, List.map_nil, List.sum_cons,
        List.sum_nil, List.length_cons]
      push_cast
      omega

theorem occurrences_append (w : List Nat) (l1 l2 : List (List Nat)) :
    occurrences w (l1 ++ l2) = occurrences w l1 + occurrences w l2 := by
  unfold occurrences
  rw [List.filter_append, List.length_append]

theorem occurrences_singleton_self (w : List Nat) : occurrences w [w] = 1 := by
  simp [occurrences]

theorem occurrences_singleton_ne (w t : List Nat) (h : t ≠ w) : occurrences w [t] = 0 := by
  simp [occurrences, h]

theorem occurrences_of_not_mem (w : List Nat) (l : List (List Nat)) (h : w ∉ l) :
    occurrences w l = 0 := by
  unfold occurrences
  rw [List.length_eq_zero, List.filter_eq_nil_iff]
  intro t ht
  simp only [decide_eq_true_eq]
  intro htw
  exact h (htw ▸ ht)

theorem occurrences_perm (w : List Nat) (l1 l2 : List (List Nat)) (h : l1.Perm l2) :
    occurrences w l1 = occurrences w l2 := by
  unfold occurrences
  exact (h.filter _).length_eq

/-- Run-length counting of a list sorted by `strcmp`: one entry per distinct
word, with the number of its occurrences. `P` lists the words already counted. -/
theorem count_runs_spec : ∀ (xs acc : List word_count) (cur : word_count) (P : List (List Nat)),
    (acc.map (fun e => e.word) ++ [cur.word]).Nodup →
    (∀ a, a ∈ acc → ∀ y, y ∈ xs → a.word ≠ y.word) →
    (∀ y, y ∈ xs → strcmp cur.word y.word ≤ 0) →
    xs.Pairwise (fun a b => strcmp a.word b.word ≤ 0) →
    (∀ x, x ∈ cur.word → x ≠ 0) →
    (∀ y, y ∈ xs → ∀ x, x ∈ y.word → x ≠ 0) →
    (∀ a, a ∈ acc → a.count = (occurrences a.word P : Nat)) →
    cur.count = (occurrences cur.word P : Nat) →
    (∀ y, y ∈ xs → y.count = 1) →
    (∀ w, w ∈ P ↔ w ∈ acc.map (fun e => e.word) ∨ w = cur.word) →
    ((count_runs acc cur xs).map (fun e => e.word)).Nodup ∧
    (∀ e, e ∈ count_runs acc cur xs →
      e.count = (occurrences e.word (P ++ xs.map (fun e => e.word)) : Nat)) ∧
    (∀ w, w ∈ (count_runs acc cur xs).map (fun e => e.word) ↔
      w ∈ P ++ xs.map (fun e => e.word)) := by
  intro xs
  induction xs with
  | nil =>
    intro acc cur P ha _ _ _ _ _ hf1 hf2 _ hh
    simp only [count_runs, List.map_nil, List.append_nil]
    refine ⟨by simpa using ha, ?_, ?_⟩
    · intro e he
      rw [List.mem_append, List.mem_singleton] at he
      rcases he with he | he
      · exact hf1 e he
      · rw [he]; exact hf2
    · intro w
      rw [hh w]
      simp
  | cons x xs ih =>
    intro acc cur P ha hb hc hd he1 he2 hf1 hf2 hg hh
    have hxmem : x ∈ x :: xs := List.mem_cons_self x xs
    have hd' := List.pairwise_cons.1 hd
    simp only [count_runs]
    by_cases hs : strcmp cur.word x.word = 0
    · rw [if_pos hs]
      have hw : cur.word = x.word := strcmp_eq_zero _ _ he1 (he2 x hxmem) hs
      have := ih acc { cur with count := cur.count + 1 } (P ++ [x.word]) ha
        (fun a ha' y hy => hb a ha' y (List.mem_cons_of_mem x hy))
        (fun y hy => hc y (List.mem_cons_of_mem x hy)) hd'.2 he1
        (fun y hy => he2 y (List.mem_cons_of_mem x hy))
        (fun a ha' => by
          rw [hf1 a ha', occurrences_append,
            occurrences_singleton_ne _ _ (hb a ha' x hxmem).symm, Nat.add_zero])
        (by
          show cur.count + 1 = _
          rw [hf2, occurrences_append, hw, occurrences_singleton_self]
          push_cast
          rfl)
        (fun y hy => hg y (List.mem_cons_of_mem x hy))
        (fun w => by
          show w ∈ P ++ [x.word] ↔ w ∈ acc.map (fun e => e.word) ∨ w = cur.word
          rw [List.mem_append, hh w, hw]
          simp)
      simpa [List.append_assoc] using this
    · rw [if_neg hs]
      have hne : cur.word ≠ x.word := fun h => hs (by rw [h]; exact strcmp_self _)
      have hxP : x.word ∉ P := by
        rw [hh]
        intro h
        rcases h with h | h
        · rw [List.mem_map] at h
          obtain ⟨a, ha', hax⟩ := h
          exact hb a ha' x hxmem hax
        · exact hne h.symm
      have := ih (acc ++ [cur]) x (P ++ [x.word])
        (by
          rw [List.map_append, List.map_singleton]
          rw [List.nodup_append]
          refine ⟨ha, List.nodup_singleton _, ?_⟩
          intro w hw1 hw2
          rw [List.mem_singleton] at hw2
          subst hw2
          rw [List.mem_append, List.mem_singleton] at hw1
          rcases hw1 with h | h
          · rw [List.mem_map] at h
            obtain ⟨a, ha', hax⟩ := h
            exact hb a ha' x hxmem hax
          · exact hne h.symm)
        (fun a ha' y hy => by
          rw [List.mem_append, List.mem_singleton] at ha'
          rcases ha' with h | h
          · exact hb a h y (List.mem_cons_of_mem x hy)
          · subst h
            intro heq
            have h1 := hc x hxmem
            have h2 := hd'.1 y hy
            rw [← heq, strcmp_antisymm a.word x.word] at h2
            exact hs (by omega))
        (fun y hy => hd'.1 y hy) hd'.2 (he2 x hxmem)
        (fun y hy => he2 y (List.mem_cons_of_mem x hy))
        (fun a ha' => by
          rw [List.mem_append, List.mem_singleton] at ha'
          rw [occurrences_append]
          rcases ha' with h | h
          · rw [hf1 a h, occurrences_singleton_ne _ _ (hb a h x hxmem).symm, Nat.add_zero]
          · subst h
            rw [hf2, occurrences_singleton_ne _ _ hne.symm, Nat.add_zero])
        (by
          rw [hg x hxmem, occurrences_append, occurrences_of_not_mem _ _ hxP,
            occurrences_singleton_self]
          rfl)
        (fun y hy => hg y (List.mem_cons_of_mem x hy))
        (fun w => by
          rw [List.mem_append, hh w, List.map_append, List.mem_append]
          simp)
      simpa [List.append_assoc] using this

/-- What `aggregate_results` of wfc.c writes, for any slots: one entry per
distinct string read from the slots, with the number of its occurrences. -/
theorem aggregate_results_spec
    (qsort : (word_count → word_count → Int) → List word_count → List word_count)
    (hq : is_qsort qsort) (children : List (List Nat × Nat)) :
    ((aggregate_results qsort children).map (fun e => e.word)).Nodup ∧
    (∀ e, e ∈ aggregate_results qsort children →
      e.count = (occurrences e.word ((fill_word_array children).map (fun e => e.word)) : Nat)) ∧
    (∀ w, w ∈ (aggregate_results qsort children).map (fun e => e.word) ↔
      w ∈ (fill_word_array children).map (fun e => e.word)) ∧
    ((aggregate_results qsort children).map (fun e => e.count)).sum =
      ((fill_word_array children).length : Nat) := by
  have hone : ∀ e, e ∈ fill_word_array children → e.count = 1 := by
    intro e he
    unfold fill_word_array at he
    rw [List.mem_flatMap] at he
    obtain ⟨ch, _, he⟩ := he
    rw [List.mem_map] at he
    obtain ⟨w, _, rfl⟩ := he
    rfl
  have hnul : ∀ e, e ∈ fill_word_array children → ∀ x, x ∈ e.word → x ≠ 0 := by
    intro e he
    unfold fill_word_array at he
    rw [List.mem_flatMap] at he
    obtain ⟨ch, _, he⟩ := he
    rw [List.mem_map] at he
    obtain ⟨w, hw, rfl⟩ := he
    exact read_words_nul_free _ _ w hw
  obtain ⟨hperm, hsorted⟩ := hq cmp_alpha_asc cmp_alpha_asc_consistent (fill_word_array children)
  unfold aggregate_results
  simp only []
  generalize fill_word_array children = words at *
  generalize qsort cmp_alpha_asc words = sorted at *
  have hlen : sorted.length = words.length := hperm.length_eq
  cases hs : sorted with
  | nil =>
    subst hs
    have hw : words = [] := List.length_eq_zero.1 (by rw [← hlen]; rfl)
    subst hw
    simp only [List.length_nil, gt_iff_lt, lt_self_iff_false, if_false, List.take_zero]
    have hnil : qsort cmp_int_desc [] = [] :=
      List.Perm.eq_nil (hq cmp_int_desc cmp_int_desc_consistent []).1
    rw [hnil]
    simp
  | cons x xs =>
    subst hs
    have hpos : words.length > 0 := by rw [← hlen]; simp
    rw [if_pos hpos]
    have hfuel : words.length - 1 = xs.length := by rw [← hlen]; simp
    rw [hfuel, count_loop_eq_count_runs xs.length (x :: xs) 0 1 (by omega)
      (by simp only [List.length_cons]; omega)]
    simp only [List.take_zero, List.getD_cons_zero, List.drop_one, List.tail_cons]
    have hmemx : x ∈ words := hperm.mem_iff.1 (List.mem_cons_self x xs)
    have hmemxs : ∀ y, y ∈ xs → y ∈ words :=
      fun y hy => hperm.mem_iff.1 (List.mem_cons_of_mem x hy)
    have hsorted2 := List.pairwise_cons.1 hsorted
    obtain ⟨r1, r2, r3⟩ := count_runs_spec xs [] x [x.word]
      (by simp) (fun a ha => by simp at ha) (fun y hy => hsorted2.1 y hy) hsorted2.2
      (hnul x hmemx) (fun y hy => hnul y (hmemxs y hy)) (fun a ha => by simp at ha)
      (by rw [hone x hmemx, occurrences_singleton_self]; rfl) (fun y hy => hone y (hmemxs y hy)) (fun w => by simp)
    have r4 := count_runs_sum xs [] x (fun y hy => hone y (hmemxs y hy))
    obtain ⟨hperm2, _⟩ := hq cmp_int_desc cmp_int_desc_consistent (count_runs [] x xs)
    have hT : ([x.word] ++ xs.map (fun e => e.word)).Perm (words.map (fun e => e.word)) := by
      simpa using hperm.map (fun e => e.word)
    refine ⟨?_, ?_, ?_, ?_⟩
    · exact ((hperm2.map (fun e => e.word)).nodup_iff).2 r1
    · intro e he
      rw [r2 e (hperm2.mem_iff.1 he)]
      rw [occurrences_perm _ _ _ hT]
    · intro w
      rw [(hperm2.map (fun e => e.word)).mem_iff, r3 w, hT.mem_iff]
    · rw [(hperm2.map (fun e => e.count)).sum_eq, r4, hone x hmemx, ← hlen]
      simp only [List.map_nil, List.sum_nil, List.length_cons]
      push_cast
      omega

/-! ## The word table of wfc.cpp -/

theorem table_equiv_iff (k w : List Nat) (hk : ∀ x, x ∈ k → x ≠ 0) (hw : ∀ x, x ∈ w → x ≠ 0) :
    (!cmp_str k w && !cmp_str w k) = true ↔ k = w := by
  unfold cmp_str
  rw [strcmp_antisymm k w]
  constructor
  · intro h
    simp only [Bool.and_eq_true, Bool.not_eq_true', decide_eq_false_iff_not] at h
    exact strcmp_eq_zero k w hk hw (by omega)
  · intro h
    subst h
    simp [strcmp_self]

/-- One pass through the loop body of `fill_table`. -/
theorem fill_step_spec (table : List (List Nat × Int)) (P : List (List Nat)) (w : List Nat)
    (hw : ∀ x, x ∈ w → x ≠ 0) (hP : ∀ t, t ∈ P → ∀ x, x ∈ t → x ≠ 0)
    (h1 : (table.map (fun e => e.1)).Nodup)
    (h2 : ∀ e, e ∈ table → e.2 = (occurrences e.1 P : Nat))
    (h3 : ∀ t, t ∈ table.map (fun e => e.1) ↔ t ∈ P) :
    ((fill_step table w).map (fun e => e.1)).Nodup ∧
    (∀ e, e ∈ fill_step table w → e.2 = (occurrences e.1 (P ++ [w]) : Nat)) ∧
    (∀ t, t ∈ (fill_step table w).map (fun e => e.1) ↔ t ∈ P ++ [w]) := by
  unfold fill_step
  have hkey : ∀ e, e ∈ table → ∀ x, x ∈ e.1 → x ≠ 0 := by
    intro e he
    exact hP e.1 ((h3 e.1).1 (List.mem_map.2 ⟨e, he, rfl⟩))
  cases hf : table_find table w with
  | some e0 =>
    simp only []
    have hmem : e0 ∈ table := List.mem_of_find?_eq_some hf
    have hp : (!cmp_str e0.1 w && !cmp_str w e0.1) = true := by
      unfold table_find at hf
      exact @List.find?_some _ (fun e => !cmp_str e.1 w && !cmp_str w e.1) e0 table hf
    have he0 : e0.1 = w := (table_equiv_iff e0.1 w (hkey e0 hmem) hw).1 hp
    have hkeys : (table_increment table w).map (fun e => e.1) = table.map (fun e => e.1) := by
      unfold table_increment
      rw [List.map_map]
      apply List.map_congr_left
      intro e _
      simp only [Function.comp]
      split <;> rfl
    refine ⟨by rw [hkeys]; exact h1, ?_, ?_⟩
    · intro e he
      unfold table_increment at he
      rw [List.mem_map] at he
      obtain ⟨e1, he1, rfl⟩ := he
      rw [occurrences_append]
      by_cases hq : (!cmp_str e1.1 w && !cmp_str w e1.1) = true
      · rw [if_pos hq]
        have := (table_equiv_iff e1.1 w (hkey e1 he1) hw).1 hq
        simp only []
        rw [h2 e1 he1, this, occurrences_singleton_self]
        push_cast
        rfl
      · rw [if_neg hq]
        have hne : w ≠ e1.1 := fun h =>
          hq ((table_equiv_iff e1.1 w (hkey e1 he1) hw).2 h.symm)
        rw [h2 e1 he1, occurrences_singleton_ne _ _ hne, Nat.add_zero]
    · intro t
      rw [hkeys, h3 t, List.mem_append, List.mem_singleton]
      constructor
      · exact Or.inl
      · rintro (h | h)
        · exact h
        · rw [h, ← he0]
          exact (h3 e0.1).1 (List.mem_map.2 ⟨e0, hmem, rfl⟩)
  | none =>
    simp only []
    have hnone : ∀ e, e ∈ table → e.1 ≠ w := by
      intro e he heq
      have := List.find?_eq_none.1 hf e he
      exact this ((table_equiv_iff e.1 w (hkey e he) hw).2 heq)
    have hwP : w ∉ P := by
      intro h
      have := (h3 w).2 h
      rw [List.mem_map] at this
      obtain ⟨e, he, hew⟩ := this
      exact hnone e he hew
    have hperm : (table_insert table w 1).Perm ((w, 1) :: table) := by
      unfold table_insert
      have h := @List.perm_middle _ (w, (1 : Int))
        (table.takeWhile (fun e => cmp_str e.1 w))
        (table.dropWhile (fun e => cmp_str e.1 w))
      rw [List.takeWhile_append_dropWhile] at h
      exact h
    have hpermk := hperm.map (fun e => e.1)
    refine ⟨?_, ?_, ?_⟩
    · rw [hpermk.nodup_iff, List.map_cons, List.nodup_cons]
      exact ⟨fun h => hwP ((h3 w).1 h), h1⟩
    · intro e he
      have he2 := hperm.mem_iff.1 he
      rw [List.mem_cons] at he2
      rw [occurrences_append]
      rcases he2 with h | h
      · subst h
        simp only []
        rw [occurrences_of_not_mem _ _ hwP, occurrences_singleton_self]
        rfl
      · rw [h2 e h, occurrences_singleton_ne _ _ (hnone e h).symm, Nat.add_zero]
    · intro t
      rw [hpermk.mem_iff, List.map_cons, List.mem_cons, h3 t, List.mem_append,
        List.mem_singleton]
      tauto

theorem fill_fold_spec : ∀ (ws : List (List Nat)) (table : List (List Nat × Int))
    (P : List (List Nat)),
    (∀ w, w ∈ ws → ∀ x, x ∈ w → x ≠ 0) → (∀ t, t ∈ P → ∀ x, x ∈ t → x ≠ 0) →
    (table.map (fun e => e.1)).Nodup →
    (∀ e, e ∈ table → e.2 = (occurrences e.1 P : Nat)) →
    (∀ t, t ∈ table.map (fun e => e.1) ↔ t ∈ P) →
    ((ws.foldl fill_step table).map (fun e => e.1)).Nodup ∧
    (∀ e, e ∈ ws.foldl fill_step table → e.2 = (occurrences e.1 (P ++ ws) : Nat)) ∧
    (∀ t, t ∈ (ws.foldl fill_step table).map (fun e => e.1) ↔ t ∈ P ++ ws) := by
  intro ws
  induction ws with
  | nil =>
    intro table P _ _ h1 h2 h3
    simp only [List.foldl_nil, List.append_nil]
    exact ⟨h1, h2, h3⟩
  | cons w ws ih =>
    intro table P hws hP h1 h2 h3
    obtain ⟨s1, s2, s3⟩ := fill_step_spec table P w (hws w (List.mem_cons_self w ws)) hP h1 h2 h3
    have := ih (fill_step table w) (P ++ [w])
      (fun u hu => hws u (List.mem_cons_of_mem w hu))
      (fun t ht => by
        rw [List.mem_append, List.mem_singleton] at ht
        rcases ht with h | h
        · exact hP t h
        · rw [h]; exact hws w (List.mem_cons_self w ws))
      s1 s2 s3
    simpa [List.append_assoc] using this

theorem fill_children_eq : ∀ (children : List (List Nat × Nat)) (table : List (List Nat × Int)),
    children.foldl (fun table ch => fill_table table ch.1 ch.2) table =
      (slot_words children).foldl fill_step table := by
  intro children
  induction children with
  | nil => intro table; rfl
  | cons ch rest ih =>
    intro table
    unfold slot_words at *
    rw [List.foldl_cons, List.flatMap_cons, List.foldl_append, ih]
    rfl

theorem slot_words_nul_free (children : List (List Nat × Nat)) :
    ∀ w, w ∈ slot_words children → ∀ x, x ∈ w → x ≠ 0 := by
  intro w hw
  unfold slot_words at hw
  rw [List.mem_flatMap] at hw
  obtain ⟨ch, _, hw⟩ := hw
  exact read_words_nul_free _ _ w hw

theorem fill_word_array_words (children : List (List Nat × Nat)) :
    (fill_word_array children).map (fun e => e.word) = slot_words children := by
  unfold fill_word_array slot_words
  induction children with
  | nil => rfl
  | cons ch rest ih =>
    rw [List.flatMap_cons, List.flatMap_cons, List.map_append, ih, List.map_map]
    congr 1
    exact List.map_id _

theorem slot_words_slots_of (ws : List (List (List Nat)))
    (h : ∀ ts, ts ∈ ws → ∀ t, t ∈ ts → ∀ x, x ∈ t → x ≠ 0) :
    slot_words (slots_of ws) = ws.flatten := by
  rw [← fill_word_array_words]
  unfold slots_of
  rw [fill_word_array_encode ws h, List.map_map]
  exact List.map_id _

theorem sum_occurrences : ∀ (keys : List (List Nat)) (T : List (List Nat)),
    keys.Nodup → (∀ w, w ∈ keys ↔ w ∈ T) →
    (keys.map (fun w => (occurrences w T : Int))).sum = (T.length : Nat) := by
  intro keys
  induction keys with
  | nil =>
    intro T _ h
    have hT : T = [] := List.eq_nil_iff_forall_not_mem.2 (fun w hw => by
      have := (h w).2 hw
      simp at this)
    subst hT
    rfl
  | cons k ks ih =>
    intro T hnd h
    rw [List.nodup_cons] at hnd
    have hlen : T.length = occurrences k T +
        (T.filter (fun t => !decide (t = k))).length := by
      unfold occurrences
      exact List.length_eq_length_filter_add (fun t => decide (t = k))
    have hocc : ∀ w, w ∈ ks →
        occurrences w (T.filter (fun t => !decide (t = k))) = occurrences w T := by
      intro w hw
      unfold occurrences
      rw [List.filter_filter]
      congr 1
      apply List.filter_congr
      intro t _
      by_cases htw : t = w
      · have : t ≠ k := fun htk => hnd.1 (htk ▸ htw ▸ hw)
        simp [htw, this]
        intro hwk
        exact hnd.1 (hwk ▸ hw)
      · simp [htw]
    have hmem : ∀ w, w ∈ ks ↔ w ∈ T.filter (fun t => !decide (t = k)) := by
      intro w
      rw [List.mem_filter, ← h w, List.mem_cons]
      constructor
      · intro hw
        refine ⟨Or.inr hw, ?_⟩
        have : w ≠ k := fun hwk => hnd.1 (hwk ▸ hw)
        simp [this]
      · rintro ⟨hw | hw, hne⟩
        · simp [hw] at hne
        · exact hw
    have := ih (T.filter (fun t => !decide (t = k))) hnd.2 hmem
    rw [List.map_cons, List.sum_cons, hlen]
    have hmap : ks.map (fun w => (occurrences w T : Int)) =
        ks.map (fun w => (occurrences w (T.filter (fun t => !decide (t = k))) : Int)) := by
      apply List.map_congr_left
      intro w hw
      rw [hocc w hw]
    rw [hmap, this]
    push_cast
    rfl

/-- What the parent of wfc.cpp writes, for any slots. -/
theorem aggregate_cpp_spec
    (qsort : (word_count → word_count → Int) → List word_count → List word_count)
    (hq : is_qsort qsort) (children : List (List Nat × Nat)) :
    counts_exact (aggregate_cpp qsort children) (slot_words children) := by
  unfold aggregate_cpp aggregate_results_cpp
  rw [fill_children_eq]
  obtain ⟨f1, f2, f3⟩ := fill_fold_spec (slot_words children) [] []
    (slot_words_nul_free children) (fun t ht => by simp at ht) (by simp)
    (fun e he => by simp at he) (fun t => by simp)
  rw [List.nil_append] at f2 f3
  generalize (slot_words children).foldl fill_step [] = table at *
  obtain ⟨hperm, _⟩ := hq cmp_int_desc cmp_int_desc_consistent
    (table.map (fun e => ({ count := e.2, word := e.1 } : word_count)))
  have hwords : (table.map (fun e => ({ count := e.2, word := e.1 } : word_count))).map
      (fun e => e.word) = table.map (fun e => e.1) := by
    rw [List.map_map]; rfl
  refine ⟨?_, ?_, ?_, ?_⟩
  · rw [(hperm.map (fun e => e.word)).nodup_iff, hwords]
    exact f1
  · intro w
    rw [(hperm.map (fun e => e.word)).mem_iff, hwords]
    exact f3 w
  · intro e he
    have := hperm.mem_iff.1 he
    rw [List.mem_map] at this
    obtain ⟨e0, he0, rfl⟩ := this
    exact f2 e0 he0
  · rw [(hperm.map (fun e => e.count)).sum_eq, List.map_map]
    rw [← sum_occurrences (table.map (fun e => e.1)) (slot_words children) f1 f3, List.map_map]
    congr 1
    apply List.map_congr_left
    intro e he
    exact f2 e he

/-- What `aggregate_results` of wfc.c writes, for any slots. -/
theorem aggregate_results_counts
    (qsort : (word_count → word_count → Int) → List word_count → List word_count)
    (hq : is_qsort qsort) (children : List (List Nat × Nat)) :
    counts_exact (aggregate_results qsort children) (slot_words children) := by
  obtain ⟨a1, a2, a3, a4⟩ := aggregate_results_spec qsort hq children
  rw [fill_word_array_words] at a2 a3
  have hlen : (fill_word_array children).length = (slot_words children).length := by
    rw [← fill_word_array_words, List.length_map]
  rw [hlen] at a4
  exact ⟨a1, a3, a2, a4⟩

/-! ## Claims C9 and C10: the aggregator -/

/-- C9. For every list of worker token sequences (tokens are strings, so they
hold no null byte) and every `qsort` that meets the contract of the C standard,
what `aggregate_results` of wfc.c writes and what `fill_table` followed by
`aggregate_results` of wfc.cpp writes both count the tokens exactly: one entry
per distinct token content, whose count is the number of tokens with that
content across all workers, and the counts sum to the number of tokens. -/
theorem aggregated_counts_exact
    (qsort : (word_count → word_count → Int) → List word_count → List word_count)
    (hq : is_qsort qsort) (ws : List (List (List Nat)))
    (hnul : ∀ ts, ts ∈ ws → ∀ t, t ∈ ts → ∀ x, x ∈ t → x ≠ 0) :
    counts_exact (aggregate_results qsort (slots_of ws)) ws.flatten ∧
    counts_exact (aggregate_cpp qsort (slots_of ws)) ws.flatten := by
  have h1 := aggregate_results_counts qsort hq (slots_of ws)
  have h2 := aggregate_cpp_spec qsort hq (slots_of ws)
  rw [slot_words_slots_of ws hnul] at h1 h2
  exact ⟨h1, h2⟩

/-- Two workers with the tokens "b", "a" and "b", merged with insertion sort as
`qsort`. -/
theorem aggregated_counts_exact_witness :
    (counts_exact (aggregate_results insertion_qsort (slots_of [[[98], [97]], [[98]]]))
        [[[98], [97]], [[98]]].flatten ∧
      counts_exact (aggregate_cpp insertion_qsort (slots_of [[[98], [97]], [[98]]]))
        [[[98], [97]], [[98]]].flatten) ∧
    aggregate_results insertion_qsort (slots_of [[[98], [97]], [[98]]]) =
      [{ count := 2, word := [98] }, { count := 1, word := [97] }] ∧
    aggregate_cpp insertion_qsort (slots_of [[[98], [97]], [[98]]]) =
      [{ count := 2, word := [98] }, { count := 1, word := [97] }] :=
  ⟨aggregated_counts_exact insertion_qsort insertion_qsort_is_qsort [[[98], [97]], [[98]]]
    (by decide), by decide, by decide⟩

/-- C10. For every list of worker token sequences and every `qsort` that meets
the contract of the C standard, in the sequence `aggregate_results` writes the
count of each entry is at least the count of every later entry, in particular
of the entry right after it; the same holds for wfc.cpp. -/
theorem ranked_output_descending
    (qsort : (word_count → word_count → Int) → List word_count → List word_count)
    (hq : is_qsort qsort) (ws : List (List (List Nat))) :
    (aggregate_results qsort (slots_of ws)).Pairwise (fun a b => b.count ≤ a.count) ∧
    (aggregate_results qsort (slots_of ws)).Chain' (fun a b => b.count ≤ a.count) ∧
    (aggregate_cpp qsort (slots_of ws)).Pairwise (fun a b => b.count ≤ a.count) := by
  have hdesc : ∀ l : List word_count,
      (qsort cmp_int_desc l).Pairwise (fun a b => b.count ≤ a.count) := by
    intro l
    refine (hq cmp_int_desc cmp_int_desc_consistent l).2.imp ?_
    intro a b hab
    unfold cmp_int_desc at hab
    omega
  have h1 : (aggregate_results qsort (slots_of ws)).Pairwise
      (fun a b => b.count ≤ a.count) := by
    unfold aggregate_results
    exact hdesc _
  refine ⟨h1, List.Pairwise.chain' h1, ?_⟩
  unfold aggregate_cpp aggregate_results_cpp
  exact hdesc _

/-- The tokens "b", "a", "b", "a", "b", "c" of two workers, ranked with
insertion sort as `qsort`. -/
theorem ranked_output_descending_witness :
    ((aggregate_results insertion_qsort
        (slots_of [[[98], [97], [98]], [[97], [98], [99]]])).Pairwise
      (fun a b => b.count ≤ a.count) ∧
    (aggregate_results insertion_qsort
        (slots_of [[[98], [97], [98]], [[97], [98], [99]]])).Chain'
      (fun a b => b.count ≤ a.count) ∧
    (aggregate_cpp insertion_qsort
        (slots_of [[[98], [97], [98]], [[97], [98], [99]]])).Pairwise
      (fun a b => b.count ≤ a.count)) ∧
    aggregate_results insertion_qsort (slots_of [[[98], [97], [98]], [[97], [98], [99]]]) =
      [{ count := 3, word := [98] }, { count := 2, word := [97] },
        { count := 1, word := [99] }] :=
  ⟨ranked_output_descending insertion_qsort insertion_qsort_is_qsort
    [[[98], [97], [98]], [[97], [98], [99]]], by decide⟩

/-! ## Termination of the parse loop on any buffer -/

/-- On any buffer the parse loop returns when it has more fuel than bytes left,
and every token it copies consists of word characters only. -/
theorem parse_loop_total (buffer : Nat → Nat) (buffer_end bound : Nat) :
    ∀ fuel pp, 1 ≤ fuel → buffer_end + 1 ≤ fuel + pp →
      ∃ out, parse_loop buffer buffer_end bound fuel pp = some out ∧
        ∀ t, t ∈ out.words → ∀ x, x ∈ t → isskip x = false := by
  intro fuel
  induction fuel with
  | zero => intro pp h; omega
  | succ fuel ih =>
    intro pp _ hfuel
    by_cases hc : pp < buffer_end ∧ pp < bound
    · rw [parse_loop_iter buffer buffer_end bound fuel pp hc]
      obtain ⟨hc1, _⟩ := hc
      have hge := seek_next_ge buffer pp buffer_end true
      have hle := seek_next_le buffer pp buffer_end true (by omega)
      have hbetween := seek_next_between buffer pp buffer_end true
      have hat := seek_next_at buffer pp buffer_end true
      have hge2 := seek_next_ge buffer (seek_next_skip buffer pp buffer_end) buffer_end false
      have hat2 := seek_next_at buffer (seek_next_skip buffer pp buffer_end) buffer_end false
      unfold seek_next_nonskip
      unfold seek_next_skip at *
      generalize seek_next buffer pp buffer_end true = q at *
      generalize seek_next buffer q buffer_end false = q2 at *
      have hadv : pp < q2 := by
        by_cases hq : q = pp
        · by_cases hq2 : q2 = q
          · have h1 := hat (by omega)
            have h2 := hat2 (by omega)
            rw [hq2, h1] at h2
            exact absurd h2 (by decide)
          · omega
        · omega
      obtain ⟨rest, hrest, hwords⟩ := ih q2 (by omega) (by omega)
      rw [hrest, Option.map_some']
      refine ⟨_, rfl, ?_⟩
      intro t ht x hx
      simp only [List.mem_cons] at ht
      rcases ht with ht | ht
      · subst ht
        rw [List.mem_map] at hx
        obtain ⟨k, hk, rfl⟩ := hx
        rw [List.mem_range] at hk
        have := hbetween (pp + k) (by omega) (by omega)
        simpa using this
      · exact hwords t ht x hx
    · rw [parse_loop_exit buffer buffer_end bound fuel pp hc]
      exact ⟨_, rfl, fun t ht => by simp at ht⟩

/-- The function `child_parse` returns on every file and every range, and its
tokens consist of word characters only. -/
theorem child_parse_total (file : List Nat) (junk : Nat → Nat) (file_offset end_ : Nat) :
    ∃ out, child_parse file junk file_offset end_ = some out ∧
      ∀ t, t ∈ out.words → ∀ x, x ∈ t → isskip x = false := by
  unfold child_parse
  simp only []
  exact parse_loop_total _ _ _ _ _ (by omega) (by omega)

theorem run_children_total (file : List Nat) (junk : Nat → Nat → Nat) (c n : Nat) :
    ∃ outs, run_children file junk c n = some outs ∧ outs.length = n := by
  have h : ∀ i, ∃ out, child_parse file (junk i) (i * c) ((i + 1) * c) = some out :=
    fun i => by
      obtain ⟨out, h, _⟩ := child_parse_total file (junk i) (i * c) ((i + 1) * c)
      exact ⟨out, h⟩
  refine ⟨(List.range n).map (fun i => Classical.choose (h i)), ?_, by simp⟩
  unfold run_children
  apply mapM_eq_some_map
  intro i _
  exact Classical.choose_spec (h i)

theorem isskip_false_iff (c : Nat) :
    isskip c = false ↔ (97 ≤ c ∧ c ≤ 122) ∨ (65 ≤ c ∧ c ≤ 90) ∨ c = 45 ∨ c = 39 := by
  unfold isskip
  simp only [Bool.and_eq_false_imp, Bool.and_eq_true, Bool.not_eq_true', bne_iff_ne, ne_eq,
    decide_eq_true_eq, Bool.not_eq_false', Bool.and_eq_false_iff, bne_eq_false_iff_eq,
    decide_eq_false_iff_not]
  omega

/-! ## Claims C14 and C20: the scanner and the alphabet -/

/-- C14. For every buffer, every offset with `offset ≤ buffer_length` and either
value of the skip flag, the result `r` of `seek_next` lies between `offset` and
`buffer_length`; every index in `[offset, r)` holds a character of the class
opposite to the one searched for; if `r < buffer_length`, index `r` holds a
character of the class searched for (skippable when the flag is set, word
character when it is clear); `r` is the least such index; and `r` is
`buffer_length` when there is no such index. -/
theorem seek_next_contract (buffer : Nat → Nat) (offset buffer_length : Nat) (skip : Bool)
    (h : offset ≤ buffer_length) :
    offset ≤ seek_next buffer offset buffer_length skip ∧
    seek_next buffer offset buffer_length skip ≤ buffer_length ∧
    (∀ k, offset ≤ k → k < seek_next buffer offset buffer_length skip →
      isskip (buffer k) = !skip) ∧
    (seek_next buffer offset buffer_length skip < buffer_length →
      isskip (buffer (seek_next buffer offset buffer_length skip)) = skip) ∧
    (∀ i, offset ≤ i → i < buffer_length → isskip (buffer i) = skip →
      seek_next buffer offset buffer_length skip ≤ i) ∧
    ((∀ i, offset ≤ i → i < buffer_length → isskip (buffer i) = !skip) →
      seek_next buffer offset buffer_length skip = buffer_length) := by
  have hge := seek_next_ge buffer offset buffer_length skip
  have hle := seek_next_le buffer offset buffer_length skip h
  have hbetween := seek_next_between buffer offset buffer_length skip
  have hat := seek_next_at buffer offset buffer_length skip
  refine ⟨hge, hle, hbetween, hat, ?_, ?_⟩
  · intro i hi1 _ hi3
    rcases Nat.lt_or_ge i (seek_next buffer offset buffer_length skip) with hlt | hge2
    · have := hbetween i hi1 hlt
      rw [hi3] at this
      cases skip <;> simp at this
    · exact hge2
  · intro hnone
    rcases Nat.lt_or_ge (seek_next buffer offset buffer_length skip) buffer_length with hlt | hge2
    · have h1 := hat hlt
      have h2 := hnone _ hge hlt
      rw [h1] at h2
      cases skip <;> simp at h2
    · omega

/-- The buffer "ab cd": from offset 0 the next skippable byte is at index 2, the
next word character at index 0; from offset 3 there is no skippable byte. -/
theorem seek_next_contract_witness :
    (0 ≤ seek_next (fun i => [97, 98, 32, 99, 100].getD i 0) 0 5 true ∧
    seek_next (fun i => [97, 98, 32, 99, 100].getD i 0) 0 5 true ≤ 5 ∧
    (∀ k, 0 ≤ k → k < seek_next (fun i => [97, 98, 32, 99, 100].getD i 0) 0 5 true →
      isskip ((fun i => [97, 98, 32, 99, 100].getD i 0) k) = !true) ∧
    (seek_next (fun i => [97, 98, 32, 99, 100].getD i 0) 0 5 true < 5 →
      isskip ((fun i => [97, 98, 32, 99, 100].getD i 0)
        (seek_next (fun i => [97, 98, 32, 99, 100].getD i 0) 0 5 true)) = true) ∧
    (∀ i, 0 ≤ i → i < 5 → isskip ((fun i => [97, 98, 32, 99, 100].getD i 0) i) = true →
      seek_next (fun i => [97, 98, 32, 99, 100].getD i 0) 0 5 true ≤ i) ∧
    ((∀ i, 0 ≤ i → i < 5 → isskip ((fun i => [97, 98, 32, 99, 100].getD i 0) i) = !true) →
      seek_next (fun i => [97, 98, 32, 99, 100].getD i 0) 0 5 true = 5)) ∧
    seek_next (fun i => [97, 98, 32, 99, 100].getD i 0) 0 5 true = 2 ∧
    seek_next (fun i => [97, 98, 32, 99, 100].getD i 0) 0 5 false = 0 ∧
    seek_next (fun i => [97, 98, 32, 99, 100].getD i 0) 3 5 true = 5 :=
  ⟨seek_next_contract (fun i => [97, 98, 32, 99, 100].getD i 0) 0 5 true (by decide),
    by decide, by decide, by decide⟩

/-- C20. For every file and every range `[start, end)`, `child_parse` returns
and every byte of every token it emits is an ASCII letter, a hyphen or an
apostrophe; in particular no token contains the null byte. -/
theorem tokens_only_word_characters (file : List Nat) (junk : Nat → Nat)
    (file_offset end_ : Nat) (hle : file_offset ≤ end_) :
    ∃ out, child_parse file junk file_offset end_ = some out ∧
      ∀ t, t ∈ out.words → ∀ x, x ∈ t →
        ((97 ≤ x ∧ x ≤ 122) ∨ (65 ≤ x ∧ x ≤ 90) ∨ x = 45 ∨ x = 39) ∧ x ≠ 0 := by
  have _ := hle
  obtain ⟨out, h1, h2⟩ := child_parse_total file junk file_offset end_
  refine ⟨out, h1, fun t ht x hx => ?_⟩
  have h := (isskip_false_iff x).1 (h2 t ht x hx)
  exact ⟨h, by omega⟩

/-- The range [0,13) of "don't stop-go". -/
theorem tokens_only_word_characters_witness :
    ∃ out, child_parse [100, 111, 110, 39, 116, 32, 115, 116, 111, 112, 45, 103, 111]
        (fun _ => 0) 0 13 = some out ∧
      ∀ t, t ∈ out.words → ∀ x, x ∈ t →
        ((97 ≤ x ∧ x ≤ 122) ∨ (65 ≤ x ∧ x ≤ 90) ∨ x = 45 ∨ x = 39) ∧ x ≠ 0 :=
  tokens_only_word_characters [100, 111, 110, 39, 116, 32, 115, 116, 111, 112, 45, 103, 111]
    (fun _ => 0) 0 13 (by decide)

/-! ## The ranges of `main` -/

theorem c_chunks_cover_all (fs n : Nat) (hn : 1 ≤ n) (hfs : 1 ≤ fs) :
    1 ≤ chars_per_child_c fs n ∧ fs ≤ n * chars_per_child_c fs n := by
  unfold chars_per_child_c
  have h1 : 1 ≤ (fs + n - 1) / n := (Nat.le_div_iff_mul_le (by omega)).2 (by omega)
  have h2 := Nat.div_add_mod (fs + n - 1) n
  have h3 := Nat.mod_lt (fs + n - 1) (show n > 0 by omega)
  exact ⟨h1, by omega⟩

/-- Ranges of equal length `c ≥ 1` that reach the end of the file: they are in
order, adjacent, and every offset of the file lies in exactly one of the
first `n`. -/
theorem child_ranges_partition (fs n c : Nat) (hc : 1 ≤ c) (hcover : fs ≤ n * c) :
    (∀ i, (child_range c i).1 ≤ (child_range c i).2) ∧
    (child_range c 0).1 = 0 ∧
    (∀ i, (child_range c i).2 = (child_range c (i + 1)).1) ∧
    (∀ i j, i < j → (child_range c i).2 ≤ (child_range c j).1) ∧
    (∀ x, x < fs → ∃ i, i < n ∧ (child_range c i).1 ≤ x ∧ x < (child_range c i).2 ∧
      ∀ j, (child_range c j).1 ≤ x → x < (child_range c j).2 → j = i) := by
  unfold child_range
  refine ⟨fun i => Nat.mul_le_mul_right c (by omega), Nat.zero_mul c, fun i => rfl,
    fun i j hij => Nat.mul_le_mul_right c (by omega), ?_⟩
  intro x hx
  show ∃ i, i < n ∧ i * c ≤ x ∧ x < (i + 1) * c ∧
    ∀ j, j * c ≤ x → x < (j + 1) * c → j = i
  have h1 : x / c * c ≤ x := Nat.div_mul_le_self x c
  have h2 : x < (x / c + 1) * c := by
    have := Nat.div_add_mod x c
    have := Nat.mod_lt x (show c > 0 by omega)
    rw [Nat.add_mul, Nat.one_mul, Nat.mul_comm]
    omega
  refine ⟨x / c, ?_, h1, h2, ?_⟩
  · exact Nat.lt_of_mul_lt_mul_right (a := c) (by omega)
  · intro j hj1 hj2
    exact (Nat.div_eq_of_lt_le hj1 hj2).symm

/-! ## Claim C15 -/

/-- C15 as stated fails: for a file of 3 bytes and parallelism 2 both programs
use `chars_per_child = 2`, so child 1 has the range [2,4); offset 3 lies in it
although it is not an offset of the file, hence the union of the ranges is not
[0,3). -/
theorem ranges_exceed_file :
    no_childs 3 2 = 2 ∧
    child_range (chars_per_child_c 3 (no_childs 3 2)) 1 = (2, 4) ∧
    child_range (chars_per_child_cpp 3 (no_childs 3 2)) 1 = (2, 4) ∧
    ¬ (∀ x, (∃ i, i < no_childs 3 2 ∧
        (child_range (chars_per_child_c 3 (no_childs 3 2)) i).1 ≤ x ∧
        x < (child_range (chars_per_child_c 3 (no_childs 3 2)) i).2) ↔ x < 3) ∧
    ¬ (∀ x, (∃ i, i < no_childs 3 2 ∧
        (child_range (chars_per_child_cpp 3 (no_childs 3 2)) i).1 ≤ x ∧
        x < (child_range (chars_per_child_cpp 3 (no_childs 3 2)) i).2) ↔ x < 3) := by
  refine ⟨by decide, by decide, by decide, ?_, ?_⟩
  · intro h
    have := (h 3).1 ⟨1, by decide, by decide, by decide⟩
    omega
  · intro h
    have := (h 3).1 ⟨1, by decide, by decide, by decide⟩
    omega

/-- C15, amended. For every file size `fs > 0` and every parallelism `p ≥ 1`,
with `n = min(p, fs)` and `chars_per_child` by the rule of wfc.c or by the rule
of wfc.cpp, the ranges `[i * chars_per_child, (i + 1) * chars_per_child)` are
half-open with start ≤ end, begin at 0, each ends where the next begins (no
gap, no overlap), the last of the `n` ranges ends at or behind `fs`, and every
offset in `[0, fs)` lies in exactly one of the `n` ranges. -/
theorem ranges_partition_file (fs p c : Nat) (hfs : 0 < fs) (hp : 1 ≤ p)
    (hc : c = chars_per_child_c fs (no_childs fs p) ∨
      c = chars_per_child_cpp fs (no_childs fs p)) :
    no_childs fs p = min p fs ∧
    (∀ i, (child_range c i).1 ≤ (child_range c i).2) ∧
    (child_range c 0).1 = 0 ∧
    (∀ i, (child_range c i).2 = (child_range c (i + 1)).1) ∧
    (∀ i j, i < j → (child_range c i).2 ≤ (child_range c j).1) ∧
    fs ≤ (child_range c (no_childs fs p - 1)).2 ∧
    (∀ x, x < fs → ∃ i, i < no_childs fs p ∧
      (child_range c i).1 ≤ x ∧ x < (child_range c i).2 ∧
      ∀ j, (child_range c j).1 ≤ x → x < (child_range c j).2 → j = i) := by
  have hn := no_childs_pos fs p hfs hp
  have hle := no_childs_le fs p
  have hmin : no_childs fs p = min p fs := by
    unfold no_childs
    split <;> omega
  have hcc : 1 ≤ c ∧ fs ≤ no_childs fs p * c := by
    rcases hc with h | h
    · rw [h]; exact c_chunks_cover_all fs _ hn hfs
    · rw [h]
      have := cpp_chunks_cover fs _ hn hle
      exact ⟨by omega, this.2⟩
  obtain ⟨q1, q2, q3, q4, q5⟩ := child_ranges_partition fs (no_childs fs p) c hcc.1 hcc.2
  refine ⟨hmin, q1, q2, q3, q4, ?_, q5⟩
  show fs ≤ (no_childs fs p - 1 + 1) * c
  rw [Nat.sub_add_cancel hn]
  exact hcc.2

/-- A file of 7 bytes with parallelism 3 under the rule of wfc.c. -/
theorem ranges_partition_file_witness :
    no_childs 7 3 = min 3 7 ∧
    (∀ i, (child_range (chars_per_child_c 7 (no_childs 7 3)) i).1 ≤
      (child_range (chars_per_child_c 7 (no_childs 7 3)) i).2) ∧
    (child_range (chars_per_child_c 7 (no_childs 7 3)) 0).1 = 0 ∧
    (∀ i, (child_range (chars_per_child_c 7 (no_childs 7 3)) i).2 =
      (child_range (chars_per_child_c 7 (no_childs 7 3)) (i + 1)).1) ∧
    (∀ i j, i < j → (child_range (chars_per_child_c 7 (no_childs 7 3)) i).2 ≤
      (child_range (chars_per_child_c 7 (no_childs 7 3)) j).1) ∧
    7 ≤ (child_range (chars_per_child_c 7 (no_childs 7 3)) (no_childs 7 3 - 1)).2 ∧
    (∀ x, x < 7 → ∃ i, i < no_childs 7 3 ∧
      (child_range (chars_per_child_c 7 (no_childs 7 3)) i).1 ≤ x ∧
      x < (child_range (chars_per_child_c 7 (no_childs 7 3)) i).2 ∧
      ∀ j, (child_range (chars_per_child_c 7 (no_childs 7 3)) j).1 ≤ x →
        x < (child_range (chars_per_child_c 7 (no_childs 7 3)) j).2 → j = i) :=
  ranges_partition_file 7 3 (chars_per_child_c 7 (no_childs 7 3)) (by decide) (by decide)
    (Or.inl rfl)

/-! ## The parent process -/

theorem wait_loop_c_fold (results : List (Nat × wait_status)) :
    ∀ b, results.foldl (fun error r => if child_error r.2 then true else error) b =
      (b || results.any (fun r => child_error r.2)) := by
  induction results with
  | nil => intro b; simp
  | cons r rest ih =>
    intro b
    rw [List.foldl_cons, ih, List.any_cons]
    cases child_error r.2 <;> cases b <;> simp

theorem wait_loop_c_eq (results : List (Nat × wait_status)) :
    wait_loop_c results = results.any (fun r => child_error r.2) := by
  unfold wait_loop_c
  rw [wait_loop_c_fold]
  simp

theorem wait_loop_cpp_error (outs : List child_output) :
    ∀ (results : List (Nat × wait_status)) (error : Bool) (table : List (List Nat × Int)),
      (wait_loop_cpp outs results error table).1 =
        (error || results.any (fun r => child_error r.2)) := by
  intro results
  induction results with
  | nil => intro error table; simp [wait_loop_cpp]
  | cons r rest ih =>
    intro error table
    simp only [wait_loop_cpp, List.any_cons]
    split
    · next h => rw [ih, h]; simp
    · next h =>
      split
      · rw [ih]; simp [h]
      · rw [ih]; simp [h]

theorem results_any_error (n : Nat) (waits : Nat → Nat × wait_status) :
    ((List.range n).map waits).any (fun r => child_error r.2) = true ↔
      ∃ k, k < n ∧ child_error (waits k).2 = true := by
  rw [List.any_eq_true]
  constructor
  · rintro ⟨r, hr, he⟩
    rw [List.mem_map] at hr
    obtain ⟨k, hk, rfl⟩ := hr
    exact ⟨k, List.mem_range.1 hk, he⟩
  · rintro ⟨k, hk, he⟩
    exact ⟨waits k, List.mem_map.2 ⟨k, List.mem_range.2 hk, rfl⟩, he⟩

theorem forked_append (s1 s2 : List parent_event) :
    forked (s1 ++ s2) = forked s1 ++ forked s2 := by
  unfold forked
  rw [List.filterMap_append]

theorem forked_forks (n : Nat) : forked ((List.range n).map parent_event.fork) = List.range n := by
  induction n with
  | zero => rfl
  | succ n ih =>
    rw [List.range_succ, List.map_append, forked_append, ih]
    rfl

theorem forked_nil_of (s : List parent_event)
    (h : ∀ e, e ∈ s → ∀ i, e ≠ parent_event.fork i) : forked s = [] := by
  unfold forked
  rw [List.filterMap_eq_nil_iff]
  intro e he
  cases e with
  | fork i => exact absurd rfl (h _ he i)
  | wait i => rfl
  | read i => rfl

theorem wait_loop_cpp_steps (outs : List child_output) :
    ∀ (results : List (Nat × wait_status)) (error : Bool) (table : List (List Nat × Int)),
      (∀ e, e ∈ (wait_loop_cpp outs results error table).2.2 →
        ∀ i, e ≠ parent_event.fork i) ∧
      own_barrier (wait_loop_cpp outs results error table).2.2 := by
  intro results
  induction results with
  | nil =>
    intro error table
    simp only [wait_loop_cpp]
    exact ⟨fun e he => by simp at he, fun k i h => by simp at h⟩
  | cons r rest ih =>
    intro error table
    simp only [wait_loop_cpp]
    split
    · obtain ⟨h1, h2⟩ := ih true table
      refine ⟨?_, ?_⟩
      · intro e he i
        simp only [List.mem_cons] at he
        rcases he with he | he
        · rw [he]; exact fun h => by cases h
        · exact h1 e he i
      · intro k i hk
        cases k with
        | zero => simp at hk
        | succ k =>
          rw [List.getElem?_cons_succ] at hk
          obtain ⟨hpos, hprev⟩ := h2 k i hk
          refine ⟨by omega, ?_⟩
          obtain ⟨k', rfl⟩ : ∃ k', k = k' + 1 := ⟨k - 1, by omega⟩
          simpa using hprev
    · split
      · obtain ⟨h1, h2⟩ := ih error
          (fill_table table (slot_of (outs.getD r.1 default)).1
            (slot_of (outs.getD r.1 default)).2)
        refine ⟨?_, ?_⟩
        · intro e he i
          simp only [List.mem_cons] at he
          rcases he with he | he | he
          · rw [he]; exact fun h => by cases h
          · rw [he]; exact fun h => by cases h
          · exact h1 e he i
        · intro k i hk
          cases k with
          | zero => simp at hk
          | succ k =>
            cases k with
            | zero =>
              simp only [List.getElem?_cons_succ, List.getElem?_cons_zero, Option.some.injEq,
                parent_event.read.injEq] at hk
              subst hk
              exact ⟨by omega, by simp⟩
            | succ k =>
              simp only [List.getElem?_cons_succ] at hk
              obtain ⟨hpos, hprev⟩ := h2 k i hk
              refine ⟨by omega, ?_⟩
              obtain ⟨k', rfl⟩ : ∃ k', k = k' + 1 := ⟨k - 1, by omega⟩
              simpa using hprev
      · obtain ⟨h1, h2⟩ := ih error table
        refine ⟨?_, ?_⟩
        · intro e he i
          simp only [List.mem_cons] at he
          rcases he with he | he
          · rw [he]; exact fun h => by cases h
          · exact h1 e he i
        · intro k i hk
          cases k with
          | zero => simp at hk
          | succ k =>
            rw [List.getElem?_cons_succ] at hk
            obtain ⟨hpos, hprev⟩ := h2 k i hk
            refine ⟨by omega, ?_⟩
            obtain ⟨k', rfl⟩ : ∃ k', k = k' + 1 := ⟨k - 1, by omega⟩
            simpa using hprev

theorem own_barrier_after_forks (n : Nat) (s : List parent_event) (h : own_barrier s) :
    own_barrier ((List.range n).map parent_event.fork ++ s) := by
  intro k i hk
  have hlen : ((List.range n).map parent_event.fork).length = n := by simp
  by_cases hkn : k < n
  · rw [List.getElem?_append_left (by omega)] at hk
    rw [List.getElem?_map] at hk
    cases hr : (List.range n)[k]? with
    | none => rw [hr] at hk; simp at hk
    | some j => rw [hr] at hk; simp at hk
  · rw [List.getElem?_append_right (by omega), hlen] at hk
    obtain ⟨hpos, hprev⟩ := h (k - n) i hk
    refine ⟨by omega, ?_⟩
    rw [List.getElem?_append_right (by omega), hlen]
    rw [show k - 1 - n = k - n - 1 by omega]
    exact hprev

theorem main_c_failure
    (qsort : (word_count → word_count → Int) → List word_count → List word_count)
    (file : List Nat) (junk : Nat → Nat → Nat) (p : Nat)
    (waits : Nat → Nat × wait_status) (write_ok : Nat → Bool) (hne : file ≠ [])
    (herr : wait_loop_c ((List.range (no_childs file.length p)).map waits) = true) :
    main_c qsort file junk p waits write_ok =
      some { status := EXIT_FAILURE
             steps := (List.range (no_childs file.length p)).map parent_event.fork ++
               ((List.range (no_childs file.length p)).map waits).map
                 (fun r => parent_event.wait r.1)
             aggregate_called := false
             output := none } := by
  have hlen : ¬ file.length = 0 := fun h => hne (List.length_eq_zero.1 h)
  unfold main_c
  simp only []
  rw [if_neg hlen, if_pos herr]

theorem main_c_success
    (qsort : (word_count → word_count → Int) → List word_count → List word_count)
    (file : List Nat) (junk : Nat → Nat → Nat) (p : Nat)
    (waits : Nat → Nat × wait_status) (write_ok : Nat → Bool) (hne : file ≠ [])
    (hok : wait_loop_c ((List.range (no_childs file.length p)).map waits) = false)
    (outs : List child_output) (houts : run_children_c file junk p = some outs) :
    main_c qsort file junk p waits write_ok =
      some { status := (write_lines write_ok 0 (aggregate_results qsort (outs.map slot_of))).1
             steps := (List.range (no_childs file.length p)).map parent_event.fork ++
               ((List.range (no_childs file.length p)).map waits).map
                 (fun r => parent_event.wait r.1) ++
               (List.range (no_childs file.length p)).map parent_event.read ++
               (List.range (no_childs file.length p)).map parent_event.read
             aggregate_called := true
             output := some
               (write_lines write_ok 0 (aggregate_results qsort (outs.map slot_of))).2 } := by
  have hlen : ¬ file.length = 0 := fun h => hne (List.length_eq_zero.1 h)
  unfold run_children_c at houts
  simp only [] at houts
  unfold main_c
  simp only []
  rw [if_neg hlen, if_neg (by rw [hok]; decide), houts]
  rfl

theorem main_cpp_eq
    (qsort : (word_count → word_count → Int) → List word_count → List word_count)
    (file : List Nat) (junk : Nat → Nat → Nat) (p : Nat)
    (waits : Nat → Nat × wait_status) (write_ok : Nat → Bool) (hne : file ≠ [])
    (outs : List child_output) (houts : run_children_cpp file junk p = some outs) :
    main_cpp qsort file junk p waits write_ok =
      some (if (wait_loop_cpp outs ((List.range (no_childs file.length p)).map waits)
          false []).1 then
        { status := EXIT_FAILURE
          steps := (List.range (no_childs file.length p)).map parent_event.fork ++
            (wait_loop_cpp outs ((List.range (no_childs file.length p)).map waits)
              false []).2.2
          aggregate_called := false
          output := none }
      else
        { status := (write_lines write_ok 0 (aggregate_results_cpp qsort
            (wait_loop_cpp outs ((List.range (no_childs file.length p)).map waits)
              false []).2.1)).1
          steps := (List.range (no_childs file.length p)).map parent_event.fork ++
            (wait_loop_cpp outs ((List.range (no_childs file.length p)).map waits)
              false []).2.2
          aggregate_called := true
          output := some (write_lines write_ok 0 (aggregate_results_cpp qsort
            (wait_loop_cpp outs ((List.range (no_childs file.length p)).map waits)
              false []).2.1)).2 }) := by
  have hlen : ¬ file.length = 0 := fun h => hne (List.length_eq_zero.1 h)
  unfold run_children_cpp at houts
  simp only [] at houts
  unfold main_cpp
  simp only []
  rw [if_neg hlen, houts]
  rfl

theorem no_read_before_aggregation (n : Nat) (waits : Nat → Nat × wait_status) :
    ∀ e, e ∈ (List.range n).map parent_event.fork ++
        ((List.range n).map waits).map (fun r => parent_event.wait r.1) →
      ∀ i, e ≠ parent_event.read i := by
  intro e he i
  rw [List.mem_append, List.mem_map, List.mem_map] at he
  rcases he with ⟨j, _, rfl⟩ | ⟨r, _, rfl⟩
  · exact fun h => by cases h
  · exact fun h => by cases h

/-- In wfc.c every inspection of a result comes after the whole wait loop. -/
theorem strict_barrier_c (n : Nat) (waits : Nat → Nat × wait_status)
    (hall : ∀ j, j < n → ∃ k, k < n ∧ (waits k).1 = j) (rest : List parent_event) :
    strict_barrier n ((List.range n).map parent_event.fork ++
      ((List.range n).map waits).map (fun r => parent_event.wait r.1) ++ rest) := by
  intro k i hk j hj
  generalize hA : (List.range n).map parent_event.fork ++
      ((List.range n).map waits).map (fun r => parent_event.wait r.1) = A at hk ⊢
  have hno : ∀ e, e ∈ A → ∀ i, e ≠ parent_event.read i := by
    rw [← hA]; exact no_read_before_aggregation n waits
  have hwait : parent_event.wait j ∈ A := by
    rw [← hA]
    obtain ⟨k0, hk0, hkj⟩ := hall j hj
    rw [List.mem_append]
    right
    rw [List.mem_map]
    exact ⟨waits k0, List.mem_map.2 ⟨k0, List.mem_range.2 hk0, rfl⟩, by rw [hkj]⟩
  by_cases hlt : k < A.length
  · rw [List.getElem?_append_left hlt] at hk
    have := List.getElem?_mem hk
    exact absurd rfl (hno _ this i)
  · rw [List.take_append_eq_append_take, List.mem_append]
    left
    rw [List.take_of_length_le (by omega)]
    exact hwait

/-! ## Claims C16 to C19: the parent process -/

/-- C16. For every non-empty file of `fs` bytes and every requested parallelism
`p ≥ 1`, `main` of wfc.c and `main` of wfc.cpp return and the children they fork
are exactly the children `0 .. min(p, fs) - 1`: `min(p, fs)` workers are
started. -/
theorem workers_started
    (qsort : (word_count → word_count → Int) → List word_count → List word_count)
    (file : List Nat) (junk : Nat → Nat → Nat) (p : Nat)
    (waits : Nat → Nat × wait_status) (write_ok : Nat → Bool)
    (hne : file ≠ []) (hp : 1 ≤ p) :
    no_childs file.length p = min p file.length ∧
    (∃ r, main_c qsort file junk p waits write_ok = some r ∧
      forked r.steps = List.range (min p file.length)) ∧
    (∃ r, main_cpp qsort file junk p waits write_ok = some r ∧
      forked r.steps = List.range (min p file.length)) := by
  have _ := hp
  have hmin : no_childs file.length p = min p file.length := by
    unfold no_childs
    split <;> omega
  refine ⟨hmin, ?_, ?_⟩
  · rw [← hmin]
    cases herr : wait_loop_c ((List.range (no_childs file.length p)).map waits) with
    | true =>
      refine ⟨_, main_c_failure qsort file junk p waits write_ok hne herr, ?_⟩
      simp only []
      rw [forked_append, forked_forks, forked_nil_of, List.append_nil]
      intro e he i
      rw [List.mem_map] at he
      obtain ⟨r, _, rfl⟩ := he
      exact fun h => by cases h
    | false =>
      obtain ⟨outs, houts, _⟩ := run_children_total file junk
        (chars_per_child_c file.length (no_childs file.length p)) (no_childs file.length p)
      refine ⟨_, main_c_success qsort file junk p waits write_ok hne herr outs houts, ?_⟩
      simp only []
      rw [forked_append, forked_append, forked_append, forked_forks, forked_nil_of,
        forked_nil_of]
      · simp
      · intro e he i
        rw [List.mem_map] at he
        obtain ⟨r, _, rfl⟩ := he
        exact fun h => by cases h
      · intro e he i
        rw [List.mem_map] at he
        obtain ⟨r, _, rfl⟩ := he
        exact fun h => by cases h
  · rw [← hmin]
    obtain ⟨outs, houts, _⟩ := run_children_total file junk
      (chars_per_child_cpp file.length (no_childs file.length p)) (no_childs file.length p)
    refine ⟨_, main_cpp_eq qsort file junk p waits write_ok hne outs houts, ?_⟩
    have hnf := (wait_loop_cpp_steps outs
      ((List.range (no_childs file.length p)).map waits) false []).1
    split
    · simp only []
      rw [forked_append, forked_forks, forked_nil_of _ hnf, List.append_nil]
    · simp only []
      rw [forked_append, forked_forks, forked_nil_of _ hnf, List.append_nil]

/-- Parallelism 10 on the 3-byte file "a b": both programs fork the children 0,
1 and 2. -/
theorem workers_started_witness :
    no_childs [97, 32, 98].length 10 = min 10 [97, 32, 98].length ∧
    (∃ r, main_c insertion_qsort [97, 32, 98] (fun _ _ => 0) 10 waits_in_order
        (fun _ => true) = some r ∧
      forked r.steps = List.range (min 10 [97, 32, 98].length)) ∧
    (∃ r, main_cpp insertion_qsort [97, 32, 98] (fun _ _ => 0) 10 waits_in_order
        (fun _ => true) = some r ∧
      forked r.steps = List.range (min 10 [97, 32, 98].length)) :=
  workers_started insertion_qsort [97, 32, 98] (fun _ _ => 0) 10 waits_in_order
    (fun _ => true) (by decide) (by decide)

/-- C17. For a non-empty file and `p ≥ 1`: if the status of at least one child
shows an abnormal end or an exit status other than `EXIT_SUCCESS`, `main` (of
wfc.c and of wfc.cpp) does not call `aggregate_results`, never opens the output
file and ends with `EXIT_FAILURE`; if every child succeeds, `main` calls
`aggregate_results` and its status is the status `aggregate_results` returns. -/
theorem worker_failure_fails_run
    (qsort : (word_count → word_count → Int) → List word_count → List word_count)
    (file : List Nat) (junk : Nat → Nat → Nat) (p : Nat)
    (waits : Nat → Nat × wait_status) (write_ok : Nat → Bool)
    (hne : file ≠ []) (hp : 1 ≤ p) :
    ((∃ k, k < no_childs file.length p ∧ child_error (waits k).2 = true) →
      (∃ r, main_c qsort file junk p waits write_ok = some r ∧
        r.aggregate_called = false ∧ r.output = none ∧ r.status = EXIT_FAILURE) ∧
      (∃ r, main_cpp qsort file junk p waits write_ok = some r ∧
        r.aggregate_called = false ∧ r.output = none ∧ r.status = EXIT_FAILURE)) ∧
    ((∀ k, k < no_childs file.length p → child_error (waits k).2 = false) →
      (∃ r outs, main_c qsort file junk p waits write_ok = some r ∧
        run_children_c file junk p = some outs ∧ r.aggregate_called = true ∧
        r.status =
          (write_lines write_ok 0 (aggregate_results qsort (outs.map slot_of))).1) ∧
      (∃ r outs, main_cpp qsort file junk p waits write_ok = some r ∧
        run_children_cpp file junk p = some outs ∧ r.aggregate_called = true ∧
        r.status =
          (write_lines write_ok 0 (aggregate_results_cpp qsort
            (wait_loop_cpp outs ((List.range (no_childs file.length p)).map waits)
              false []).2.1)).1)) := by
  have _ := hp
  obtain ⟨outs_c, houts_c, _⟩ := run_children_total file junk
    (chars_per_child_c file.length (no_childs file.length p)) (no_childs file.length p)
  obtain ⟨outs, houts, _⟩ := run_children_total file junk
    (chars_per_child_cpp file.length (no_childs file.length p)) (no_childs file.length p)
  refine ⟨fun hfail => ?_, fun hok => ?_⟩
  · have hany := (results_any_error (no_childs file.length p) waits).2 hfail
    refine ⟨⟨_, main_c_failure qsort file junk p waits write_ok hne
      (by rw [wait_loop_c_eq]; exact hany), rfl, rfl, rfl⟩, ?_⟩
    refine ⟨_, main_cpp_eq qsort file junk p waits write_ok hne outs houts, ?_⟩
    rw [wait_loop_cpp_error, hany]
    exact ⟨rfl, rfl, rfl⟩
  · have hany : ((List.range (no_childs file.length p)).map waits).any
        (fun r => child_error r.2) = false := by
      cases h : ((List.range (no_childs file.length p)).map waits).any
          (fun r => child_error r.2) with
      | false => rfl
      | true =>
        obtain ⟨k, hk, he⟩ := (results_any_error (no_childs file.length p) waits).1 h
        rw [hok k hk] at he
        exact absurd he (by decide)
    refine ⟨⟨_, outs_c, main_c_success qsort file junk p waits write_ok hne
      (by rw [wait_loop_c_eq]; exact hany) outs_c houts_c, houts_c, rfl, rfl⟩, ?_⟩
    refine ⟨_, outs, main_cpp_eq qsort file junk p waits write_ok hne outs houts, houts, ?_⟩
    rw [wait_loop_cpp_error, hany]
    exact ⟨rfl, rfl⟩

/-- The file "b a b a" with parallelism 2, where the second `wait` reports the
exit status 1. -/
theorem worker_failure_fails_run_witness :
    (((∃ k, k < no_childs [98, 32, 97, 32, 98, 32, 97].length 2 ∧
        child_error ((fun k => (k, { exited := true, exit_status := k })) k :
          Nat × wait_status).2 = true) →
      (∃ r, main_c insertion_qsort [98, 32, 97, 32, 98, 32, 97] (fun _ _ => 0) 2
          (fun k => (k, { exited := true, exit_status := k })) (fun _ => true) = some r ∧
        r.aggregate_called = false ∧ r.output = none ∧ r.status = EXIT_FAILURE) ∧
      (∃ r, main_cpp insertion_qsort [98, 32, 97, 32, 98, 32, 97] (fun _ _ => 0) 2
          (fun k => (k, { exited := true, exit_status := k })) (fun _ => true) = some r ∧
        r.aggregate_called = false ∧ r.output = none ∧ r.status = EXIT_FAILURE)) ∧
    ((∀ k, k < no_childs [98, 32, 97, 32, 98, 32, 97].length 2 →
        child_error ((fun k => (k, { exited := true, exit_status := k })) k :
          Nat × wait_status).2 = false) →
      (∃ r outs, main_c insertion_qsort [98, 32, 97, 32, 98, 32, 97] (fun _ _ => 0) 2
          (fun k => (k, { exited := true, exit_status := k })) (fun _ => true) = some r ∧
        run_children_c [98, 32, 97, 32, 98, 32, 97] (fun _ _ => 0) 2 = some outs ∧
        r.aggregate_called = true ∧
        r.status =
          (write_lines (fun _ => true) 0
            (aggregate_results insertion_qsort (outs.map slot_of))).1) ∧
      (∃ r outs, main_cpp insertion_qsort [98, 32, 97, 32, 98, 32, 97] (fun _ _ => 0) 2
          (fun k => (k, { exited := true, exit_status := k })) (fun _ => true) = some r ∧
        run_children_cpp [98, 32, 97, 32, 98, 32, 97] (fun _ _ => 0) 2 = some outs ∧
        r.aggregate_called = true ∧
        r.status =
          (write_lines (fun _ => true) 0 (aggregate_results_cpp insertion_qsort
            (wait_loop_cpp outs
              ((List.range (no_childs [98, 32, 97, 32, 98, 32, 97].length 2)).map
                (fun k => (k, { exited := true, exit_status := k })))
              false []).2.1)).1))) ∧
    main_c insertion_qsort [98, 32, 97, 32, 98, 32, 97] (fun _ _ => 0) 2
        (fun k => (k, { exited := true, exit_status := k })) (fun _ => true) =
      some { status := EXIT_FAILURE
             steps := [parent_event.fork 0, parent_event.fork 1, parent_event.wait 0,
               parent_event.wait 1]
             aggregate_called := false
             output := none } ∧
    main_c insertion_qsort [98, 32, 97, 32, 98, 32, 97] (fun _ _ => 0) 2
        waits_in_order (fun _ => true) =
      some { status := EXIT_SUCCESS
             steps := [parent_event.fork 0, parent_event.fork 1, parent_event.wait 0,
               parent_event.wait 1, parent_event.read 0, parent_event.read 1,
               parent_event.read 0, parent_event.read 1]
             aggregate_called := true
             output := some [{ count := 2, word := [97] }, { count := 2, word := [98] }] } :=
  ⟨worker_failure_fails_run insertion_qsort [98, 32, 97, 32, 98, 32, 97] (fun _ _ => 0) 2
      (fun k => (k, { exited := true, exit_status := k })) (fun _ => true)
      (by decide) (by decide), by decide, by decide⟩

/-- C18. For every requested parallelism `p ≥ 1`, on a zero-length input file
`main` of wfc.c and `main` of wfc.cpp end with `EXIT_SUCCESS` without any step
of the parent (no child is forked, nothing is waited for or read), without
calling `aggregate_results` and without opening the output file. -/
theorem empty_input_succeeds
    (qsort : (word_count → word_count → Int) → List word_count → List word_count)
    (junk : Nat → Nat → Nat) (p : Nat) (waits : Nat → Nat × wait_status)
    (write_ok : Nat → Bool) (hp : 1 ≤ p) :
    main_c qsort [] junk p waits write_ok =
      some { status := EXIT_SUCCESS, steps := [], aggregate_called := false,
             output := none } ∧
    main_cpp qsort [] junk p waits write_ok =
      some { status := EXIT_SUCCESS, steps := [], aggregate_called := false,
             output := none } := by
  have _ := hp
  exact ⟨rfl, rfl⟩

/-- The empty file with the default parallelism 4. -/
theorem empty_input_succeeds_witness :
    main_c insertion_qsort [] (fun _ _ => 0) 4 waits_in_order (fun _ => true) =
      some { status := EXIT_SUCCESS, steps := [], aggregate_called := false,
             output := none } ∧
    main_cpp insertion_qsort [] (fun _ _ => 0) 4 waits_in_order (fun _ => true) =
      some { status := EXIT_SUCCESS, steps := [], aggregate_called := false,
             output := none } :=
  empty_input_succeeds insertion_qsort (fun _ _ => 0) 4 waits_in_order (fun _ => true)
    (by decide)

/-- C19 as stated fails for wfc.cpp: on the file "a b" with parallelism 2, when
the children end in the order 0, 1, the parent reads the slot of child 0
(`fill_table`) right after the first `wait`, while child 1 has not been waited
for. -/
theorem strict_barrier_fails_cpp :
    main_cpp insertion_qsort [97, 32, 98] (fun _ _ => 0) 2 waits_in_order (fun _ => true) =
      some { status := EXIT_SUCCESS
             steps := [parent_event.fork 0, parent_event.fork 1, parent_event.wait 0,
               parent_event.read 0, parent_event.wait 1, parent_event.read 1]
             aggregate_called := true
             output := some [{ count := 1, word := [97] }, { count := 1, word := [98] }] } ∧
    ¬ strict_barrier (no_childs [97, 32, 98].length 2)
      [parent_event.fork 0, parent_event.fork 1, parent_event.wait 0,
        parent_event.read 0, parent_event.wait 1, parent_event.read 1] := by
  refine ⟨by decide, ?_⟩
  intro h
  have := h 3 0 (by decide) 1 (by decide)
  revert this
  decide

/-- C19, amended. For every run of `main` with `p ≥ 1` in which every child is
returned by one of the calls of `wait`: in wfc.c no result of any child is
inspected before all children have been waited for; in wfc.cpp the result of a
child is inspected only in the step right after the `wait` that returned this
child (other children may not have been waited for yet). -/
theorem barrier_per_program
    (qsort : (word_count → word_count → Int) → List word_count → List word_count)
    (file : List Nat) (junk : Nat → Nat → Nat) (p : Nat)
    (waits : Nat → Nat × wait_status) (write_ok : Nat → Bool) (hp : 1 ≤ p)
    (hall : ∀ j, j < no_childs file.length p →
      ∃ k, k < no_childs file.length p ∧ (waits k).1 = j) :
    (∃ r, main_c qsort file junk p waits write_ok = some r ∧
      strict_barrier (no_childs file.length p) r.steps) ∧
    (∃ r, main_cpp qsort file junk p waits write_ok = some r ∧ own_barrier r.steps) := by
  have _ := hp
  by_cases hne : file = []
  · subst hne
    exact ⟨⟨_, rfl, fun k i h => by simp at h⟩, ⟨_, rfl, fun k i h => by simp at h⟩⟩
  · refine ⟨?_, ?_⟩
    · cases herr : wait_loop_c ((List.range (no_childs file.length p)).map waits) with
      | true =>
        refine ⟨_, main_c_failure qsort file junk p waits write_ok hne herr, ?_⟩
        have := strict_barrier_c (no_childs file.length p) waits hall []
        rw [List.append_nil] at this
        exact this
      | false =>
        obtain ⟨outs, houts, _⟩ := run_children_total file junk
          (chars_per_child_c file.length (no_childs file.length p))
          (no_childs file.length p)
        refine ⟨_, main_c_success qsort file junk p waits write_ok hne herr outs houts, ?_⟩
        have := strict_barrier_c (no_childs file.length p) waits hall
          ((List.range (no_childs file.length p)).map parent_event.read ++
            (List.range (no_childs file.length p)).map parent_event.read)
        simp only [List.append_assoc] at this ⊢
        exact this
    · obtain ⟨outs, houts, _⟩ := run_children_total file junk
        (chars_per_child_cpp file.length (no_childs file.length p))
        (no_childs file.length p)
      refine ⟨_, main_cpp_eq qsort file junk p waits write_ok hne outs houts, ?_⟩
      have hown := own_barrier_after_forks (no_childs file.length p) _
        (wait_loop_cpp_steps outs
          ((List.range (no_childs file.length p)).map waits) false []).2
      split
      · exact hown
      · exact hown

/-- The file "a b" with parallelism 2 and the children ending in the order 0,
1. -/
theorem barrier_per_program_witness :
    (∃ r, main_c insertion_qsort [97, 32, 98] (fun _ _ => 0) 2 waits_in_order
        (fun _ => true) = some r ∧
      strict_barrier (no_childs [97, 32, 98].length 2) r.steps) ∧
    (∃ r, main_cpp insertion_qsort [97, 32, 98] (fun _ _ => 0) 2 waits_in_order
        (fun _ => true) = some r ∧ own_barrier r.steps) :=
  barrier_per_program insertion_qsort [97, 32, 98] (fun _ _ => 0) 2 waits_in_order
    (fun _ => true) (by decide)
    (fun j hj => ⟨j, hj, rfl⟩)


/-! ## Sorting: admissible `qsort`s, stability, uniqueness of the sorted order -/

/-- Two sorted arrangements of the same elements agree when the order tells
their elements apart. -/
theorem sorted_perm_unique {α : Type} (r : α → α → Prop) : ∀ (l1 l2 : List α),
    l1.Perm l2 → l1.Pairwise r → l2.Pairwise r →
    (∀ a b, a ∈ l1 → b ∈ l1 → r a b → r b a → a = b) → l1 = l2 := by
  intro l1
  induction l1 with
  | nil => intro l2 hp _ _ _; exact hp.nil_eq
  | cons a t1 ih =>
    intro l2 hp h1 h2 hanti
    cases l2 with
    | nil => exact absurd hp.symm.nil_eq (by simp)
    | cons b t2 =>
      have hab : a = b := by
        by_cases hne : a = b
        · exact hne
        · have hb : b ∈ a :: t1 := hp.symm.subset (List.mem_cons_self b t2)
          have ha : a ∈ b :: t2 := hp.subset (List.mem_cons_self a t1)
          rw [List.mem_cons] at hb ha
          have hb' : b ∈ t1 := by
            rcases hb with h | h
            · exact absurd h.symm hne
            · exact h
          have ha' : a ∈ t2 := by
            rcases ha with h | h
            · exact absurd h hne
            · exact h
          exact hanti a b (List.mem_cons_self a t1) (List.mem_cons_of_mem a hb')
            ((List.pairwise_cons.1 h1).1 b hb') ((List.pairwise_cons.1 h2).1 a ha')
      subst hab
      rw [ih t2 ((List.perm_cons a).1 hp) (List.pairwise_cons.1 h1).2
        (List.pairwise_cons.1 h2).2
        (fun x y hx hy => hanti x y (List.mem_cons_of_mem a hx) (List.mem_cons_of_mem a hy))]

theorem count_runs_words_sublist : ∀ (xs acc : List word_count) (cur : word_count),
    List.Sublist ((count_runs acc cur xs).map (fun e => e.word))
      ((acc ++ cur :: xs).map (fun e => e.word)) := by
  intro xs
  induction xs with
  | nil => intro acc cur; simp [count_runs]
  | cons x xs ih =>
    intro acc cur
    simp only [count_runs]
    split
    · refine (ih acc { cur with count := cur.count + 1 }).trans ?_
      simp only [List.map_append, List.map_cons]
      exact List.Sublist.append_left
        (List.Sublist.cons₂ _ (List.Sublist.cons _ (List.Sublist.refl _))) _
    · have := ih (acc ++ [cur]) x
      simpa [List.append_assoc] using this

/-- The array that `aggregate_results` of wfc.c hands to the second `qsort` is
sorted by word and holds no word twice. -/
theorem aggregate_results_form
    (qsort : (word_count → word_count → Int) → List word_count → List word_count)
    (hq : is_qsort qsort) (children : List (List Nat × Nat)) :
    ∃ R, aggregate_results qsort children = qsort cmp_int_desc R ∧
      R.Pairwise (fun a b => strcmp a.word b.word ≤ 0) ∧ R.Nodup := by
  obtain ⟨hnd, _, _, _⟩ := aggregate_results_spec qsort hq children
  obtain ⟨hperm, hsorted⟩ := hq cmp_alpha_asc cmp_alpha_asc_consistent (fill_word_array children)
  unfold aggregate_results at hnd ⊢
  simp only [] at hnd ⊢
  generalize fill_word_array children = words at *
  generalize qsort cmp_alpha_asc words = sorted at *
  have hlen : sorted.length = words.length := hperm.length_eq
  refine ⟨_, rfl, ?_, ?_⟩
  · cases hs : sorted with
    | nil =>
      subst hs
      have hw : words = [] := List.length_eq_zero.1 (by rw [← hlen]; rfl)
      subst hw
      simp
    | cons x xs =>
      subst hs
      have hpos : words.length > 0 := by rw [← hlen]; simp
      rw [if_pos hpos]
      have hfuel : words.length - 1 = xs.length := by rw [← hlen]; simp
      rw [hfuel, count_loop_eq_count_runs xs.length (x :: xs) 0 1 (by omega)
        (by simp only [List.length_cons]; omega)]
      simp only [List.take_zero, List.getD_cons_zero, List.drop_one, List.tail_cons]
      have hsub := count_runs_words_sublist xs [] x
      have hw : ((([] : List word_count) ++ x :: xs).map (fun e => e.word)).Pairwise
          (fun a b => strcmp a b ≤ 0) := by
        rw [List.pairwise_map]
        exact hsorted
      have := hw.sublist hsub
      rw [List.pairwise_map] at this
      exact this
  · obtain ⟨hperm2, _⟩ := hq cmp_int_desc cmp_int_desc_consistent
      ((count_loop (words.length - 1) sorted 0 1).1.take
        (if words.length > 0 then (count_loop (words.length - 1) sorted 0 1).2 + 1 else 0))
    exact List.Nodup.of_map _ (((hperm2.map (fun e => e.word)).nodup_iff).1 hnd)

/-! ## The word table of wfc.cpp is kept in key order -/

theorem strcmp_lt_trans (a b c : List Nat) (h1 : strcmp a b < 0) (h2 : strcmp b c < 0) :
    strcmp a c < 0 := by
  rcases Int.lt_or_le (strcmp a c) 0 with h | h
  · exact h
  · -- then `c` is not after `a`, hence not after `b`: against `b` before `c`
    have hca : strcmp c a ≤ 0 := by rw [strcmp_antisymm a c]; omega
    have hcb := strcmp_trans c a b hca (by omega)
    rw [strcmp_antisymm b c] at hcb
    omega

theorem dropWhile_head_false {α : Type} (q : α → Bool) : ∀ (l : List α) (d : α) (D : List α),
    l.dropWhile q = d :: D → q d = false := by
  intro l
  induction l with
  | nil => intro d D h; simp at h
  | cons x t ih =>
    intro d D h
    rw [List.dropWhile_cons] at h
    by_cases hx : q x = true
    · rw [if_pos hx] at h
      exact ih d D h
    · rw [if_neg hx] at h
      injection h with h1 _
      rw [← h1]
      simpa using hx

theorem fill_step_sorted (table : List (List Nat × Int)) (w : List Nat)
    (h : table.Pairwise (fun a b => strcmp a.1 b.1 < 0)) :
    (fill_step table w).Pairwise (fun a b => strcmp a.1 b.1 < 0) := by
  unfold fill_step
  cases hf : table_find table w with
  | some e0 =>
    simp only []
    unfold table_increment
    rw [List.pairwise_map]
    refine h.imp ?_
    intro a b hab
    have ha : (if (!cmp_str a.1 w && !cmp_str w a.1) = true then (a.1, a.2 + 1) else a).1 = a.1 := by
      split <;> rfl
    have hb : (if (!cmp_str b.1 w && !cmp_str w b.1) = true then (b.1, b.2 + 1) else b).1 = b.1 := by
      split <;> rfl
    rw [ha, hb]
    exact hab
  | none =>
    simp only []
    have hnone : ∀ e, e ∈ table → ¬ (!cmp_str e.1 w && !cmp_str w e.1) = true := by
      intro e he
      unfold table_find at hf
      exact List.find?_eq_none.1 hf e he
    unfold table_insert
    have hsplit := List.takeWhile_append_dropWhile (fun e : List Nat × Int => cmp_str e.1 w) table
    rw [← hsplit] at h
    obtain ⟨hL, hD, hLD⟩ := List.pairwise_append.1 h
    have hLw : ∀ a, a ∈ table.takeWhile (fun e => cmp_str e.1 w) → strcmp a.1 w < 0 := by
      intro a ha
      have := List.mem_takeWhile_imp ha
      unfold cmp_str at this
      simpa using this
    have hwD : ∀ b, b ∈ table.dropWhile (fun e => cmp_str e.1 w) → strcmp w b.1 < 0 := by
      intro b hb
      cases hd : table.dropWhile (fun e => cmp_str e.1 w) with
      | nil => rw [hd] at hb; simp at hb
      | cons d D =>
        have hq := dropWhile_head_false _ table d D hd
        have hdmem : d ∈ table := by
          rw [← hsplit, hd]; simp
        have hnot := hnone d hdmem
        have hwd : strcmp w d.1 < 0 := by
          unfold cmp_str at hq hnot
          simp only [decide_eq_false_iff_not] at hq
          simp only [Bool.and_eq_true, Bool.not_eq_true', decide_eq_false_iff_not, not_and,
            Decidable.not_not] at hnot
          exact hnot hq
        rw [hd, List.mem_cons] at hb
        rcases hb with hb | hb
        · rw [hb]; exact hwd
        · rw [hd] at hD
          exact strcmp_lt_trans _ _ _ hwd ((List.pairwise_cons.1 hD).1 b hb)
    rw [List.pairwise_append]
    refine ⟨hL, List.pairwise_cons.2 ⟨fun b hb => hwD b hb, hD⟩, ?_⟩
    intro a ha b hb
    rw [List.mem_cons] at hb
    rcases hb with hb | hb
    · rw [hb]; exact hLw a ha
    · exact hLD a ha b hb

theorem fill_fold_sorted : ∀ (ws : List (List Nat)) (table : List (List Nat × Int)),
    table.Pairwise (fun a b => strcmp a.1 b.1 < 0) →
    (ws.foldl fill_step table).Pairwise (fun a b => strcmp a.1 b.1 < 0) := by
  intro ws
  induction ws with
  | nil => intro table h; exact h
  | cons w ws ih =>
    intro table h
    exact ih (fill_step table w) (fill_step_sorted table w h)


/-! ## The merge does not depend on the order of the children -/

theorem fill_word_array_mem (children : List (List Nat × Nat)) :
    ∀ e, e ∈ fill_word_array children → e.count = 1 ∧ ∀ x, x ∈ e.word → x ≠ 0 := by
  intro e he
  unfold fill_word_array at he
  rw [List.mem_flatMap] at he
  obtain ⟨ch, _, he⟩ := he
  rw [List.mem_map] at he
  obtain ⟨w, hw, rfl⟩ := he
  exact ⟨rfl, read_words_nul_free _ _ w hw⟩

theorem aggregate_results_perm
    (qsort : (word_count → word_count → Int) → List word_count → List word_count)
    (hq : is_qsort qsort) (ch1 ch2 : List (List Nat × Nat)) (h : ch1.Perm ch2) :
    aggregate_results qsort ch1 = aggregate_results qsort ch2 := by
  have hW : (fill_word_array ch1).Perm (fill_word_array ch2) := by
    unfold fill_word_array
    exact h.flatMap_right _
  obtain ⟨p1, s1⟩ := hq cmp_alpha_asc cmp_alpha_asc_consistent (fill_word_array ch1)
  obtain ⟨p2, s2⟩ := hq cmp_alpha_asc cmp_alpha_asc_consistent (fill_word_array ch2)
  have hsorted : qsort cmp_alpha_asc (fill_word_array ch1) =
      qsort cmp_alpha_asc (fill_word_array ch2) := by
    apply sorted_perm_unique (fun a b => cmp_alpha_asc a b ≤ 0) _ _
      ((p1.trans hW).trans p2.symm) s1 s2
    intro a b ha hb hab hba
    obtain ⟨ca, na⟩ := fill_word_array_mem ch1 a (p1.mem_iff.1 ha)
    obtain ⟨cb, nb⟩ := fill_word_array_mem ch1 b (p1.mem_iff.1 hb)
    unfold cmp_alpha_asc at hab hba
    rw [strcmp_antisymm a.word b.word] at hba
    have hw : a.word = b.word := strcmp_eq_zero a.word b.word na nb (by omega)
    cases a
    cases b
    simp only [word_count.mk.injEq]
    simp only at ca cb hw
    exact ⟨by rw [ca, cb], hw⟩
  unfold aggregate_results
  simp only []
  rw [hsorted, hW.length_eq]

theorem aggregate_cpp_perm
    (qsort : (word_count → word_count → Int) → List word_count → List word_count)
    (ch1 ch2 : List (List Nat × Nat)) (h : ch1.Perm ch2) :
    aggregate_cpp qsort ch1 = aggregate_cpp qsort ch2 := by
  have hP : (slot_words ch1).Perm (slot_words ch2) := by
    unfold slot_words
    exact h.flatMap_right _
  unfold aggregate_cpp
  rw [fill_children_eq, fill_children_eq]
  obtain ⟨a1, a2, a3⟩ := fill_fold_spec (slot_words ch1) [] []
    (slot_words_nul_free ch1) (fun t ht => by simp at ht) (by simp)
    (fun e he => by simp at he) (fun t => by simp)
  obtain ⟨b1, b2, b3⟩ := fill_fold_spec (slot_words ch2) [] []
    (slot_words_nul_free ch2) (fun t ht => by simp at ht) (by simp)
    (fun e he => by simp at he) (fun t => by simp)
  have c1 := fill_fold_sorted (slot_words ch1) [] List.Pairwise.nil
  have c2 := fill_fold_sorted (slot_words ch2) [] List.Pairwise.nil
  rw [List.nil_append] at a2 a3 b2 b3
  generalize (slot_words ch1).foldl fill_step [] = T1 at *
  generalize (slot_words ch2).foldl fill_step [] = T2 at *
  have hsub : ∀ (U V : List (List Nat × Int)) (P Q : List (List Nat)), P.Perm Q →
      (∀ e, e ∈ U → e.2 = (occurrences e.1 P : Nat)) →
      (∀ t, t ∈ U.map (fun e => e.1) ↔ t ∈ P) →
      (∀ e, e ∈ V → e.2 = (occurrences e.1 Q : Nat)) →
      (∀ t, t ∈ V.map (fun e => e.1) ↔ t ∈ Q) →
      ∀ e, e ∈ U → e ∈ V := by
    intro U V P Q hPQ u2 u3 v2 v3 e he
    have hk : e.1 ∈ V.map (fun e => e.1) :=
      (v3 e.1).2 (hPQ.mem_iff.1 ((u3 e.1).1 (List.mem_map.2 ⟨e, he, rfl⟩)))
    rw [List.mem_map] at hk
    obtain ⟨e', he', hk'⟩ := hk
    have h2 : e'.2 = e.2 := by
      rw [v2 e' he', u2 e he, hk', occurrences_perm _ _ _ hPQ]
    have : e' = e := Prod.ext hk' h2
    rw [← this]
    exact he'
  have hperm : T1.Perm T2 :=
    (List.perm_ext_iff_of_nodup (List.Nodup.of_map _ a1) (List.Nodup.of_map _ b1)).2
      (fun e => ⟨hsub T1 T2 _ _ hP a2 a3 b2 b3 e, hsub T2 T1 _ _ hP.symm b2 b3 a2 a3 e⟩)
  have hT : T1 = T2 := by
    apply sorted_perm_unique (fun a b : List Nat × Int => strcmp a.1 b.1 < 0) _ _ hperm c1 c2
    intro a b _ _ hab hba
    rw [strcmp_antisymm a.1 b.1] at hba
    omega
  rw [hT]

theorem wait_loop_cpp_ok (outs : List child_output) :
    ∀ (results : List (Nat × wait_status)) (table : List (List Nat × Int)),
      (∀ r, r ∈ results → child_error r.2 = false) →
      (wait_loop_cpp outs results false table).2.1 =
        (results.map (fun r => slot_of (outs.getD r.1 default))).foldl
          (fun table ch => fill_table table ch.1 ch.2) table := by
  intro results
  induction results with
  | nil => intro table _; rfl
  | cons r rest ih =>
    intro table h
    have hr := h r (List.mem_cons_self r rest)
    simp only [wait_loop_cpp, hr, Bool.false_eq_true, if_false, Bool.not_false, if_true,
      List.map_cons, List.foldl_cons]
    exact ih _ (fun r' hr' => h r' (List.mem_cons_of_mem r hr'))



/-! ## Claim C12: the order of the merge -/

/-- C12. For every `qsort` that meets the contract of the C standard, every list
of worker token sequences and every permutation of it, `aggregate_results` of
wfc.c writes the same sequence of entries for both, and so does the parent of
wfc.cpp. Moreover, for a non-empty file whose children all succeed, two runs of
`main` of wfc.cpp (and of wfc.c) in which `wait` returns the children in
different orders write the same output and end with the same status. -/
theorem merge_order_independent
    (qsort : (word_count → word_count → Int) → List word_count → List word_count)
    (hq : is_qsort qsort) (ws ws' : List (List (List Nat))) (hperm : ws'.Perm ws)
    (file : List Nat) (junk : Nat → Nat → Nat) (p : Nat)
    (waits1 waits2 : Nat → Nat × wait_status) (write_ok : Nat → Bool) (hne : file ≠ [])
    (hok1 : ∀ k, k < no_childs file.length p → child_error (waits1 k).2 = false)
    (hok2 : ∀ k, k < no_childs file.length p → child_error (waits2 k).2 = false)
    (hall1 : ((List.range (no_childs file.length p)).map (fun k => (waits1 k).1)).Perm
      (List.range (no_childs file.length p)))
    (hall2 : ((List.range (no_childs file.length p)).map (fun k => (waits2 k).1)).Perm
      (List.range (no_childs file.length p))) :
    aggregate_results qsort (slots_of ws') = aggregate_results qsort (slots_of ws) ∧
    aggregate_cpp qsort (slots_of ws') = aggregate_cpp qsort (slots_of ws) ∧
    (∃ r1 r2, main_cpp qsort file junk p waits1 write_ok = some r1 ∧
      main_cpp qsort file junk p waits2 write_ok = some r2 ∧
      r1.aggregate_called = true ∧ r1.output = r2.output ∧ r1.status = r2.status) ∧
    (∃ r1 r2, main_c qsort file junk p waits1 write_ok = some r1 ∧
      main_c qsort file junk p waits2 write_ok = some r2 ∧
      r1.aggregate_called = true ∧ r1.output = r2.output ∧ r1.status = r2.status) := by
  have hslots : (slots_of ws').Perm (slots_of ws) := by
    unfold slots_of
    exact hperm.map _
  have hany : ∀ waits : Nat → Nat × wait_status,
      (∀ k, k < no_childs file.length p → child_error (waits k).2 = false) →
      ((List.range (no_childs file.length p)).map waits).any
        (fun r => child_error r.2) = false := by
    intro waits hok
    cases h : ((List.range (no_childs file.length p)).map waits).any
        (fun r => child_error r.2) with
    | false => rfl
    | true =>
      obtain ⟨k, hk, he⟩ := (results_any_error (no_childs file.length p) waits).1 h
      rw [hok k hk] at he
      exact absurd he (by decide)
  refine ⟨aggregate_results_perm qsort hq _ _ hslots, aggregate_cpp_perm qsort _ _ hslots,
    ?_, ?_⟩
  · obtain ⟨outs, houts, _⟩ := run_children_total file junk
      (chars_per_child_cpp file.length (no_childs file.length p)) (no_childs file.length p)
    have htable : ∀ waits : Nat → Nat × wait_status,
        (∀ k, k < no_childs file.length p → child_error (waits k).2 = false) →
        aggregate_results_cpp qsort
          (wait_loop_cpp outs ((List.range (no_childs file.length p)).map waits)
            false []).2.1 =
        aggregate_cpp qsort
          (((List.range (no_childs file.length p)).map (fun k => (waits k).1)).map
            (fun i => slot_of (outs.getD i default))) := by
      intro waits hok
      rw [wait_loop_cpp_ok outs _ [] (fun r hr => by
        rw [List.mem_map] at hr
        obtain ⟨k, hk, rfl⟩ := hr
        exact hok k (List.mem_range.1 hk))]
      unfold aggregate_cpp
      rw [List.map_map, List.map_map]
      rfl
    have hsame := aggregate_cpp_perm qsort _ _
      ((hall1.trans hall2.symm).map (fun i => slot_of (outs.getD i default)))
    refine ⟨_, _, main_cpp_eq qsort file junk p waits1 write_ok hne outs houts,
      main_cpp_eq qsort file junk p waits2 write_ok hne outs houts, ?_⟩
    rw [wait_loop_cpp_error, wait_loop_cpp_error, hany waits1 hok1, hany waits2 hok2]
    simp only [Bool.or_self, Bool.false_eq_true, if_false]
    rw [htable waits1 hok1, htable waits2 hok2, hsame]
    refine ⟨?_, ?_, ?_⟩ <;> first | rfl | trivial
  · obtain ⟨outs, houts, _⟩ := run_children_total file junk
      (chars_per_child_c file.length (no_childs file.length p)) (no_childs file.length p)
    exact ⟨_, _, main_c_success qsort file junk p waits1 write_ok hne
        (by rw [wait_loop_c_eq]; exact hany waits1 hok1) outs houts,
      main_c_success qsort file junk p waits2 write_ok hne
        (by rw [wait_loop_c_eq]; exact hany waits2 hok2) outs houts, rfl, rfl, rfl⟩

/-- Two workers with the tokens "b", "a" and "b", merged in both orders; and the
file "b a b a" with parallelism 2, the children ending in the order 0, 1 and in
the order 1, 0. -/
theorem merge_order_independent_witness :
    aggregate_results insertion_qsort (slots_of [[[98]], [[98], [97]]]) =
      aggregate_results insertion_qsort (slots_of [[[98], [97]], [[98]]]) ∧
    aggregate_cpp insertion_qsort (slots_of [[[98]], [[98], [97]]]) =
      aggregate_cpp insertion_qsort (slots_of [[[98], [97]], [[98]]]) ∧
    (∃ r1 r2, main_cpp insertion_qsort [98, 32, 97, 32, 98, 32, 97] (fun _ _ => 0) 2
        waits_in_order (fun _ => true) = some r1 ∧
      main_cpp insertion_qsort [98, 32, 97, 32, 98, 32, 97] (fun _ _ => 0) 2
        (fun k => (1 - k, { exited := true, exit_status := EXIT_SUCCESS }))
        (fun _ => true) = some r2 ∧
      r1.aggregate_called = true ∧ r1.output = r2.output ∧ r1.status = r2.status) ∧
    (∃ r1 r2, main_c insertion_qsort [98, 32, 97, 32, 98, 32, 97] (fun _ _ => 0) 2
        waits_in_order (fun _ => true) = some r1 ∧
      main_c insertion_qsort [98, 32, 97, 32, 98, 32, 97] (fun _ _ => 0) 2
        (fun k => (1 - k, { exited := true, exit_status := EXIT_SUCCESS }))
        (fun _ => true) = some r2 ∧
      r1.aggregate_called = true ∧ r1.output = r2.output ∧ r1.status = r2.status) :=
  merge_order_independent insertion_qsort insertion_qsort_is_qsort
    [[[98], [97]], [[98]]] [[[98]], [[98], [97]]] (List.Perm.swap _ _ _)
    [98, 32, 97, 32, 98, 32, 97] (fun _ _ => 0) 2 waits_in_order
    (fun k => (1 - k, { exited := true, exit_status := EXIT_SUCCESS })) (fun _ => true)
    (by decide) (by decide) (by decide) (List.Perm.refl _) (List.Perm.swap _ _ _)


/-! ## The same facts when the buffer reaches the end of the file -/

/-- The token copied from a word start is the whole word, also when the words
are not bounded but the buffer reaches the end of the file. -/
theorem token_eq_word_at_fit (file : List Nat) (off size : Nat) (buffer : Nat → Nat)
    (buffer_end bound : Nat) (hend : buffer_end = min (file.length - off) size)
    (hbuf : ∀ i, i < buffer_end → buffer i = file.getD (off + i) 0)
    (hfit : words_bounded file ∨ file.length ≤ off + size) (hsize : bound + 64 ≤ size) (pp : Nat)
    (h1 : pp < buffer_end) (h2 : pp < bound) (hw : isskip (buffer pp) = false) :
    pp < seek_next_skip buffer pp buffer_end ∧
    seek_next_skip buffer pp buffer_end ≤ buffer_end ∧
    (List.range (seek_next_skip buffer pp buffer_end - pp)).map (fun k => buffer (pp + k)) =
      word_at file (off + pp) ∧
    (seek_next_skip buffer pp buffer_end < buffer_end →
      isskip (buffer (seek_next_skip buffer pp buffer_end)) = true) ∧
    (∀ k, off + pp < k → k < off + seek_next_skip buffer pp buffer_end →
      is_word_start file k = false) := by
  unfold seek_next_skip
  have hge := seek_next_ge buffer pp buffer_end true
  have hle := seek_next_le buffer pp buffer_end true (by omega)
  have hbetween := seek_next_between buffer pp buffer_end true
  have hat := seek_next_at buffer pp buffer_end true
  generalize seek_next buffer pp buffer_end true = q at *
  have hall : ∀ k, off + pp ≤ k → k < off + pp + (q - pp) → isskip (file.getD k 0) = false := by
    intro k hk1 hk2
    have := hbetween (k - off) (by omega) (by omega)
    rw [hbuf (k - off) (by omega), show off + (k - off) = k by omega] at this
    simpa using this
  have hlt : pp < q := by
    rcases Nat.lt_or_ge pp q with h | h
    · exact h
    · have hq : q = pp := by omega
      subst hq
      rw [hat h1] at hw
      exact absurd hw (by decide)
  refine ⟨hlt, hle, ?_, hat, ?_⟩
  · have hlen : off + pp + (q - pp) ≤ file.length := by omega
    have hfin : off + pp + (q - pp) = file.length ∨
        isskip (file.getD (off + pp + (q - pp)) 0) = true := by
      by_cases hq : q < buffer_end
      · right
        have := hat hq
        rw [hbuf q hq] at this
        rw [show off + pp + (q - pp) = off + q by omega]
        exact this
      · left
        by_cases hfull : buffer_end = file.length - off
        · omega
        · have hsz : buffer_end = size := by omega
          have hrun := word_at_length_ge file (q - pp) (off + pp) hall hlen
          rcases hfit with hb | hfit
          · have hbd := hb (off + pp) (by omega)
            unfold MAX_WORD_LENGTH at hbd
            omega
          · omega
    rw [word_at_eq file (q - pp) (off + pp) hall hlen hfin]
    apply List.map_congr_left
    intro k hk
    rw [List.mem_range] at hk
    rw [hbuf (pp + k) (by omega)]
    congr 1
    omega
  · intro k hk1 hk2
    have hprev := hall (k - 1) (by omega) (by omega)
    cases hs : is_word_start file k with
    | false => rfl
    | true =>
      rw [is_word_start_iff] at hs
      rcases hs.2.2 with h0 | h0
      · omega
      · rw [hprev] at h0
        exact absurd h0 (by decide)

/-- Under the weaker condition: started at the end of the buffer or on the first
byte of a word, the parse loop returns, and it emits exactly the words that
begin between its start and the parse bound. -/
theorem parse_loop_clean_fit (file : List Nat) (off size : Nat) (buffer : Nat → Nat)
    (buffer_end bound : Nat) (hend : buffer_end = min (file.length - off) size)
    (hbuf : ∀ i, i < buffer_end → buffer i = file.getD (off + i) 0)
    (hfit : words_bounded file ∨ file.length ≤ off + size) (hsize : bound + 64 ≤ size) :
    ∀ fuel pp, 1 ≤ fuel → buffer_end + 1 ≤ fuel + pp →
      (buffer_end ≤ pp ∨ is_word_start file (off + pp) = true) →
      parse_loop buffer buffer_end bound fuel pp =
        some (output_of (words_in file (off + pp) (off + bound))) := by
  intro fuel
  induction fuel with
  | zero => intro pp h; omega
  | succ fuel ih =>
    intro pp _ hfuel hclean
    by_cases hc : pp < buffer_end ∧ pp < bound
    · rw [parse_loop_iter buffer buffer_end bound fuel pp hc]
      obtain ⟨hc1, hc2⟩ := hc
      have hstart : is_word_start file (off + pp) = true := by
        rcases hclean with h | h
        · omega
        · exact h
      have hw : isskip (buffer pp) = false := by
        rw [hbuf pp hc1]
        exact ((is_word_start_iff file (off + pp)).1 hstart).2.1
      obtain ⟨t1, t2, t3, t4, t5⟩ :=
        token_eq_word_at_fit file off size buffer buffer_end bound hend hbuf hfit hsize pp hc1 hc2 hw
      obtain ⟨s1, s2, s3, s4⟩ :=
        seek_word_clean file off size buffer buffer_end hend hbuf
          (seek_next_skip buffer pp buffer_end) (fun h => Or.inl (t4 h))
      rw [ih _ (by omega) (by omega) s3, Option.map_some', t3]
      rw [words_in_cons file (off + pp) (off + bound) (by omega) hstart]
      rw [words_in_skip file (off + pp + 1)
        (off + seek_next_nonskip buffer (seek_next_skip buffer pp buffer_end) buffer_end)
        (off + bound) (by omega)
        (fun k hk1 hk2 => by
          by_cases hk : k < off + seek_next_skip buffer pp buffer_end
          · exact t5 k (by omega) hk
          · exact s4 k (by omega) hk2)]
      rw [output_of_cons]
    · rw [parse_loop_exit buffer buffer_end bound fuel pp hc, ← output_of_nil]
      by_cases hpb : pp < bound
      · rw [words_in_past file _ _ (by omega)]
      · rw [words_in_empty file _ _ (by omega)]

/-- Under the weaker condition: started on a skippable byte inside the bound, the
parse loop first emits an empty token and then the words that begin between its
start and the bound. -/
theorem parse_loop_on_skip_fit (file : List Nat) (off size : Nat) (buffer : Nat → Nat)
    (buffer_end bound : Nat) (hend : buffer_end = min (file.length - off) size)
    (hbuf : ∀ i, i < buffer_end → buffer i = file.getD (off + i) 0)
    (hfit : words_bounded file ∨ file.length ≤ off + size) (hsize : bound + 64 ≤ size) (fuel pp : Nat)
    (hfuel : buffer_end + 1 ≤ fuel + pp) (h1 : pp < buffer_end) (h2 : pp < bound)
    (hs : isskip (buffer pp) = true) :
    parse_loop buffer buffer_end bound fuel pp =
      some (output_of ([] :: words_in file (off + pp) (off + bound))) := by
  obtain ⟨fuel, rfl⟩ : ∃ f, fuel = f + 1 := ⟨fuel - 1, by omega⟩
  rw [parse_loop_iter buffer buffer_end bound fuel pp ⟨h1, h2⟩]
  have hnpp : seek_next_skip buffer pp buffer_end = pp := by
    have hge := seek_next_ge buffer pp buffer_end true
    rcases Nat.lt_or_ge pp (seek_next_skip buffer pp buffer_end) with h | h
    · have := seek_next_between buffer pp buffer_end true pp (le_refl _) h
      rw [hs] at this
      exact absurd this (by decide)
    · unfold seek_next_skip at *; omega
  rw [hnpp]
  obtain ⟨s1, s2, s3, s4⟩ :=
    seek_word_clean file off size buffer buffer_end hend hbuf pp (fun _ => Or.inl hs)
  have s2 := s2 h1 hs
  rw [parse_loop_clean_fit file off size buffer buffer_end bound hend hbuf hfit hsize fuel _
    (by omega) (by omega) s3, Option.map_some']
  rw [words_in_skip file (off + pp) (off + seek_next_nonskip buffer pp buffer_end)
    (off + bound) (by omega) s4]
  rw [output_of_cons]
  simp

/-- Under the weaker condition: the range that begins at offset 0 yields the
words that begin in it, after an empty token when the file begins with a
skippable byte. -/
theorem child_parse_zero_fit (file : List Nat) (junk : Nat → Nat) (end_ : Nat)
    (hfit : words_bounded file ∨ file.length ≤ end_ + 65) :
    child_parse file junk 0 end_ =
      some (output_of (leading_token file end_ ++ words_in file 0 end_)) := by
  have hlen := read_buffer_length file 0 end_
  have hbuf : ∀ i, i < (read_buffer file 0 end_).length →
      (fun i => (read_buffer file 0 end_).getD i (junk i)) i = file.getD (0 + i) 0 := by
    intro i hi
    have := read_buffer_getD file 0 end_ (junk i) i hi
    simpa using this
  simp only [Nat.zero_sub, Nat.sub_zero] at hlen
  unfold child_parse initial_parse_position
  simp only [gt_iff_lt, lt_self_iff_false, if_false, Nat.sub_zero]
  by_cases hc : 0 < (read_buffer file 0 end_).length ∧ 0 < end_
  · by_cases hs : isskip (file.getD 0 0) = true
    · have hs0 : isskip ((fun i => (read_buffer file 0 end_).getD i (junk i)) 0) = true := by
        rw [hbuf 0 hc.1]; exact hs
      rw [parse_loop_on_skip_fit file 0 (end_ + 65) _ _ end_ hlen hbuf (hfit.imp id (fun h => by omega)) (by omega) _ 0
        (by omega) hc.1 hc.2 hs0]
      have hlead : leading_token file end_ = [[]] := by
        unfold leading_token
        rw [if_pos ⟨hc.2, by omega, hs⟩]
      rw [hlead]
      simp
    · have hstart : is_word_start file (0 + 0) = true := by
        rw [is_word_start_iff]
        refine ⟨by omega, ?_, Or.inl rfl⟩
        cases h : isskip (file.getD (0 + 0) 0) with
        | false => rfl
        | true => exact absurd h hs
      rw [parse_loop_clean_fit file 0 (end_ + 65) _ _ end_ hlen hbuf (hfit.imp id (fun h => by omega)) (by omega) _ 0
        (by omega) (by omega) (Or.inr hstart)]
      have hlead : leading_token file end_ = [] := by
        unfold leading_token
        rw [if_neg (fun h => hs h.2.2)]
      rw [hlead]
      simp
  · rw [parse_loop_exit _ _ _ _ _ hc, ← output_of_nil]
    have hlead : leading_token file end_ = [] := by
      unfold leading_token
      rw [if_neg (fun h => hc ⟨by omega, h.1⟩)]
    rw [hlead, List.nil_append]
    by_cases he : 0 < end_
    · rw [words_in_past file 0 end_ (by omega)]
    · rw [words_in_empty file 0 end_ (by omega)]

/-- The unpartitioned pass over a whole file, whatever the length of its words:
the words of the file in file order, after an empty token when the file begins
with a skippable byte. -/
theorem single_pass_tokens (file : List Nat) (junk : Nat → Nat) (end_ : Nat)
    (hend : file.length ≤ end_) :
    child_parse file junk 0 end_ =
      some (output_of (leading_token file end_ ++ words_in file 0 file.length)) := by
  rw [child_parse_zero_fit file junk end_ (Or.inr (by omega)), words_in_clip file 0 end_ hend]

/-! ## Claim C13 -/

/-- C13, on an input where the code breaks it, and on the two inputs the claim
names. On the file " hi" the unpartitioned pass (start 0, end 3) emits an empty
token before "hi", although the maximal runs of word characters of the file are
just "hi". On "don't stop-go" it emits "don't" and "stop-go", on
"hello, world!" it emits "hello" and "world", as the claim says. -/
theorem single_pass_leading_skip :
    ∀ junk : Nat → Nat,
      (child_parse [32, 104, 105] junk 0 3 = some (output_of [[], [104, 105]]) ∧
        words_in [32, 104, 105] 0 3 = [[104, 105]]) ∧
      child_parse [100, 111, 110, 39, 116, 32, 115, 116, 111, 112, 45, 103, 111] junk 0 13 =
        some (output_of [[100, 111, 110, 39, 116], [115, 116, 111, 112, 45, 103, 111]]) ∧
      child_parse [104, 101, 108, 108, 111, 44, 32, 119, 111, 114, 108, 100, 33] junk 0 13 =
        some (output_of [[104, 101, 108, 108, 111], [119, 111, 114, 108, 100]]) := by
  intro junk
  rw [child_parse_junk _ junk (fun _ => 0), child_parse_junk _ junk (fun _ => 0),
    child_parse_junk _ junk (fun _ => 0)]
  decide


/-! ## The window of `child_parse` and the words that begin in the range -/

/-- Range exactness for a range that begins after offset 0, also for a file
with longer words as long as the window reaches the end of the file. -/
theorem child_parse_pos_fit (file : List Nat) (junk : Nat → Nat) (file_offset end_ : Nat)
    (hpos : 0 < file_offset) (hle : file_offset ≤ end_)
    (hfit : words_bounded file ∨ file.length ≤ file_offset - 1 + (end_ - file_offset + 65))
    (hgood : 1 < end_ - file_offset ∨ file.length < file_offset ∨
      isskip (file.getD (file_offset - 1) 0) = true) :
    child_parse file junk file_offset end_ =
      some (output_of (words_in file file_offset end_)) := by
  have hlen := read_buffer_length file file_offset end_
  have hbuf : ∀ i, i < (read_buffer file file_offset end_).length →
      (fun i => (read_buffer file file_offset end_).getD i (junk i)) i =
        file.getD (file_offset - 1 + i) 0 :=
    fun i hi => read_buffer_getD file file_offset end_ (junk i) i hi
  obtain ⟨p1, p2, p3⟩ := initial_position_clean file
    (fun i => (read_buffer file file_offset end_).getD i (junk i))
    (read_buffer file file_offset end_).length file_offset end_ hpos hlen hbuf hgood
  unfold child_parse
  simp only []
  rw [if_pos hpos]
  rw [parse_loop_clean_fit file (file_offset - 1) (end_ - file_offset + 65) _ _
    (end_ - file_offset + 1) hlen hbuf hfit (by omega) _ _ (by omega) (by omega) p2]
  rw [show file_offset - 1 + (end_ - file_offset + 1) = end_ by omega]
  rw [← words_in_skip file file_offset _ end_ (by omega) p3]

theorem getD_take (l : List Nat) (n i d : Nat) (h : i < n) :
    (l.take n).getD i d = l.getD i d := by
  rw [List.getD_eq_getElem?_getD, List.getD_eq_getElem?_getD, List.getElem?_take_of_lt h]

theorem takeWhile_take (p : Nat → Bool) : ∀ (l : List Nat) (n : Nat),
    (l.takeWhile p).length ≤ n → (l.take n).takeWhile p = l.takeWhile p := by
  intro l
  induction l with
  | nil => intro n _; simp
  | cons x t ih =>
    intro n h
    by_cases hx : p x = true
    · rw [List.takeWhile_cons, if_pos hx] at h ⊢
      cases n with
      | zero => simp at h
      | succ n =>
        rw [List.take_succ_cons, List.takeWhile_cons, if_pos hx,
          ih n (by simpa using h)]
    · rw [List.takeWhile_cons, if_neg hx]
      cases n with
      | zero => simp
      | succ n => rw [List.take_succ_cons, List.takeWhile_cons, if_neg hx]

theorem word_at_take (file : List Nat) (n i : Nat)
    (h : i + (word_at file i).length ≤ n) :
    word_at (file.take n) i = word_at file i := by
  unfold word_at at *
  rw [List.drop_take]
  exact takeWhile_take _ _ _ (by omega)

theorem word_at_length_le (file : List Nat) (i : Nat) (h : i ≤ file.length) :
    i + (word_at file i).length ≤ file.length := by
  unfold word_at
  have := (List.takeWhile_sublist (fun c => !isskip c) : List.Sublist _ (file.drop i)).length_le
  rw [List.length_drop] at this
  omega

theorem is_word_start_take (file : List Nat) (n i : Nat) (h : i < n)
    (hs : is_word_start file i = true) : is_word_start (file.take n) i = true := by
  rw [is_word_start_iff] at hs ⊢
  obtain ⟨s1, s2, s3⟩ := hs
  refine ⟨by rw [List.length_take]; omega, ?_, ?_⟩
  · rw [getD_take _ _ _ _ h]; exact s2
  · rcases s3 with s3 | s3
    · exact Or.inl s3
    · right
      rw [getD_take _ _ _ _ (by omega)]; exact s3

theorem read_buffer_take (file : List Nat) (file_offset end_ : Nat) :
    read_buffer (file.take (file_offset - 1 + (end_ - file_offset + 65))) file_offset end_ =
      read_buffer file file_offset end_ := by
  unfold read_buffer MAX_WORD_LENGTH
  have h0 : (if file_offset > 0 then file_offset - 1 else 0) = file_offset - 1 := by
    split <;> omega
  rw [h0, List.drop_take,
    show file_offset - 1 + (end_ - file_offset + 65) - (file_offset - 1) =
      end_ - file_offset + 64 + 1 by omega, List.take_take, Nat.min_self]

theorem child_parse_take (file : List Nat) (junk : Nat → Nat) (file_offset end_ : Nat) :
    child_parse (file.take (file_offset - 1 + (end_ - file_offset + 65))) junk file_offset end_ =
      child_parse file junk file_offset end_ := by
  unfold child_parse
  rw [read_buffer_take]

theorem mem_words_in (file : List Nat) (a b i : Nat) (h1 : a ≤ i) (h2 : i < b)
    (hs : is_word_start file i = true) : word_at file i ∈ words_in file a b := by
  unfold words_in word_starts_in
  apply List.mem_map_of_mem
  rw [List.mem_filter]
  refine ⟨?_, hs⟩
  rw [List.mem_range'_1]
  omega


/-- C21: lookahead sufficiency. For every file, every range
`[file_offset, end_)` and every word of the file that begins at an offset `i`
of the range and is at most `MAX_WORD_LENGTH` bytes long: the word lies inside
the window that `child_parse` reads (the window begins at offset
`file_offset - 1`, or 0 for `file_offset = 0`, and holds the bytes of
`read_buffer`); the token the loop body copies from the word's first byte
(buffer index `i - (file_offset - 1)`) is the whole word; and `child_parse`
returns with the whole word among its tokens. -/
theorem lookahead_sufficient (file : List Nat) (junk : Nat → Nat) (file_offset end_ i : Nat)
    (h1 : file_offset ≤ i) (h2 : i < end_) (hs : is_word_start file i = true)
    (hlen : (word_at file i).length ≤ MAX_WORD_LENGTH) :
    (file_offset - 1 ≤ i ∧
      i + (word_at file i).length ≤
        file_offset - 1 + (read_buffer file file_offset end_).length) ∧
    (List.range
        (seek_next_skip (fun k => (read_buffer file file_offset end_).getD k (junk k))
          (i - (file_offset - 1)) (read_buffer file file_offset end_).length -
            (i - (file_offset - 1)))).map
      (fun k => (read_buffer file file_offset end_).getD (i - (file_offset - 1) + k)
        (junk (i - (file_offset - 1) + k))) = word_at file i ∧
    ∃ out, child_parse file junk file_offset end_ = some out ∧ word_at file i ∈ out.words := by
  unfold MAX_WORD_LENGTH at hlen
  have hi : i < file.length := ((is_word_start_iff file i).1 hs).1
  have hwl := word_at_length_le file i (by omega)
  have hN : i + (word_at file i).length ≤ file_offset - 1 + (end_ - file_offset + 65) := by
    omega
  have hw' := word_at_take file _ i hN
  have hs' := is_word_start_take file (file_offset - 1 + (end_ - file_offset + 65)) i
    (by omega) hs
  have hrb := read_buffer_take file file_offset end_
  have hcp := child_parse_take file junk file_offset end_
  have hlen' := read_buffer_length (file.take (file_offset - 1 + (end_ - file_offset + 65)))
    file_offset end_
  have hbuf' : ∀ k, k < (read_buffer file file_offset end_).length →
      (fun k => (read_buffer file file_offset end_).getD k (junk k)) k =
        (file.take (file_offset - 1 + (end_ - file_offset + 65))).getD
          (file_offset - 1 + k) 0 := by
    intro k hk
    have := read_buffer_getD (file.take (file_offset - 1 + (end_ - file_offset + 65)))
      file_offset end_ (junk k) k (by rw [hrb]; exact hk)
    rw [hrb] at this
    exact this
  rw [hrb] at hlen'
  have hflen : (file.take (file_offset - 1 + (end_ - file_offset + 65))).length ≤
      file_offset - 1 + (end_ - file_offset + 65) := by
    rw [List.length_take]; omega
  have hblen := read_buffer_length file file_offset end_
  refine ⟨⟨by omega, by omega⟩, ?_, ?_⟩
  · have hpp : i - (file_offset - 1) < (read_buffer file file_offset end_).length := by omega
    have hword : isskip ((fun k => (read_buffer file file_offset end_).getD k (junk k))
        (i - (file_offset - 1))) = false := by
      rw [hbuf' _ hpp, show file_offset - 1 + (i - (file_offset - 1)) = i by omega]
      exact ((is_word_start_iff _ i).1 hs').2.1
    obtain ⟨_, _, t3, _, _⟩ := token_eq_word_at_fit
      (file.take (file_offset - 1 + (end_ - file_offset + 65))) (file_offset - 1)
      (end_ - file_offset + 65)
      (fun k => (read_buffer file file_offset end_).getD k (junk k))
      (read_buffer file file_offset end_).length (end_ - file_offset + 1) hlen' hbuf'
      (Or.inr hflen) (by omega) (i - (file_offset - 1)) hpp (by omega) hword
    rw [show file_offset - 1 + (i - (file_offset - 1)) = i by omega, hw'] at t3
    exact t3
  · rw [← hcp, ← hw']
    rcases Nat.eq_zero_or_pos file_offset with hz | hpos
    · rw [hz] at hflen hs' ⊢
      simp only [Nat.zero_sub, Nat.zero_add, Nat.sub_zero] at hflen hs' ⊢
      rw [child_parse_zero_fit _ junk end_ (Or.inr hflen)]
      refine ⟨_, rfl, ?_⟩
      show _ ∈ leading_token _ end_ ++ words_in _ 0 end_
      exact List.mem_append_right _ (mem_words_in _ 0 end_ i (by omega) h2 hs')
    · have hgood : 1 < end_ - file_offset ∨
          (file.take (file_offset - 1 + (end_ - file_offset + 65))).length < file_offset ∨
          isskip ((file.take (file_offset - 1 + (end_ - file_offset + 65))).getD
            (file_offset - 1) 0) = true := by
        by_cases hone : 1 < end_ - file_offset
        · exact Or.inl hone
        · right; right
          have hif : i = file_offset := by omega
          rcases ((is_word_start_iff _ i).1 hs').2.2 with h0 | hprev
          · omega
          · rw [hif] at hprev
            exact hprev
      rw [child_parse_pos_fit _ junk file_offset end_ hpos (by omega) (Or.inr hflen) hgood]
      refine ⟨_, rfl, ?_⟩
      show _ ∈ words_in _ file_offset end_
      exact mem_words_in _ file_offset end_ i h1 h2 hs'

/-- Witness for C21: the file "ab cde" with the range `[2, 4)`; the word "cde"
begins at offset 3 inside the range and ends behind it. -/
theorem lookahead_sufficient_witness :
    (2 - 1 ≤ 3 ∧ 3 + (word_at [97, 98, 32, 99, 100, 101] 3).length ≤
        2 - 1 + (read_buffer [97, 98, 32, 99, 100, 101] 2 4).length) ∧
    (List.range
        (seek_next_skip (fun k => (read_buffer [97, 98, 32, 99, 100, 101] 2 4).getD k 0)
          (3 - (2 - 1)) (read_buffer [97, 98, 32, 99, 100, 101] 2 4).length -
            (3 - (2 - 1)))).map
      (fun k => (read_buffer [97, 98, 32, 99, 100, 101] 2 4).getD (3 - (2 - 1) + k) 0) =
        word_at [97, 98, 32, 99, 100, 101] 3 ∧
    ∃ out, child_parse [97, 98, 32, 99, 100, 101] (fun _ => 0) 2 4 = some out ∧
      word_at [97, 98, 32, 99, 100, 101] 3 ∈ out.words :=
  lookahead_sufficient [97, 98, 32, 99, 100, 101] (fun _ => 0) 2 4 3
    (by decide) (by decide) (by decide) (by decide)


/-! ## The two aggregators agree -/

theorem aggregate_results_array
    (qsort : (word_count → word_count → Int) → List word_count → List word_count)
    (hq : is_qsort qsort) (children : List (List Nat × Nat)) :
    ∃ R, aggregate_results qsort children = qsort cmp_int_desc R ∧
      R.Pairwise (fun a b => strcmp a.word b.word ≤ 0) ∧
      R.Nodup ∧
      (∀ e, e ∈ R → e.count = (occurrences e.word (slot_words children) : Nat)) ∧
      (∀ w, w ∈ R.map (fun e => e.word) ↔ w ∈ slot_words children) := by
  obtain ⟨R, hR, hsorted, hnd⟩ := aggregate_results_form qsort hq children
  obtain ⟨_, hcount, hmem, _⟩ := aggregate_results_spec qsort hq children
  obtain ⟨hperm, _⟩ := hq cmp_int_desc cmp_int_desc_consistent R
  rw [fill_word_array_words] at hcount hmem
  rw [hR] at hcount hmem
  refine ⟨R, hR, hsorted, hnd, fun e he => hcount e (hperm.mem_iff.2 he), fun w => ?_⟩
  rw [← hmem w]
  exact ((hperm.map (fun e => e.word)).mem_iff).symm

theorem aggregate_cpp_array
    (qsort : (word_count → word_count → Int) → List word_count → List word_count)
    (children : List (List Nat × Nat)) :
    ∃ R, aggregate_cpp qsort children = qsort cmp_int_desc R ∧
      R.Pairwise (fun a b => strcmp a.word b.word ≤ 0) ∧
      R.Nodup ∧
      (∀ e, e ∈ R → e.count = (occurrences e.word (slot_words children) : Nat)) ∧
      (∀ w, w ∈ R.map (fun e => e.word) ↔ w ∈ slot_words children) := by
  obtain ⟨a1, a2, a3⟩ := fill_fold_spec (slot_words children) [] []
    (slot_words_nul_free children) (fun t ht => by simp at ht) (by simp)
    (fun e he => by simp at he) (fun t => by simp)
  have c1 := fill_fold_sorted (slot_words children) [] List.Pairwise.nil
  rw [List.nil_append] at a2 a3
  unfold aggregate_cpp aggregate_results_cpp
  rw [fill_children_eq]
  generalize (slot_words children).foldl fill_step [] = T at *
  have hwords : (T.map (fun e => ({ count := e.2, word := e.1 } : word_count))).map
      (fun e => e.word) = T.map (fun e => e.1) := by
    rw [List.map_map]
    rfl
  refine ⟨_, rfl, ?_, ?_, ?_, ?_⟩
  · rw [List.pairwise_map]
    exact c1.imp (fun h => Int.le_of_lt h)
  · apply List.Nodup.of_map (fun e : word_count => e.word)
    rw [hwords]
    exact a1
  · intro e he
    rw [List.mem_map] at he
    obtain ⟨t, ht, rfl⟩ := he
    exact a2 t ht
  · intro w
    rw [hwords]
    exact a3 w

theorem counted_arrays_eq (tokens : List (List Nat)) (R1 R2 : List word_count)
    (hnul : ∀ w, w ∈ tokens → ∀ x, x ∈ w → x ≠ 0)
    (s1 : R1.Pairwise (fun a b => strcmp a.word b.word ≤ 0))
    (s2 : R2.Pairwise (fun a b => strcmp a.word b.word ≤ 0))
    (n1 : R1.Nodup) (n2 : R2.Nodup)
    (c1 : ∀ e, e ∈ R1 → e.count = (occurrences e.word tokens : Nat))
    (c2 : ∀ e, e ∈ R2 → e.count = (occurrences e.word tokens : Nat))
    (m1 : ∀ w, w ∈ R1.map (fun e => e.word) ↔ w ∈ tokens)
    (m2 : ∀ w, w ∈ R2.map (fun e => e.word) ↔ w ∈ tokens) : R1 = R2 := by
  have hsub : ∀ (U V : List word_count),
      (∀ e, e ∈ U → e.count = (occurrences e.word tokens : Nat)) →
      (∀ w, w ∈ U.map (fun e => e.word) ↔ w ∈ tokens) →
      (∀ e, e ∈ V → e.count = (occurrences e.word tokens : Nat)) →
      (∀ w, w ∈ V.map (fun e => e.word) ↔ w ∈ tokens) →
      ∀ e, e ∈ U → e ∈ V := by
    intro U V u2 u3 v2 v3 e he
    have hk : e.word ∈ V.map (fun e => e.word) :=
      (v3 e.word).2 ((u3 e.word).1 (List.mem_map.2 ⟨e, he, rfl⟩))
    rw [List.mem_map] at hk
    obtain ⟨e', he', hk'⟩ := hk
    have h2 : e'.count = e.count := by rw [v2 e' he', u2 e he, hk']
    have : e' = e := by
      cases e
      cases e'
      simp only [word_count.mk.injEq]
      exact ⟨h2, hk'⟩
    rw [← this]
    exact he'
  have hperm : R1.Perm R2 :=
    (List.perm_ext_iff_of_nodup n1 n2).2
      (fun e => ⟨hsub R1 R2 c1 m1 c2 m2 e, hsub R2 R1 c2 m2 c1 m1 e⟩)
  apply sorted_perm_unique (fun a b : word_count => strcmp a.word b.word ≤ 0) _ _ hperm s1 s2
  intro a b ha hb hab hba
  have na : ∀ x, x ∈ a.word → x ≠ 0 :=
    hnul a.word ((m1 a.word).1 (List.mem_map.2 ⟨a, ha, rfl⟩))
  have nb : ∀ x, x ∈ b.word → x ≠ 0 :=
    hnul b.word ((m1 b.word).1 (List.mem_map.2 ⟨b, hb, rfl⟩))
  rw [strcmp_antisymm a.word b.word] at hba
  have hw : a.word = b.word := strcmp_eq_zero a.word b.word na nb (by omega)
  have hc : a.count = b.count := by rw [c1 a ha, c1 b hb, hw]
  cases a
  cases b
  simp only [word_count.mk.injEq]
  exact ⟨hc, hw⟩

/-- C22: the two aggregators are equivalent. For every `qsort` that meets the
contract of the C library and every list of slots (slot content and
`number_words` per worker, in particular the slots of any list of worker token
sequences), `aggregate_results` of wfc.c (sort by `strcmp`, count runs in
place, sort by count) and the parent of wfc.cpp (`fill_table` per worker into
the map ordered by `cmp_str`, then sort by count) produce the same sequence of
output entries (word, count); this also holds when wfc.cpp visits the workers
in another order (`ch2` a permutation of `ch1`). -/
theorem aggregators_equivalent
    (qsort : (word_count → word_count → Int) → List word_count → List word_count)
    (hq : is_qsort qsort) (ch1 ch2 : List (List Nat × Nat)) (h : ch1.Perm ch2) :
    aggregate_results qsort ch1 = aggregate_cpp qsort ch2 := by
  rw [← aggregate_cpp_perm qsort ch1 ch2 h]
  obtain ⟨R1, e1, s1, n1, c1, m1⟩ := aggregate_results_array qsort hq ch1
  obtain ⟨R2, e2, s2, n2, c2, m2⟩ := aggregate_cpp_array qsort ch1
  rw [e1, e2, counted_arrays_eq (slot_words ch1) R1 R2 (slot_words_nul_free ch1)
    s1 s2 n1 n2 c1 c2 m1 m2]

/-- Witness for C22: two workers with the token sequences "b a" and "c b", with
insertion sort as `qsort`; wfc.cpp visits the workers in the opposite order. -/
theorem aggregators_equivalent_witness :
    is_qsort insertion_qsort ∧
    (slots_of [[[98], [97]], [[99], [98]]]).Perm (slots_of [[[99], [98]], [[98], [97]]]) ∧
    aggregate_results insertion_qsort (slots_of [[[98], [97]], [[99], [98]]]) =
      aggregate_cpp insertion_qsort (slots_of [[[99], [98]], [[98], [97]]]) :=
  ⟨insertion_qsort_is_qsort, List.Perm.swap _ _ [],
    aggregators_equivalent insertion_qsort insertion_qsort_is_qsort _ _
      (List.Perm.swap _ _ [])⟩


/-! ## Ranges at or past the end of the file -/

theorem read_buffer_at_end (file : List Nat) (file_offset end_ : Nat)
    (h : file.length ≤ file_offset) :
    (read_buffer file file_offset end_).length ≤ 1 ∧
      (0 < (read_buffer file file_offset end_).length → 0 < file_offset) := by
  rw [read_buffer_length]
  constructor
  · omega
  · intro h0
    rcases Nat.eq_zero_or_pos file_offset with hz | hp
    · rw [hz] at h h0
      have : file.length = 0 := by omega
      rw [this] at h0
      simp at h0
    · exact hp

theorem initial_position_at_end (buffer : Nat → Nat) (buffer_end file_offset end_ : Nat)
    (h1 : buffer_end ≤ 1) (h0 : 0 < buffer_end → 0 < file_offset) :
    buffer_end ≤ initial_parse_position buffer buffer_end file_offset end_ := by
  unfold initial_parse_position
  by_cases hpos : file_offset > 0
  · rw [if_pos hpos]
    have g1 := seek_next_ge buffer 1 buffer_end false
    have g2 := seek_next_ge buffer 2 buffer_end false
    have g3 := seek_next_ge buffer (seek_next_skip buffer 2 buffer_end) buffer_end false
    have g4 := seek_next_ge buffer 2 buffer_end true
    unfold seek_next_nonskip seek_next_skip at *
    split
    · omega
    · split
      · split
        · omega
        · omega
      · omega
  · rw [if_neg hpos]
    by_cases hb : 0 < buffer_end
    · exact absurd (h0 hb) hpos
    · omega

/-- C24: a range that begins at or past the end of the file yields nothing.
For every file, every range with `file.length ≤ file_offset ≤ end_` and every
content `junk` of the buffer positions that `fread` did not fill (among them
`buffer[0]` or `buffer[1]`, which the boundary correction inspects),
`child_parse` returns with no token, nothing written to the slot and
`number_words = 0`. -/
theorem range_past_end_yields_nothing (file : List Nat) (junk : Nat → Nat)
    (file_offset end_ : Nat) (hpast : file.length ≤ file_offset) (hle : file_offset ≤ end_) :
    child_parse file junk file_offset end_ =
      some { words := [], shm := [], number_words := 0 } := by
  have _ := hle
  obtain ⟨h1, h0⟩ := read_buffer_at_end file file_offset end_ hpast
  have hp := initial_position_at_end
    (fun i => (read_buffer file file_offset end_).getD i (junk i))
    (read_buffer file file_offset end_).length file_offset end_ h1 h0
  unfold child_parse
  simp only []
  exact parse_loop_past _ _ _ _ _ hp

/-- Witness for C24: wfc.cpp on the 3-byte file "abc" with parallelism 3 has
`chars_per_child = 2` and hands child 2 the range `[4, 6)`, which lies past the
end of the file; here the buffer is empty and `buffer[0]` is uninitialised. -/
theorem range_past_end_yields_nothing_witness :
    child_range (chars_per_child_cpp 3 (no_childs 3 3)) 2 = (4, 6) ∧
    ∀ junk : Nat → Nat, child_parse [97, 98, 99] junk 4 6 =
      some { words := [], shm := [], number_words := 0 } :=
  ⟨by decide, fun junk =>
    range_past_end_yields_nothing [97, 98, 99] junk 4 6 (by decide) (by decide)⟩

/-! ## The slot encoding -/

/-- C23: the slot encoding round trip. For every file, every range and every
buffer content, `child_parse` returns, and reading `number_words`
null-terminated strings from the bytes it wrote (whatever lies behind them in
the slot), each string beginning one byte behind the null byte of the one
before, gives back the tokens it emitted, in order and number. The second part
shows the case of an empty token: on the file " a" with range `[0, 2)` the
tokens are the empty string and "a", the slot holds the bytes 0, 97, 0, and the
reading returns the two tokens. -/
theorem slot_round_trip :
    (∀ (file : List Nat) (junk : Nat → Nat) (file_offset end_ : Nat) (rest : List Nat),
      ∃ out, child_parse file junk file_offset end_ = some out ∧
        out.number_words = out.words.length ∧
        read_words out.number_words (out.shm ++ rest) = out.words) ∧
    (∀ junk : Nat → Nat, ∃ out, child_parse [32, 97] junk 0 2 = some out ∧
      out.words = [[], [97]] ∧ out.shm = [0, 97, 0] ∧
      read_words out.number_words out.shm = [[], [97]]) := by
  constructor
  · intro file junk file_offset end_ rest
    obtain ⟨out, ho, hw⟩ := child_parse_total file junk file_offset end_
    have hform : out = output_of out.words := by
      unfold child_parse at ho
      exact parse_loop_output_of _ _ _ _ _ _ ho
    refine ⟨out, ho, by rw [hform]; rfl, ?_⟩
    have hnul : ∀ t, t ∈ out.words → ∀ x, x ∈ t → x ≠ 0 := by
      intro t ht x hx h0
      have := hw t ht x hx
      rw [h0] at this
      exact absurd this (by decide)
    have := read_words_encode out.words rest hnul
    rw [hform]
    exact this
  · intro junk
    rw [child_parse_junk _ junk (fun _ => 0)]
    exact ⟨_, rfl, by decide, by decide, by decide⟩


/-! ## Termination of the parse loop -/

theorem parse_position_advances (buffer : Nat → Nat) (buffer_end parse_position : Nat)
    (h : parse_position < buffer_end) :
    parse_position <
      seek_next_nonskip buffer (seek_next_skip buffer parse_position buffer_end) buffer_end := by
  have h1 := seek_next_ge buffer parse_position buffer_end true
  have h2 := seek_next_ge buffer (seek_next buffer parse_position buffer_end true) buffer_end false
  unfold seek_next_nonskip seek_next_skip
  by_cases hs : isskip (buffer parse_position) = true
  · -- the token is empty; the seek for the next word character leaves the position
    rcases Nat.lt_or_ge parse_position
      (seek_next buffer (seek_next buffer parse_position buffer_end true) buffer_end false)
      with hlt | hge
    · exact hlt
    · have he1 : seek_next buffer parse_position buffer_end true = parse_position := by omega
      rw [he1] at hge ⊢
      have he2 : seek_next buffer parse_position buffer_end false = parse_position := by
        have := seek_next_ge buffer parse_position buffer_end false
        omega
      have hat := seek_next_at buffer parse_position buffer_end false (by rw [he2]; exact h)
      rw [he2, hs] at hat
      exact absurd hat (by decide)
  · rcases Nat.lt_or_ge parse_position (seek_next buffer parse_position buffer_end true)
      with hlt | hge
    · omega
    · have he1 : seek_next buffer parse_position buffer_end true = parse_position := by omega
      have hat := seek_next_at buffer parse_position buffer_end true (by rw [he1]; exact h)
      rw [he1] at hat
      exact absurd hat hs

theorem parse_loop_iterations (buffer : Nat → Nat) (buffer_end parse_bound : Nat) :
    ∀ fuel pp, min buffer_end parse_bound - pp < fuel →
      ∃ out, parse_loop buffer buffer_end parse_bound fuel pp = some out ∧
        out.number_words ≤ min buffer_end parse_bound - pp := by
  intro fuel
  induction fuel with
  | zero => intro pp h; omega
  | succ fuel ih =>
    intro pp h
    by_cases hc : pp < buffer_end ∧ pp < parse_bound
    · have hadv := parse_position_advances buffer buffer_end pp hc.1
      obtain ⟨out, ho, hn⟩ := ih
        (seek_next_nonskip buffer (seek_next_skip buffer pp buffer_end) buffer_end) (by omega)
      rw [parse_loop_iter _ _ _ _ _ hc, ho]
      refine ⟨_, rfl, ?_⟩
      show out.number_words + 1 ≤ _
      omega
    · rw [parse_loop_exit _ _ _ _ _ hc]
      exact ⟨_, rfl, Nat.zero_le _⟩

/-- C25: the parse loop of `child_parse` terminates. Each iteration moves
`parse_position` strictly forward, also when the byte at `parse_position` is
skippable and the token copied is empty; hence from any position, with more
fuel than `min(buffer_end, parse_bound) - parse_position`, the loop returns
after at most that many iterations (one per counted word); and `child_parse`
returns on every file and range, after at most `min(buffer_end, parse_bound)`
iterations. -/
theorem parse_loop_terminates :
    (∀ (buffer : Nat → Nat) (buffer_end parse_position : Nat),
      parse_position < buffer_end →
      parse_position <
        seek_next_nonskip buffer (seek_next_skip buffer parse_position buffer_end) buffer_end ∧
      (isskip (buffer parse_position) = true →
        seek_next_skip buffer parse_position buffer_end - parse_position = 0)) ∧
    (∀ (buffer : Nat → Nat) (buffer_end parse_bound fuel parse_position : Nat),
      min buffer_end parse_bound - parse_position < fuel →
      ∃ out, parse_loop buffer buffer_end parse_bound fuel parse_position = some out ∧
        out.words.length = out.number_words ∧
        out.number_words ≤ min buffer_end parse_bound - parse_position) ∧
    (∀ (file : List Nat) (junk : Nat → Nat) (file_offset end_ : Nat),
      ∃ out, child_parse file junk file_offset end_ = some out ∧
        out.words.length = out.number_words ∧
        out.number_words ≤ min (read_buffer file file_offset end_).length
          (if file_offset > 0 then end_ - file_offset + 1 else end_ - file_offset)) := by
  refine ⟨fun buffer buffer_end pp h => ⟨parse_position_advances buffer buffer_end pp h, ?_⟩,
    fun buffer buffer_end parse_bound fuel pp h => ?_, fun file junk file_offset end_ => ?_⟩
  · intro hs
    have hge := seek_next_ge buffer pp buffer_end true
    unfold seek_next_skip
    rcases Nat.lt_or_ge pp (seek_next buffer pp buffer_end true) with hlt | hge2
    · have := seek_next_between buffer pp buffer_end true pp (le_refl _) hlt
      rw [hs] at this
      exact absurd this (by decide)
    · omega
  · obtain ⟨out, ho, hn⟩ := parse_loop_iterations buffer buffer_end parse_bound fuel pp h
    refine ⟨out, ho, ?_, hn⟩
    rw [parse_loop_output_of _ _ _ _ _ _ ho]
    rfl
  · unfold child_parse
    simp only []
    obtain ⟨out, ho, hn⟩ := parse_loop_iterations
      (fun i => (read_buffer file file_offset end_).getD i (junk i))
      (read_buffer file file_offset end_).length
      (if file_offset > 0 then end_ - file_offset + 1 else end_ - file_offset)
      ((read_buffer file file_offset end_).length + 1)
      (initial_parse_position (fun i => (read_buffer file file_offset end_).getD i (junk i))
        (read_buffer file file_offset end_).length file_offset end_)
      (by omega)
    refine ⟨out, ho, ?_, by omega⟩
    rw [parse_loop_output_of _ _ _ _ _ _ ho]
    rfl

/-- Witness for C25 on the buffer " a": from position 0 the loop runs twice
(an empty token, then "a"), within the bound `min 2 2 - 0`. -/
theorem parse_loop_terminates_witness :
    ∃ out, parse_loop (fun i => [32, 97].getD i 0) 2 2 3 0 = some out ∧
      out.words.length = out.number_words ∧ out.number_words ≤ min 2 2 - 0 :=
  parse_loop_terminates.2.1 (fun i => [32, 97].getD i 0) 2 2 3 0 (by decide)


/-! ## Claim C11: ties in the ranked output -/

end Wfc
